import Mathlib

/-!
# daglp: longest path of a commit DAG

A shallow embedding of `daglp.cpp`.  The program reads lines
`<name> <timestamp> <parent>...`, builds a graph of `Vertex` objects owned by
the global map `vertices`, computes with the memoised recursion `maxLength` the
longest path leaving the vertex of the first line, and prints one such path.

Modelling conventions.

* The free store is a list of `Vertex` values; a `Vertex *` is an index into
  it, `NULL` is `none`.  Objects are never freed, so `new` appends.
* `Timestamp` (`unsigned long`) is a natural number below `2 ^ 64`; the
  conversions of `long` and of the literal `-1` are explicit (`toTimestamp`).
* `int` values are integers; the one arithmetic operation on them, `mp + 1`,
  is followed by the reduction `toInt32` to the 32 bit range.
* Recursion and the pointer chasing loops take a fuel argument; running out of
  fuel is the result `Res.outOfFuel`, kept apart from the faults of the C++
  abstract machine (`Res.fault`).
-/

namespace Daglp

/-! ## Results of a run -/

/-- Ways in which the C++ program leaves defined behaviour. -/
inductive Fault where
  /-- dereference of `NULL` -/
  | nullDeref
  /-- dereference of an address that is not an allocated `Vertex` -/
  | wildPointer
  /-- read of a variable or member that was never initialised -/
  | indeterminateRead
  deriving DecidableEq

/-- Result of running a piece of the program with a bound on the number of
nested calls or loop iterations. -/
inductive Res (α : Type) where
  | ok (a : α)
  | fault (f : Fault)
  | outOfFuel
  deriving DecidableEq

/-! ## Data model -/

/-- The type `Timestamp`, `typedef unsigned long Timestamp`. -/
abbrev Timestamp := Nat

/-- Conversion of a `long` (or of the `int` literal `-1`) to `Timestamp`. -/
def toTimestamp (x : Int) : Timestamp := (x % 2 ^ 64).toNat

/-- The value `-1` as a `Timestamp`: the "not given" mark of `get_vertex`. -/
def UNSET : Timestamp := toTimestamp (-1)

/-- Reduction of an integer to the range of a 32 bit `int`. -/
def toInt32 (x : Int) : Int := (x + 2 ^ 31) % 2 ^ 32 - 2 ^ 31

/-- A pointer variable or member that may never have been assigned. -/
inductive Slot where
  | indeterminate
  | holds (p : Option Nat)
  deriving DecidableEq

/-- The class `Vertex`.  `edges` holds addresses of vertices. -/
structure Vertex where
  name : String
  maxLength : Int
  timestamp : Timestamp
  edges : List Nat
  lpFrom : Slot
  deriving DecidableEq

/-- The constructor `Vertex(n, ts)`: it sets `name`, `timestamp` and
`maxLength(-1)`; `edges` is default constructed and `lpFrom` is left alone. -/
def Vertex.new (n : String) (ts : Timestamp) : Vertex :=
  { name := n, maxLength := -1, timestamp := ts, edges := [], lpFrom := Slot.indeterminate }

/-- The free store: every `Vertex` ever allocated, by address. -/
abbrev Heap := List Vertex

/-- The type `VertexMap`, `map <string, Vertex *>`, as an association list
without repeated keys. -/
abbrev VertexMap := List (String × Nat)

/-- The member `find` of `VertexMap` (`none` is `end()`). -/
def VertexMap.find : VertexMap → String → Option Nat
  | [], _ => none
  | (k, p) :: rest, name => if k = name then some p else VertexMap.find rest name

/-- The member `insert` of `VertexMap`: no effect when the key is there. -/
def VertexMap.insert (m : VertexMap) (name : String) (p : Nat) : VertexMap :=
  match VertexMap.find m name with
  | some _ => m
  | none => m ++ [(name, p)]

/-- The program state touched by `get_vertex`: the free store and the global
`vertices`. -/
structure Store where
  heap : Heap
  vertices : VertexMap
  deriving DecidableEq

/-- State at program start. -/
def Store.empty : Store := { heap := [], vertices := [] }

/-! ## Graph store and builder -/

/-- The function `get_vertex(name, ts)`: returns the address of the vertex and
the new state. -/
def get_vertex (s : Store) (name : String) (ts : Timestamp) : Nat × Store :=
  match VertexMap.find s.vertices name with
  | none =>
    let v := s.heap.length
    (v, { heap := s.heap ++ [Vertex.new name ts],
          vertices := VertexMap.insert s.vertices name v })
  | some p =>
    if ts ≠ toTimestamp (-1) then
      (p, { s with heap := s.heap.modify (fun x => { x with timestamp := ts }) p })
    else
      (p, s)

/-- The member `add_edge` called on the vertex at address `v`. -/
def add_edge (s : Store) (v dst : Nat) : Store :=
  { s with heap := s.heap.modify (fun x => { x with edges := x.edges ++ [dst] }) v }

/-- One input line after tokenisation: name, timestamp as read into `long ts`,
parent names. -/
structure Record where
  nodeName : String
  ts : Int
  parents : List String
  deriving DecidableEq

/-- The loop `while (iss >> parentName) v->add_edge(get_vertex(parentName, -1))`. -/
def addParents (s : Store) (v : Nat) : List String → Store
  | [] => s
  | parentName :: rest =>
    let r := get_vertex s parentName (toTimestamp (-1))
    addParents (add_edge r.2 v r.1) v rest

/-- State of the read loop: the store and the variable `end`. -/
structure Build where
  store : Store
  endV : Option Nat
  deriving DecidableEq

/-- State before the first line. -/
def Build.init : Build := { store := Store.empty, endV := none }

/-- Body of the read loop for one record. -/
def processRecord (b : Build) (r : Record) : Build :=
  let g := get_vertex b.store r.nodeName (toTimestamp r.ts)
  let e := match b.endV with
    | none => some g.1
    | some e => some e
  { store := addParents g.2 g.1 r.parents, endV := e }

/-- The read loop over records. -/
def readRecords (b : Build) (rs : List Record) : Build :=
  rs.foldl processRecord b

/-! ## Record parser

`istringstream iss(line); iss >> nodeName; long ts; iss >> ts;
while (iss >> parentName) ...` -/

/-- The classification `isspace` of the "C" locale. -/
def isspace (c : Char) : Bool :=
  c = ' ' || (9 ≤ c.toNat && c.toNat ≤ 13)

/-- An input string stream: the characters not yet consumed and two state
bits. -/
structure IStream where
  buf : List Char
  eofbit : Bool
  failbit : Bool
  deriving DecidableEq

/-- The test `good()`. -/
def IStream.good (s : IStream) : Bool := !s.eofbit && !s.failbit

/-- The sentry of a formatted input function: fails on a stream that is not
good, else skips white space and fails at the end of the input. -/
def sentry (s : IStream) : IStream × Bool :=
  if s.good then
    let rest := s.buf.dropWhile isspace
    if rest.isEmpty then
      ({ buf := rest, eofbit := true, failbit := true }, false)
    else
      ({ s with buf := rest }, true)
  else
    ({ s with failbit := true }, false)

/-- The extraction `iss >> str` of a string: `str` keeps its value when the
sentry fails. -/
def extractString (s : IStream) (str : String) : IStream × String :=
  match sentry s with
  | (s1, false) => (s1, str)
  | (s1, true) =>
    let tok := s1.buf.takeWhile (fun c => !isspace c)
    let rest := s1.buf.dropWhile (fun c => !isspace c)
    ({ buf := rest, eofbit := rest.isEmpty, failbit := tok.isEmpty }, String.mk tok)

/-- Largest `long`. -/
def LONG_MAX : Int := 2 ^ 63 - 1

/-- Smallest `long`. -/
def LONG_MIN : Int := -(2 ^ 63)

/-- The extraction `iss >> ts` of a `long`; `none` stands for the indeterminate
value of a `long` that was declared without initialiser and never written.
An optional sign and decimal digits are consumed; without a digit the value is
0 and the stream fails, out of range the value saturates and the stream
fails. -/
def extractLong (s : IStream) (n : Option Int) : IStream × Option Int :=
  match sentry s with
  | (s1, false) => (s1, n)
  | (s1, true) =>
    let signed : Bool × List Char :=
      match s1.buf with
      | '-' :: r => (true, r)
      | '+' :: r => (false, r)
      | b => (false, b)
    let digits := signed.2.takeWhile Char.isDigit
    let rest := signed.2.dropWhile Char.isDigit
    let mag : Nat := digits.foldl (fun a c => 10 * a + (c.toNat - 48)) 0
    if digits.isEmpty then
      ({ buf := rest, eofbit := rest.isEmpty, failbit := true }, some 0)
    else if signed.1 then
      if (mag : Int) > 2 ^ 63 then
        ({ buf := rest, eofbit := rest.isEmpty, failbit := true }, some LONG_MIN)
      else
        ({ buf := rest, eofbit := rest.isEmpty, failbit := false }, some (-(mag : Int)))
    else
      if (mag : Int) > LONG_MAX then
        ({ buf := rest, eofbit := rest.isEmpty, failbit := true }, some LONG_MAX)
      else
        ({ buf := rest, eofbit := rest.isEmpty, failbit := false }, some (mag : Int))

/-- The loop `while (iss >> parentName)`, collecting the names read.  Every
successful extraction consumes a character, so `buf.length + 1` rounds
suffice. -/
def readParents : Nat → IStream → List String
  | 0, _ => []
  | n + 1, s =>
    let r := extractString s ""
    if r.1.failbit then [] else r.2 :: readParents n r.1

/-- Tokenisation of one line.  The timestamp is `none` when `ts` is read
without ever having been written. -/
def tokenize (line : String) : String × Option Int × List String :=
  let iss : IStream := { buf := line.data, eofbit := false, failbit := false }
  let a := extractString iss ""
  let b := extractLong a.1 none
  (a.2, b.2, readParents (b.1.buf.length + 1) b.1)

/-- The record of a line; passing an indeterminate `ts` to `get_vertex` is a
fault. -/
def parseLine (line : String) : Res Record :=
  match tokenize line with
  | (nodeName, some ts, parents) => Res.ok { nodeName := nodeName, ts := ts, parents := parents }
  | (_, none, _) => Res.fault Fault.indeterminateRead

/-- The read loop `while (getline(*in, line))` over the lines of the input. -/
def readLines (b : Build) : List String → Res Build
  | [] => Res.ok b
  | line :: rest =>
    match parseLine line with
    | Res.ok r => readLines (processRecord b r) rest
    | Res.fault f => Res.fault f
    | Res.outOfFuel => Res.outOfFuel

/-! ## Longest path engine -/

/-- The `for` loop of `maxLength` over the edges still to visit, with `call`
standing for the recursive call; the state is the running maximum `mp`. -/
def maxLengthLoop (call : Heap → Nat → Res (Int × Heap)) :
    List Nat → Int → Heap → Res (Int × Heap)
  | [], mp, h => Res.ok (mp, h)
  | i :: rest, mp, h =>
    match call h i with
    | Res.ok (p, h1) => maxLengthLoop call rest (if p > mp then p else mp) h1
    | Res.fault f => Res.fault f
    | Res.outOfFuel => Res.outOfFuel

/-- The function `maxLength(v)` for the vertex at address `v`; the first
argument bounds the depth of nested calls.  Returns the value and the store
with the lengths recorded. -/
def maxLength : Nat → Heap → Nat → Res (Int × Heap)
  | 0, _, _ => Res.outOfFuel
  | fuel + 1, h, v =>
    match h[v]? with
    | none => Res.fault Fault.wildPointer
    | some x =>
      if x.maxLength ≠ -1 then
        Res.ok (x.maxLength, h)
      else
        match maxLengthLoop (maxLength fuel) x.edges (-1) h with
        | Res.ok (mp, h1) =>
          Res.ok (toInt32 (mp + 1),
            h1.modify (fun y => { y with maxLength := toInt32 (mp + 1) }) v)
        | Res.fault f => Res.fault f
        | Res.outOfFuel => Res.outOfFuel

/-- The inner `for` loop of the reconstruction: scans the edges, keeping in
`lv` the chosen vertex and in `lp` its length. -/
def selectLoop (h : Heap) : List Nat → Option Nat → Int → Res (Option Nat × Int)
  | [], lv, lp => Res.ok (lv, lp)
  | i :: rest, lv, lp =>
    match h[i]? with
    | none => Res.fault Fault.wildPointer
    | some x =>
      if lv = none ∨ x.maxLength > lp then
        selectLoop h rest (some i) x.maxLength
      else
        selectLoop h rest lv lp

/-- The loop `for (Vertex *v = end; v; )` that records the longest path; the
state is the store, `v` and the variable `start`.  The first argument bounds
the number of times the body runs. -/
def reconstruct : Nat → Heap → Option Nat → Slot → Res (Heap × Slot)
  | _, h, none, start => Res.ok (h, start)
  | 0, _, some _, _ => Res.outOfFuel
  | fuel + 1, h, some v, start =>
    match h[v]? with
    | none => Res.fault Fault.wildPointer
    | some x =>
      match selectLoop h x.edges none (-1) with
      | Res.ok (some lv, _) =>
        reconstruct fuel (h.modify (fun y => { y with lpFrom := Slot.holds (some v) }) lv)
          (some lv) (Slot.holds (some lv))
      | Res.ok (none, _) => reconstruct fuel h none start
      | Res.fault f => Res.fault f
      | Res.outOfFuel => Res.outOfFuel

/-- The loop `for (Vertex *v = start; v; v = v->lpFrom)` with `visit` applied
to the address and the object of every vertex met (the program prints the
object); the first argument bounds the number of vertices. -/
def followPath {α : Type} (visit : Nat → Vertex → α) : Nat → Heap → Slot → Res (List α)
  | _, _, Slot.indeterminate => Res.fault Fault.indeterminateRead
  | _, _, Slot.holds none => Res.ok []
  | 0, _, Slot.holds (some _) => Res.outOfFuel
  | fuel + 1, h, Slot.holds (some v) =>
    match h[v]? with
    | none => Res.fault Fault.wildPointer
    | some x =>
      match followPath visit fuel h x.lpFrom with
      | Res.ok out => Res.ok (visit v x :: out)
      | Res.fault f => Res.fault f
      | Res.outOfFuel => Res.outOfFuel

/-- The output line `v->name << ' ' << v->timestamp`. -/
def outputLine (x : Vertex) : String :=
  x.name ++ " " ++ toString x.timestamp

/-- The part of `main` after the read loop: `maxLength(end)`,
`end->lpFrom = NULL`, the reconstruction loop and the display loop, the latter
applying `visit` to every vertex of the path.  `start` is declared without
initialiser. -/
def longestPath {α : Type} (visit : Nat → Vertex → α) (fuel : Nat) (b : Build) :
    Res (List α) :=
  match b.endV with
  | none => Res.fault Fault.nullDeref
  | some e =>
    match maxLength fuel b.store.heap e with
    | Res.ok (_, h1) =>
      match reconstruct fuel (h1.modify (fun y => { y with lpFrom := Slot.holds none }) e)
          (some e) Slot.indeterminate with
      | Res.ok (h3, start) => followPath visit fuel h3 start
      | Res.fault f => Res.fault f
      | Res.outOfFuel => Res.outOfFuel
    | Res.fault f => Res.fault f
    | Res.outOfFuel => Res.outOfFuel

/-- The function `main` reading the given lines: the lines it prints. -/
def main (fuel : Nat) (lines : List String) : Res (List String) :=
  match readLines Build.init lines with
  | Res.ok b => longestPath (fun _ x => outputLine x) fuel b
  | Res.fault f => Res.fault f
  | Res.outOfFuel => Res.outOfFuel

/-! ## Graph notions used in the statements -/

/-- The outgoing edges of the vertex at address `v` (none when `v` is not
allocated). -/
def edgesOf (h : Heap) (v : Nat) : List Nat :=
  match h[v]? with
  | some x => x.edges
  | none => []

/-- The member `maxLength` of the vertex at address `v` (-1 when `v` is not
allocated). -/
def lengthAt (h : Heap) (v : Nat) : Int :=
  match h[v]? with
  | some x => x.maxLength
  | none => -1

/-- The object at address `v` (an unnamed vertex when `v` is not allocated). -/
def vertexAt (h : Heap) (v : Nat) : Vertex :=
  match h[v]? with
  | some x => x
  | none => Vertex.new "" 0

/-- The vertex at `v` has an outgoing edge to `w`. -/
def Edge (h : Heap) (v w : Nat) : Prop := w ∈ edgesOf h v

/-- A directed path: each vertex has an outgoing edge to the next one. -/
def IsPath (h : Heap) (p : List Nat) : Prop := List.Chain' (Edge h) p

/-- A directed path that starts at `n`. -/
def PathFrom (h : Heap) (n : Nat) (p : List Nat) : Prop :=
  p.head? = some n ∧ IsPath h p

/-- The number `len` is the largest edge count (vertices minus one) of a
directed path that starts at `n`. -/
def IsLongest (h : Heap) (n : Nat) (len : Nat) : Prop :=
  (∃ p, PathFrom h n p ∧ p.length = len + 1) ∧
    ∀ p, PathFrom h n p → p.length ≤ len + 1

/-- No vertex reaches itself along one or more edges. -/
def Acyclic (h : Heap) : Prop := ∀ v, ¬ Relation.TransGen (Edge h) v v

/-- Every edge leads to an allocated vertex. -/
def EdgesValid (h : Heap) : Prop :=
  ∀ (v : Nat) (x : Vertex), h[v]? = some x → ∀ w ∈ x.edges, w < h.length

/-- No length has been computed yet: every `maxLength` member is `-1`. -/
def AllUncomputed (h : Heap) : Prop :=
  ∀ (v : Nat) (x : Vertex), h[v]? = some x → x.maxLength = -1

/-- The recorded lengths are right: a vertex whose `maxLength` is not `-1`
holds the length of its longest path, and so do all its successors. -/
def LengthsRight (h : Heap) : Prop :=
  ∀ (v : Nat) (x : Vertex), h[v]? = some x → x.maxLength ≠ -1 →
    (0 ≤ x.maxLength ∧ IsLongest h v x.maxLength.toNat) ∧
      ∀ w ∈ x.edges, ∃ y, h[w]? = some y ∧ y.maxLength ≠ -1

/-- The stores agree up to the `maxLength` members. -/
def OnlyLengths (h h' : Heap) : Prop :=
  h'.length = h.length ∧
    ∀ (u : Nat) (x : Vertex), h[u]? = some x → ∃ m, h'[u]? = some { x with maxLength := m }

/-- The stores agree up to the `lpFrom` members. -/
def OnlyLinks (h h' : Heap) : Prop :=
  h'.length = h.length ∧
    ∀ (u : Nat) (x : Vertex), h[u]? = some x → ∃ l, h'[u]? = some { x with lpFrom := l }

/-- Following `lpFrom` from the pointer `s` visits exactly the vertices of the
list and then reaches `NULL`. -/
def Linked (h : Heap) : Slot → List Nat → Prop
  | s, [] => s = Slot.holds none
  | s, v :: rest => s = Slot.holds (some v) ∧ ∃ x, h[v]? = some x ∧ Linked h x.lpFrom rest


/-- What a call `maxLength(v)` that returned `len` has done to the store:
only lengths changed, the recorded lengths are right, the lengths recorded
before are kept, `len` is recorded at `v` and is the length of the longest
path from `v`, and vertices out of reach of `v` are untouched. -/
structure MaxPost (h h' : Heap) (v : Nat) (len : Int) : Prop where
  only : OnlyLengths h h'
  right : LengthsRight h'
  mono : ∀ (u : Nat) (x : Vertex), h[u]? = some x → x.maxLength ≠ -1 → h'[u]? = some x
  cached : ∃ x, h'[v]? = some x ∧ x.maxLength = len
  nonneg : 0 ≤ len
  longest : IsLongest h v len.toNat
  frame : ∀ u, ¬ Relation.ReflTransGen (Edge h) v u → h'[u]? = h[u]?

/-- What the `for` loop of `maxLength` has done after visiting the edges `es`
with running maximum `mp` at entry and `mp'` at exit. -/
structure LoopPost (h h' : Heap) (es : List Nat) (mp mp' : Int) : Prop where
  only : OnlyLengths h h'
  right : LengthsRight h'
  mono : ∀ (u : Nat) (x : Vertex), h[u]? = some x → x.maxLength ≠ -1 → h'[u]? = some x
  cached : ∀ w ∈ es, ∃ y, h'[w]? = some y ∧ y.maxLength ≠ -1 ∧ y.maxLength ≤ mp'
  ge : mp ≤ mp'
  attained : mp' = mp ∨ ∃ w ∈ es, ∃ y, h'[w]? = some y ∧ y.maxLength = mp'
  frame : ∀ u, (∀ w ∈ es, ¬ Relation.ReflTransGen (Edge h) w u) → h'[u]? = h[u]?

/-- The store left by a call of `maxLength` that returned (empty otherwise). -/
def storeAfter : Res (Int × Heap) → Heap
  | Res.ok (_, h) => h
  | _ => []

/-! ## Inputs of the scenarios -/

/-- The linear chain of three commits. -/
def chainLines : List String := ["C3 300 C2", "C2 200 C1", "C1 100"]

/-- The diamond: a merge commit `D` of `B` and `C` with the common parent `A`. -/
def diamondLines : List String := ["D 400 B C", "B 300 A", "C 200 A", "A 100"]

/-- The store built from the lines, empty when reading them faults. -/
def heapOfLines (lines : List String) : Heap :=
  match readLines Build.init lines with
  | Res.ok b => b.store.heap
  | _ => []

/-! ## Invariant of the graph store -/

/-- The invariant of the store while the input is read: every entry of
`vertices` leads to an allocated vertex of that name, every allocated vertex
is entered under its name, edges lead to allocated vertices and no length is
recorded. -/
structure StoreOK (s : Store) : Prop where
  keyed : ∀ (name : String) (p : Nat), VertexMap.find s.vertices name = some p →
    ∃ x, s.heap[p]? = some x ∧ x.name = name
  owned : ∀ (p : Nat) (x : Vertex), s.heap[p]? = some x →
    VertexMap.find s.vertices x.name = some p
  edges : EdgesValid s.heap
  fresh : AllUncomputed s.heap

/-- The timestamp the store holds for a name (`UNSET` for an unknown name). -/
def tsOf (s : Store) (name : String) : Timestamp :=
  match VertexMap.find s.vertices name with
  | some p =>
    match s.heap[p]? with
    | some x => x.timestamp
    | none => UNSET
  | none => UNSET

/-- The names a list of records mentions, as primary name or as parent. -/
def mentioned (rs : List Record) : List String :=
  rs.flatMap (fun r => r.nodeName :: r.parents)

/-- Scenario 4: the one record `Y 500 Z`. -/
def backfillRecords : List Record := [{ nodeName := "Y", ts := 500, parents := ["Z"] }]

/-- The one record `Y 500`, before a second record for `Y`. -/
def repeatRecords : List Record := [{ nodeName := "Y", ts := 500, parents := [] }]

/-- The records of `diamondLines`. -/
def diamondRecords : List Record :=
  [{ nodeName := "D", ts := 400, parents := ["B", "C"] },
   { nodeName := "B", ts := 300, parents := ["A"] },
   { nodeName := "C", ts := 200, parents := ["A"] },
   { nodeName := "A", ts := 100, parents := [] }]

/-- The records of `chainLines`. -/
def chainRecords : List Record :=
  [{ nodeName := "C3", ts := 300, parents := ["C2"] },
   { nodeName := "C2", ts := 200, parents := ["C1"] },
   { nodeName := "C1", ts := 100, parents := [] }]

/-- The records are topologically sorted: a record whose name is a parent of
another record comes after that record. -/
def TopoSorted (rs : List Record) : Prop :=
  ∀ (i : Nat) (hi : i < rs.length) (j : Nat) (hj : j < rs.length),
    rs[j].nodeName ∈ rs[i].parents → i < j

instance (rs : List Record) : Decidable (TopoSorted rs) := by
  unfold TopoSorted
  infer_instance

/-- Two unrelated histories, the first one shorter: `A` with parent `X`, then
the chain `B`, `C`, `D`. -/
def forestLines : List String := ["A 1 X", "X 0", "B 2 C", "C 3 D", "D 4"]

/-- The records of `forestLines`. -/
def forestRecords : List Record :=
  [{ nodeName := "A", ts := 1, parents := ["X"] },
   { nodeName := "X", ts := 0, parents := [] },
   { nodeName := "B", ts := 2, parents := ["C"] },
   { nodeName := "C", ts := 3, parents := ["D"] },
   { nodeName := "D", ts := 4, parents := [] }]

/-- The vertex `v` reaches a directed cycle: some vertex reachable from `v`
reaches itself along one or more edges. -/
def ReachesCycle (h : Heap) (v : Nat) : Prop :=
  ∃ c, Relation.ReflTransGen (Edge h) v c ∧ Relation.TransGen (Edge h) c c

/-- Every `maxLength` member is a value of a 32 bit `int`. -/
def IntRange (h : Heap) : Prop :=
  ∀ (v : Nat) (x : Vertex), h[v]? = some x → -(2 ^ 31) ≤ x.maxLength ∧ x.maxLength < 2 ^ 31

/-- The recorded lengths are closed: a vertex whose `maxLength` is not `-1`
has only successors with a recorded length, and reaches no cycle.  This holds
of every store `maxLength` can leave, acyclic or not. -/
def Settled (h : Heap) : Prop :=
  ∀ (u : Nat) (x : Vertex), h[u]? = some x → x.maxLength ≠ -1 →
    (∀ w ∈ x.edges, ∃ y, h[w]? = some y ∧ y.maxLength ≠ -1) ∧ ¬ ReachesCycle h u

/-- What holds of a call `maxLength(v)` on any graph when it returns `len`
with store `h'`: only lengths changed, the invariants are kept, lengths
recorded before are kept, and `len` is recorded at `v`. -/
structure ReturnPost (h h' : Heap) (v : Nat) (len : Int) : Prop where
  only : OnlyLengths h h'
  range : IntRange h'
  settled : Settled h'
  mono : ∀ (u : Nat) (x : Vertex), h[u]? = some x → x.maxLength ≠ -1 → h'[u]? = some x
  cached : ∃ x, h'[v]? = some x ∧ x.maxLength = len ∧ x.maxLength ≠ -1

/-- The input with a cycle `C`, `D` out of reach of the end vertex `A`. -/
def strayCycleLines : List String := ["A 1 B", "B 2", "C 3 D", "D 4 C"]

/-- The records of `strayCycleLines`. -/
def strayCycleRecords : List Record :=
  [{ nodeName := "A", ts := 1, parents := ["B"] },
   { nodeName := "B", ts := 2, parents := [] },
   { nodeName := "C", ts := 3, parents := ["D"] },
   { nodeName := "D", ts := 4, parents := ["C"] }]

/-- The input with the cycle `A`, `B` through the end vertex. -/
def cycleLines : List String := ["A 1 B", "B 2 A"]

/-! ## Tokens of a line, as the specification describes them -/

/-- The whitespace-delimited tokens of a character sequence, read character by
character: `cur` holds the characters of the token being read. -/
def tokensFrom : List Char → List Char → List (List Char)
  | [], cur => if cur.isEmpty then [] else [cur]
  | c :: cs, cur =>
    if isspace c then
      if cur.isEmpty then tokensFrom cs [] else cur :: tokensFrom cs []
    else
      tokensFrom cs (cur ++ [c])

/-- The whitespace-delimited tokens of a line. -/
def tokens (line : String) : List String :=
  (tokensFrom line.data []).map String.mk

/-- The number a sequence of decimal digits denotes. -/
def digitsValue (ds : List Char) : Nat :=
  ds.foldl (fun a c => 10 * a + (c.toNat - 48)) 0

/-- A name as the parser reads it: not empty and free of white space. -/
def IsToken (name : String) : Prop :=
  name.data ≠ [] ∧ ∀ c ∈ name.data, isspace c = false

/-- A token without its optional leading sign. -/
def numberBody : List Char → List Char
  | '-' :: r => r
  | '+' :: r => r
  | b => b

/-- The `long` that `iss >> ts` yields for a token made of an optional sign
and decimal digits `ds`: the number, or the nearest bound when out of range. -/
def longOfDigits (negative : Bool) (ds : List Char) : Int :=
  if negative then
    if (digitsValue ds : Int) > 2 ^ 63 then LONG_MIN else -(digitsValue ds : Int)
  else
    if (digitsValue ds : Int) > LONG_MAX then LONG_MAX else (digitsValue ds : Int)

/-- The token, an optional sign and decimal digits `ds`, is in the range of
`long`. -/
def longInRange (negative : Bool) (ds : List Char) : Bool :=
  if negative then decide ((digitsValue ds : Int) ≤ 2 ^ 63)
  else decide ((digitsValue ds : Int) ≤ LONG_MAX)

/-! ## Renaming of addresses -/

theorem edgesOf_of_get {h : Heap} {v : Nat} {x : Vertex} (hx : h[v]? = some x) :
    edgesOf h v = x.edges := by
  simp [edgesOf, hx]

theorem edge_lt {h : Heap} {v w : Nat} (he : Edge h v w) : v < h.length := by
  unfold Edge edgesOf at he
  cases hv : h[v]? with
  | none => simp [hv] at he
  | some x =>
    by_contra hlt
    have hnone : h[v]? = none := List.getElem?_eq_none (Nat.le_of_not_lt hlt)
    simp [hnone] at hv

theorem edge_target_lt {h : Heap} (hv : EdgesValid h) {v w : Nat} (he : Edge h v w) :
    w < h.length := by
  unfold Edge edgesOf at he
  cases hx : h[v]? with
  | none => simp [hx] at he
  | some x =>
    simp only [hx] at he
    exact hv v x hx w he

theorem edgesOf_congr {h h' : Heap} (hlen : h'.length = h.length)
    (hed : ∀ (u : Nat) (x : Vertex), h[u]? = some x → ∃ y, h'[u]? = some y ∧ y.edges = x.edges) :
    edgesOf h' = edgesOf h := by
  funext u
  unfold edgesOf
  cases hx : h[u]? with
  | none =>
    have hle : h.length ≤ u := by
      by_contra hlt
      have := List.getElem?_eq_getElem (Nat.lt_of_not_le hlt)
      simp [this] at hx
    have hnone : h'[u]? = none := List.getElem?_eq_none (by omega)
    simp [hnone]
  | some x =>
    obtain ⟨y, hy, hyx⟩ := hed u x hx
    simp [hy, hyx]

theorem OnlyLengths.edgesOf_eq {h h' : Heap} (hol : OnlyLengths h h') :
    edgesOf h' = edgesOf h :=
  edgesOf_congr hol.1 (fun u x hx => by
    obtain ⟨m, hm⟩ := hol.2 u x hx
    exact ⟨_, hm, rfl⟩)

theorem OnlyLinks.links_edgesOf_eq {h h' : Heap} (hol : OnlyLinks h h') :
    edgesOf h' = edgesOf h :=
  edgesOf_congr hol.1 (fun u x hx => by
    obtain ⟨m, hm⟩ := hol.2 u x hx
    exact ⟨_, hm, rfl⟩)

theorem edge_congr {h h' : Heap} (he : edgesOf h' = edgesOf h) : Edge h' = Edge h := by
  funext v w
  simp [Edge, he]

theorem isLongest_congr {h h' : Heap} (he : edgesOf h' = edgesOf h) (n len : Nat) :
    IsLongest h' n len ↔ IsLongest h n len := by
  simp [IsLongest, PathFrom, IsPath, edge_congr he]

theorem acyclic_congr {h h' : Heap} (he : edgesOf h' = edgesOf h) :
    Acyclic h' ↔ Acyclic h := by
  simp [Acyclic, edge_congr he]

theorem pathFrom_single (h : Heap) (n : Nat) : PathFrom h n [n] := by
  simp [PathFrom, IsPath]

theorem pathFrom_cons {h : Heap} {n w : Nat} {p : List Nat} (he : Edge h n w)
    (hp : PathFrom h w p) : PathFrom h n (n :: p) := by
  obtain ⟨hhead, hchain⟩ := hp
  refine ⟨rfl, ?_⟩
  cases p with
  | nil => simp at hhead
  | cons a rest =>
    simp only [List.head?_cons, Option.some.injEq] at hhead
    subst hhead
    exact List.Chain'.cons he hchain

theorem pathFrom_cases {h : Heap} {n : Nat} {p : List Nat} (hp : PathFrom h n p) :
    p = [n] ∨ ∃ w q, p = n :: q ∧ Edge h n w ∧ PathFrom h w q := by
  obtain ⟨hhead, hchain⟩ := hp
  cases p with
  | nil => simp at hhead
  | cons a rest =>
    simp only [List.head?_cons, Option.some.injEq] at hhead
    subst hhead
    cases rest with
    | nil => exact Or.inl rfl
    | cons b rest2 =>
      refine Or.inr ⟨b, b :: rest2, rfl, ?_, rfl, ?_⟩
      · exact (List.chain'_cons.mp hchain).1
      · exact (List.chain'_cons.mp hchain).2

theorem isLongest_unique {h : Heap} {n a b : Nat} (ha : IsLongest h n a)
    (hb : IsLongest h n b) : a = b := by
  obtain ⟨⟨p, hp, hpl⟩, hpa⟩ := ha
  obtain ⟨⟨q, hq, hql⟩, hqb⟩ := hb
  have h1 := hpa q hq
  have h2 := hqb p hp
  omega

theorem isLongest_zero_of_no_edges {h : Heap} {n : Nat} (he : edgesOf h n = []) :
    IsLongest h n 0 := by
  refine ⟨⟨[n], pathFrom_single h n, rfl⟩, ?_⟩
  intro p hp
  rcases pathFrom_cases hp with rfl | ⟨w, q, _, hw, _⟩
  · simp
  · simp [Edge, he] at hw

theorem isLongest_succ {h : Heap} {n w m : Nat} (hw : Edge h n w) (hm : IsLongest h w m)
    (hall : ∀ u, Edge h n u → ∃ l, IsLongest h u l ∧ l ≤ m) : IsLongest h n (m + 1) := by
  obtain ⟨⟨p, hp, hpl⟩, _⟩ := hm
  refine ⟨⟨n :: p, pathFrom_cons hw hp, by simp [hpl]⟩, ?_⟩
  intro q hq
  rcases pathFrom_cases hq with rfl | ⟨u, r, rfl, hu, hr⟩
  · simp
  · obtain ⟨l, hl, hlm⟩ := hall u hu
    have := hl.2 r hr
    simp only [List.length_cons]
    omega

theorem no_edges_of_isLongest_zero {h : Heap} {n : Nat} (h0 : IsLongest h n 0) :
    edgesOf h n = [] := by
  cases he : edgesOf h n with
  | nil => rfl
  | cons w rest =>
    have hw : Edge h n w := by simp [Edge, he]
    have := h0.2 [n, w] (pathFrom_cons hw (pathFrom_single h w))
    simp at this


/-! ## The store as a list -/

theorem get_modify_self {h : Heap} {v : Nat} {x : Vertex} (f : Vertex → Vertex)
    (hx : h[v]? = some x) : (h.modify f v)[v]? = some (f x) := by
  simp [List.getElem?_modify_eq, hx]

theorem get_modify_other {h : Heap} {u v : Nat} (f : Vertex → Vertex) (hne : v ≠ u) :
    (h.modify f v)[u]? = h[u]? :=
  List.getElem?_modify_ne f h hne

theorem get_of_lt {h : Heap} {v : Nat} (hv : v < h.length) : ∃ x, h[v]? = some x :=
  ⟨h[v], List.getElem?_eq_getElem hv⟩

theorem lt_of_get {h : Heap} {v : Nat} {x : Vertex} (hx : h[v]? = some x) : v < h.length := by
  by_contra hlt
  have hnone : h[v]? = none := List.getElem?_eq_none (Nat.le_of_not_lt hlt)
  simp [hnone] at hx

theorem OnlyLengths.refl (h : Heap) : OnlyLengths h h :=
  ⟨rfl, fun _ x hx => ⟨x.maxLength, hx⟩⟩

theorem OnlyLengths.trans {a b c : Heap} (hab : OnlyLengths a b) (hbc : OnlyLengths b c) :
    OnlyLengths a c := by
  refine ⟨hbc.1.trans hab.1, fun u x hx => ?_⟩
  obtain ⟨m, hm⟩ := hab.2 u x hx
  obtain ⟨m2, hm2⟩ := hbc.2 u _ hm
  exact ⟨m2, hm2⟩

theorem OnlyLengths.modify (h : Heap) (v : Nat) (m : Int) :
    OnlyLengths h (h.modify (fun y => { y with maxLength := m }) v) := by
  refine ⟨List.length_modify _ _ _, fun u x hx => ?_⟩
  by_cases huv : v = u
  · subst huv
    exact ⟨m, get_modify_self _ hx⟩
  · exact ⟨x.maxLength, by rw [get_modify_other _ huv]; exact hx⟩

theorem OnlyLengths.edgesValid {h h' : Heap} (hol : OnlyLengths h h') (hv : EdgesValid h) :
    EdgesValid h' := by
  intro v y hy w hw
  obtain ⟨x, hx⟩ := get_of_lt (hol.1 ▸ lt_of_get hy)
  obtain ⟨m, hm⟩ := hol.2 v x hx
  rw [hm] at hy
  cases hy
  rw [hol.1]
  exact hv v x hx w hw

theorem OnlyLinks.links_refl (h : Heap) : OnlyLinks h h :=
  ⟨rfl, fun _ x hx => ⟨x.lpFrom, hx⟩⟩

theorem OnlyLinks.links_trans {a b c : Heap} (hab : OnlyLinks a b) (hbc : OnlyLinks b c) :
    OnlyLinks a c := by
  refine ⟨hbc.1.trans hab.1, fun u x hx => ?_⟩
  obtain ⟨m, hm⟩ := hab.2 u x hx
  obtain ⟨m2, hm2⟩ := hbc.2 u _ hm
  exact ⟨m2, hm2⟩

theorem OnlyLinks.links_modify (h : Heap) (v : Nat) (l : Slot) :
    OnlyLinks h (h.modify (fun y => { y with lpFrom := l }) v) := by
  refine ⟨List.length_modify _ _ _, fun u x hx => ?_⟩
  by_cases huv : v = u
  · subst huv
    exact ⟨l, get_modify_self _ hx⟩
  · exact ⟨x.lpFrom, by rw [get_modify_other _ huv]; exact hx⟩

/-! ## Paths of an acyclic graph are short -/

theorem path_all_lt {h : Heap} (hv : EdgesValid h) :
    ∀ (p : List Nat) (n : Nat), n < h.length → PathFrom h n p → ∀ u ∈ p, u < h.length := by
  intro p
  induction p with
  | nil => intro n _ _ u hu; simp at hu
  | cons a rest ih =>
    intro n hn hp u hu
    rcases pathFrom_cases hp with heq | ⟨w, q, heq, hw, hq⟩
    · simp only [List.cons.injEq] at heq
      obtain ⟨rfl, rfl⟩ := heq
      simp only [List.mem_singleton] at hu
      omega
    · simp only [List.cons.injEq] at heq
      obtain ⟨rfl, rfl⟩ := heq
      rcases List.mem_cons.mp hu with rfl | hmem
      · exact hn
      · exact ih w (edge_target_lt hv hw) hq u hmem

theorem path_nodup {h : Heap} (hac : Acyclic h) {p : List Nat} (hp : IsPath h p) :
    p.Nodup := by
  have h1 : List.Chain' (Relation.TransGen (Edge h)) p :=
    List.Chain'.imp (fun _ _ hab => Relation.TransGen.single hab) hp
  have h2 : List.Pairwise (Relation.TransGen (Edge h)) p := List.chain'_iff_pairwise.mp h1
  refine List.Pairwise.imp ?_ h2
  intro a b hab heq
  subst heq
  exact hac a hab

theorem path_length_le {h : Heap} (hac : Acyclic h) (hv : EdgesValid h) {n : Nat}
    (hn : n < h.length) {p : List Nat} (hp : PathFrom h n p) : p.length ≤ h.length := by
  have hsub : p ⊆ List.range h.length := fun u hu =>
    List.mem_range.mpr (path_all_lt hv p n hn hp u hu)
  have := (List.subperm_of_subset (path_nodup hac hp.2) hsub).length_le
  simpa using this

/-! ## The memoised recursion `maxLength` -/

theorem pathFrom_congr {h h' : Heap} (he : edgesOf h' = edgesOf h) (n : Nat) (p : List Nat) :
    PathFrom h' n p ↔ PathFrom h n p := by
  simp [PathFrom, IsPath, edge_congr he]

theorem toInt32_eq {x : Int} (h0 : 0 ≤ x) (h1 : x < 2 ^ 31) : toInt32 x = x := by
  unfold toInt32
  omega

theorem maxLengthLoop_spec (call : Heap → Nat → Res (Int × Heap)) (B : Nat)
    (hcall : ∀ (h1 : Heap) (w : Nat), EdgesValid h1 → LengthsRight h1 → w < h1.length →
      (∀ p, PathFrom h1 w p → p.length ≤ B) →
      ∃ len h', call h1 w = Res.ok (len, h') ∧ MaxPost h1 h' w len) :
    ∀ (es : List Nat) (h1 : Heap) (mp : Int), EdgesValid h1 → LengthsRight h1 →
      (∀ w ∈ es, w < h1.length ∧ ∀ p, PathFrom h1 w p → p.length ≤ B) →
      ∃ mp' h2, maxLengthLoop call es mp h1 = Res.ok (mp', h2) ∧ LoopPost h1 h2 es mp mp' := by
  intro es
  induction es with
  | nil =>
    intro h1 mp _ hr _
    exact ⟨mp, h1, rfl,
      { only := OnlyLengths.refl h1, right := hr, mono := fun _ _ hx _ => hx,
        cached := fun w hw => by simp at hw, ge := le_refl _, attained := Or.inl rfl,
        frame := fun _ _ => rfl }⟩
  | cons i rest ih =>
    intro h1 mp hv hr hes
    obtain ⟨hi, hib⟩ := hes i (List.mem_cons_self _ _)
    obtain ⟨p, ha, hcalleq, hpost⟩ := hcall h1 i hv hr hi hib
    have hedges : edgesOf ha = edgesOf h1 := hpost.only.edgesOf_eq
    have hva : EdgesValid ha := hpost.only.edgesValid hv
    have hrest : ∀ w ∈ rest, w < ha.length ∧ ∀ q, PathFrom ha w q → q.length ≤ B := by
      intro w hw
      obtain ⟨hw1, hw2⟩ := hes w (List.mem_cons_of_mem _ hw)
      refine ⟨by rw [hpost.only.1]; exact hw1, fun q hq => hw2 q ?_⟩
      exact (pathFrom_congr hedges w q).mp hq
    obtain ⟨mp', h2, hloop, hlp⟩ := ih ha (if p > mp then p else mp) hva hpost.right hrest
    refine ⟨mp', h2, ?_, ?_⟩
    · simp only [maxLengthLoop, hcalleq]
      exact hloop
    · obtain ⟨xi, hxi, hxip⟩ := hpost.cached
      have hxi2 : h2[i]? = some xi := hlp.mono i xi hxi (by rw [hxip]; have := hpost.nonneg; omega)
      have hge1 : mp ≤ (if p > mp then p else mp) := by split <;> omega
      have hge2 : p ≤ (if p > mp then p else mp) := by split <;> omega
      have hge3 := hlp.ge
      refine
        { only := hpost.only.trans hlp.only, right := hlp.right, mono := ?_, cached := ?_,
          ge := le_trans hge1 hge3, attained := ?_, frame := ?_ }
      · intro u x hx hne
        exact hlp.mono u x (hpost.mono u x hx hne) hne
      · intro w hw
        rcases List.mem_cons.mp hw with rfl | hw
        · refine ⟨xi, hxi2, ?_, ?_⟩
          · rw [hxip]; have := hpost.nonneg; omega
          · rw [hxip]; omega
        · exact hlp.cached w hw
      · rcases hlp.attained with heq | ⟨w, hw, y, hy, hym⟩
        · by_cases hpm : p > mp
          · right
            refine ⟨i, List.mem_cons_self _ _, xi, hxi2, ?_⟩
            rw [hxip, heq, if_pos hpm]
          · left
            rw [heq, if_neg hpm]
        · exact Or.inr ⟨w, List.mem_cons_of_mem _ hw, y, hy, hym⟩
      · intro u hu
        have h1u : ha[u]? = h1[u]? := hpost.frame u (hu i (List.mem_cons_self _ _))
        have h2u : h2[u]? = ha[u]? := by
          apply hlp.frame u
          intro w hw
          rw [edge_congr hedges]
          exact hu w (List.mem_cons_of_mem _ hw)
        rw [h2u, h1u]

theorem maxLength_spec (B : Nat) :
    ∀ (h : Heap) (v : Nat), EdgesValid h → LengthsRight h → v < h.length → B ≤ 2 ^ 31 →
      (∀ p, PathFrom h v p → p.length ≤ B) → ∀ fuel, B ≤ fuel →
      ∃ len h', maxLength fuel h v = Res.ok (len, h') ∧ MaxPost h h' v len := by
  induction B with
  | zero =>
    intro h v _ _ _ _ hb
    have := hb [v] (pathFrom_single h v)
    simp at this
  | succ B ih =>
    intro h v hv hr hlt hB hb fuel hfuel
    obtain ⟨fuel, rfl⟩ : ∃ f, fuel = f + 1 := ⟨fuel - 1, by omega⟩
    obtain ⟨x, hx⟩ := get_of_lt hlt
    have hedges : edgesOf h v = x.edges := edgesOf_of_get hx
    by_cases hc : x.maxLength ≠ -1
    · -- the length is recorded already
      refine ⟨x.maxLength, h, by simp [maxLength, hx, hc], ?_⟩
      exact
        { only := OnlyLengths.refl h, right := hr, mono := fun _ _ hy _ => hy,
          cached := ⟨x, hx, rfl⟩, nonneg := (hr v x hx hc).1.1,
          longest := (hr v x hx hc).1.2, frame := fun _ _ => rfl }
    · -- the loop over the edges
      have hc' : x.maxLength = -1 := not_not.mp hc
      have hes : ∀ w ∈ x.edges, w < h.length ∧ ∀ p, PathFrom h w p → p.length ≤ B := by
        intro w hw
        have hedge : Edge h v w := by simp [Edge, hedges, hw]
        refine ⟨hv v x hx w hw, fun p hp => ?_⟩
        have := hb (v :: p) (pathFrom_cons hedge hp)
        simp only [List.length_cons] at this
        omega
      obtain ⟨mp, h2, hloop, hlp⟩ :=
        maxLengthLoop_spec (maxLength fuel) B
          (fun h1 w hv1 hr1 hw hp => ih h1 w hv1 hr1 hw (by omega) hp fuel (by omega))
          x.edges h (-1) hv hr hes
      have he2 : edgesOf h2 = edgesOf h := hlp.only.edgesOf_eq
      -- the value computed
      have hval : 0 ≤ mp + 1 ∧ mp + 1 < 2 ^ 31 ∧ IsLongest h v (mp + 1).toNat := by
        cases hxe : x.edges with
        | nil =>
          have hmp : mp = -1 := by
            rcases hlp.attained with heq | ⟨w, hw, _⟩
            · exact heq
            · rw [hxe] at hw; simp at hw
          subst hmp
          refine ⟨by omega, by omega, ?_⟩
          simpa using isLongest_zero_of_no_edges (hedges.trans hxe)
        | cons a rest =>
          obtain ⟨ya, hya, hyane, hyale⟩ := hlp.cached a (by rw [hxe]; exact List.mem_cons_self _ _)
          have hya0 := (hlp.right a ya hya hyane).1.1
          have hmp0 : 0 ≤ mp := le_trans hya0 hyale
          obtain ⟨w, hw, y, hy, hym⟩ : ∃ w ∈ x.edges, ∃ y, h2[w]? = some y ∧ y.maxLength = mp := by
            rcases hlp.attained with heq | hex
            · omega
            · exact hex
          have hyne : y.maxLength ≠ -1 := by omega
          have hwl : IsLongest h w mp.toNat := by
            have := (hlp.right w y hy hyne).1.2
            rw [hym] at this
            exact (isLongest_congr he2 w _).mp this
          have hall : ∀ u, Edge h v u → ∃ l, IsLongest h u l ∧ l ≤ mp.toNat := by
            intro u hu
            have hu' : u ∈ x.edges := by simpa [Edge, hedges] using hu
            obtain ⟨yu, hyu, hyune, hyule⟩ := hlp.cached u hu'
            refine ⟨yu.maxLength.toNat, ?_, ?_⟩
            · exact (isLongest_congr he2 u _).mp (hlp.right u yu hyu hyune).1.2
            · exact Int.toNat_le_toNat hyule
          have hlong : IsLongest h v (mp.toNat + 1) :=
            isLongest_succ (by simp [Edge, hedges, hw]) hwl hall
          obtain ⟨⟨q, hq, hql⟩, _⟩ := hlong
          have hqb := hb q hq
          have hnat : (mp + 1).toNat = mp.toNat + 1 := by omega
          refine ⟨by omega, ?_, ?_⟩
          · have h31 : (2 : Nat) ^ 31 = 2147483648 := by norm_num
            have h31' : (2 : Int) ^ 31 = 2147483648 := by norm_num
            omega
          · rw [hnat]
            exact isLongest_succ (by simp [Edge, hedges, hw]) hwl hall
      obtain ⟨h0, h31, hlongest⟩ := hval
      have hwrap : toInt32 (mp + 1) = mp + 1 := toInt32_eq h0 h31
      obtain ⟨m2, hx2⟩ := hlp.only.2 v x hx
      refine ⟨mp + 1, h2.modify (fun y => { y with maxLength := mp + 1 }) v, ?_, ?_⟩
      · simp [maxLength, hx, hc', hloop, hwrap]
      · have hol : OnlyLengths h (h2.modify (fun y => { y with maxLength := mp + 1 }) v) :=
          hlp.only.trans (OnlyLengths.modify h2 v (mp + 1))
        have hself : (h2.modify (fun y => { y with maxLength := mp + 1 }) v)[v]? =
            some { x with maxLength := mp + 1 } := by
          rw [get_modify_self _ hx2]
        have hother : ∀ u, v ≠ u →
            (h2.modify (fun y => { y with maxLength := mp + 1 }) v)[u]? = h2[u]? :=
          fun u hu => get_modify_other _ hu
        have hcachedAll : ∀ w ∈ x.edges,
            ∃ y, (h2.modify (fun y => { y with maxLength := mp + 1 }) v)[w]? = some y ∧
              y.maxLength ≠ -1 := by
          intro w hw
          by_cases hvw : v = w
          · subst hvw
            exact ⟨_, hself, by simp only; omega⟩
          · obtain ⟨y, hy, hyne, _⟩ := hlp.cached w hw
            exact ⟨y, by rw [hother w hvw]; exact hy, hyne⟩
        refine
          { only := hol, right := ?_, mono := ?_, cached := ⟨_, hself, rfl⟩, nonneg := h0,
            longest := hlongest, frame := ?_ }
        · intro u y hy hyne
          by_cases hvu : v = u
          · subst hvu
            rw [hself] at hy
            cases hy
            refine ⟨⟨h0, (isLongest_congr hol.edgesOf_eq v _).mpr hlongest⟩, hcachedAll⟩
          · rw [hother u hvu] at hy
            obtain ⟨⟨hy0, hyl⟩, hsucc⟩ := hlp.right u y hy hyne
            refine ⟨⟨hy0, ?_⟩, ?_⟩
            · exact (isLongest_congr hol.edgesOf_eq u _).mpr ((isLongest_congr he2 u _).mp hyl)
            · intro w hw
              by_cases hvw : v = w
              · subst hvw
                exact ⟨_, hself, by simp only; omega⟩
              · obtain ⟨z, hz, hzne⟩ := hsucc w hw
                exact ⟨z, by rw [hother w hvw]; exact hz, hzne⟩
        · intro u y hy hyne
          have hvu : v ≠ u := by
            intro heq
            subst heq
            rw [hx] at hy
            cases hy
            exact hyne hc'
          rw [hother u hvu]
          exact hlp.mono u y hy hyne
        · intro u hu
          have hvu : v ≠ u := by
            intro heq
            subst heq
            exact hu Relation.ReflTransGen.refl
          rw [hother u hvu]
          apply hlp.frame u
          intro w hw hreach
          exact hu (Relation.ReflTransGen.head (by simp [Edge, hedges, hw]) hreach)

theorem lengthsRight_of_allUncomputed {h : Heap} (hnew : AllUncomputed h) : LengthsRight h :=
  fun v x hx hne => absurd (hnew v x hx) hne

theorem edgesValid_of_mem {h : Heap} (hm : ∀ x ∈ h, ∀ w ∈ x.edges, w < h.length) :
    EdgesValid h :=
  fun _ x hx w hw => hm x (List.getElem?_mem hx) w hw

theorem allUncomputed_of_mem {h : Heap} (hm : ∀ x ∈ h, x.maxLength = -1) : AllUncomputed h :=
  fun _ x hx => hm x (List.getElem?_mem hx)

theorem acyclic_of_rank {h : Heap} (r : Nat → Nat)
    (hr : ∀ v, v < h.length → ∀ w ∈ edgesOf h v, r w < r v) : Acyclic h := by
  have hstep : ∀ v w, Edge h v w → r w < r v := fun v w he => hr v (edge_lt he) w he
  have htrans : ∀ v w, Relation.TransGen (Edge h) v w → r w < r v := by
    intro v w hvw
    induction hvw with
    | single he => exact hstep _ _ he
    | tail _ he ih => exact lt_trans (hstep _ _ he) ih
  intro v hv
  exact lt_irrefl _ (htrans v v hv)

theorem maxLength_fuel {h : Heap} {n : Nat} (hvalid : EdgesValid h) (hright : LengthsRight h)
    (hacyc : Acyclic h) (hsize : h.length ≤ 2 ^ 31) (hn : n < h.length) :
    ∃ len : Nat, IsLongest h n len ∧
      ∀ fuel, len + 1 ≤ fuel →
        ∃ h', maxLength fuel h n = Res.ok ((len : Int), h') ∧ MaxPost h h' n (len : Int) := by
  obtain ⟨l0, h0', _, hpost0⟩ :=
    maxLength_spec h.length h n hvalid hright hn hsize
      (fun p hp => path_length_le hacyc hvalid hn hp) h.length (le_refl _)
  have hlong := hpost0.longest
  refine ⟨l0.toNat, hlong, fun fuel hfuel => ?_⟩
  obtain ⟨⟨q, hq, hql⟩, hbound⟩ := hlong
  have hqle := path_length_le hacyc hvalid hn hq
  obtain ⟨l1, h1', hrun, hpost1⟩ :=
    maxLength_spec (l0.toNat + 1) h n hvalid hright hn (by omega) hbound fuel hfuel
  have huniq : l1.toNat = l0.toNat := isLongest_unique hpost1.longest hpost0.longest
  have hl1 : l1 = ((l0.toNat : Nat) : Int) := by
    have := hpost1.nonneg
    omega
  rw [hl1] at hrun hpost1
  exact ⟨h1', hrun, hpost1⟩

/-- C2: in an acyclic graph in which no length is recorded yet, `maxLength(n)`
returns, for every vertex `n`, the largest edge count of a directed path that
starts at `n` (a depth of nested calls of one more than that count is enough
for the call to return), and it returns 0 when `n` has no outgoing edge. -/
theorem maxLength_is_longest_path (h : Heap) (n : Nat) (hvalid : EdgesValid h)
    (hacyc : Acyclic h) (hnew : AllUncomputed h) (hsize : h.length ≤ 2 ^ 31)
    (hn : n < h.length) :
    (∃ len : Nat, IsLongest h n len ∧
      ∀ fuel, len + 1 ≤ fuel → ∃ h', maxLength fuel h n = Res.ok ((len : Int), h')) ∧
    (edgesOf h n = [] →
      ∀ fuel, 1 ≤ fuel → ∃ h', maxLength fuel h n = Res.ok ((0 : Int), h')) := by
  obtain ⟨len, hlong, hrun⟩ :=
    maxLength_fuel hvalid (lengthsRight_of_allUncomputed hnew) hacyc hsize hn
  refine ⟨⟨len, hlong, fun fuel hf => ?_⟩, fun hno fuel hf => ?_⟩
  · obtain ⟨h', hr, _⟩ := hrun fuel hf
    exact ⟨h', hr⟩
  · have hz : len = 0 := isLongest_unique hlong (isLongest_zero_of_no_edges hno)
    subst hz
    obtain ⟨h', hr, _⟩ := hrun fuel (by omega)
    exact ⟨h', by simpa using hr⟩

/-- Instance of C2: the merge commit of the diamond. -/
theorem maxLength_is_longest_path_witness :
    EdgesValid (heapOfLines diamondLines) ∧ Acyclic (heapOfLines diamondLines) ∧
    AllUncomputed (heapOfLines diamondLines) ∧ (heapOfLines diamondLines).length ≤ 2 ^ 31 ∧
    0 < (heapOfLines diamondLines).length ∧
    ((∃ len : Nat, IsLongest (heapOfLines diamondLines) 0 len ∧
      ∀ fuel, len + 1 ≤ fuel →
        ∃ h', maxLength fuel (heapOfLines diamondLines) 0 = Res.ok ((len : Int), h')) ∧
    (edgesOf (heapOfLines diamondLines) 0 = [] →
      ∀ fuel, 1 ≤ fuel →
        ∃ h', maxLength fuel (heapOfLines diamondLines) 0 = Res.ok ((0 : Int), h'))) :=
  have hv : EdgesValid (heapOfLines diamondLines) := edgesValid_of_mem (by decide)
  have ha : Acyclic (heapOfLines diamondLines) :=
    acyclic_of_rank (fun v => 4 - v) (by decide)
  have hn : AllUncomputed (heapOfLines diamondLines) := allUncomputed_of_mem (by decide)
  ⟨hv, ha, hn, by decide, by decide,
    maxLength_is_longest_path (heapOfLines diamondLines) 0 hv ha hn (by decide) (by decide)⟩

theorem maxLengthLoop_mono (call call' : Heap → Nat → Res (Int × Heap))
    (hcc : ∀ h i r, call h i = Res.ok r → call' h i = Res.ok r) :
    ∀ (es : List Nat) (mp : Int) (h : Heap) (r : Int × Heap),
      maxLengthLoop call es mp h = Res.ok r → maxLengthLoop call' es mp h = Res.ok r := by
  intro es
  induction es with
  | nil => intro mp h r hr; simpa [maxLengthLoop] using hr
  | cons i rest ih =>
    intro mp h r hr
    simp only [maxLengthLoop] at hr ⊢
    cases hc : call h i with
    | ok a =>
      obtain ⟨p, h1⟩ := a
      rw [hc] at hr
      rw [hcc h i (p, h1) hc]
      exact ih _ _ _ hr
    | fault f => rw [hc] at hr; cases hr
    | outOfFuel => rw [hc] at hr; cases hr

theorem maxLength_succ_fuel :
    ∀ (fuel : Nat) (h : Heap) (v : Nat) (r : Int × Heap),
      maxLength fuel h v = Res.ok r → maxLength (fuel + 1) h v = Res.ok r := by
  intro fuel
  induction fuel with
  | zero => intro h v r hr; simp [maxLength] at hr
  | succ fuel ih =>
    intro h v r hr
    rw [maxLength] at hr ⊢
    cases hx : h[v]? with
    | none => rw [hx] at hr; cases hr
    | some x =>
      rw [hx] at hr
      simp only at hr ⊢
      by_cases hc : x.maxLength ≠ -1
      · rw [if_pos hc] at hr ⊢
        exact hr
      · rw [if_neg hc] at hr ⊢
        cases hl : maxLengthLoop (maxLength fuel) x.edges (-1) h with
        | ok a =>
          obtain ⟨mp, h1⟩ := a
          rw [hl] at hr
          rw [maxLengthLoop_mono (maxLength fuel) (maxLength (fuel + 1)) ih _ _ _ _ hl]
          exact hr
        | fault f => rw [hl] at hr; cases hr
        | outOfFuel => rw [hl] at hr; cases hr

theorem maxLength_more_fuel {fuel fuel' : Nat} (hle : fuel ≤ fuel') {h : Heap} {v : Nat}
    {r : Int × Heap} (hr : maxLength fuel h v = Res.ok r) : maxLength fuel' h v = Res.ok r := by
  induction hle with
  | refl => exact hr
  | step _ ih => exact maxLength_succ_fuel _ _ _ _ ih

theorem maxLength_post {h : Heap} {v : Nat} (hvalid : EdgesValid h) (hright : LengthsRight h)
    (hacyc : Acyclic h) (hsize : h.length ≤ 2 ^ 31) (hv : v < h.length) {fuel : Nat}
    {len : Int} {h1 : Heap} (hrun : maxLength fuel h v = Res.ok (len, h1)) :
    MaxPost h h1 v len := by
  obtain ⟨l0, _, hrun0⟩ := maxLength_fuel hvalid hright hacyc hsize hv
  obtain ⟨h', hr', hpost⟩ := hrun0 (max fuel (l0 + 1)) (le_max_right _ _)
  have := maxLength_more_fuel (le_max_left fuel (l0 + 1)) hrun
  rw [this] at hr'
  cases hr'
  exact hpost

/-- C10: in an acyclic graph whose recorded lengths are right (in particular
when none is recorded), after a call `maxLength(v)` has returned, a second
call returns the same value and the same store, already with nesting depth 1,
which admits no call on a neighbour; and the first call has kept every length
that was recorded before it, so that no length is computed twice. -/
theorem maxLength_second_call (h : Heap) (v : Nat) (fuel : Nat) (len : Int) (h1 : Heap)
    (hvalid : EdgesValid h) (hacyc : Acyclic h) (hright : LengthsRight h)
    (hsize : h.length ≤ 2 ^ 31) (hv : v < h.length)
    (hfirst : maxLength fuel h v = Res.ok (len, h1)) :
    (∀ fuel2, 1 ≤ fuel2 → maxLength fuel2 h1 v = Res.ok (len, h1)) ∧
    (∀ (u : Nat) (x : Vertex), h[u]? = some x → x.maxLength ≠ -1 → h1[u]? = some x) := by
  have hpost := maxLength_post hvalid hright hacyc hsize hv hfirst
  refine ⟨?_, hpost.mono⟩
  obtain ⟨x, hx, hxl⟩ := hpost.cached
  have hne : x.maxLength ≠ -1 := by have := hpost.nonneg; omega
  intro fuel2 hf
  obtain ⟨f, rfl⟩ : ∃ f, fuel2 = f + 1 := ⟨fuel2 - 1, by omega⟩
  rw [maxLength, hx]
  simp only
  rw [if_pos hne, hxl]

/-- Instance of C10: the merge commit of the diamond, first call with depth 3. -/
theorem maxLength_second_call_witness :
    EdgesValid (heapOfLines diamondLines) ∧ Acyclic (heapOfLines diamondLines) ∧
    LengthsRight (heapOfLines diamondLines) ∧ (heapOfLines diamondLines).length ≤ 2 ^ 31 ∧
    0 < (heapOfLines diamondLines).length ∧
    maxLength 3 (heapOfLines diamondLines) 0 =
      Res.ok (2, storeAfter (maxLength 3 (heapOfLines diamondLines) 0)) ∧
    (∀ fuel2, 1 ≤ fuel2 →
      maxLength fuel2 (storeAfter (maxLength 3 (heapOfLines diamondLines) 0)) 0 =
        Res.ok (2, storeAfter (maxLength 3 (heapOfLines diamondLines) 0))) ∧
    (∀ (u : Nat) (x : Vertex), (heapOfLines diamondLines)[u]? = some x → x.maxLength ≠ -1 →
      (storeAfter (maxLength 3 (heapOfLines diamondLines) 0))[u]? = some x) :=
  have hv : EdgesValid (heapOfLines diamondLines) := edgesValid_of_mem (by decide)
  have ha : Acyclic (heapOfLines diamondLines) :=
    acyclic_of_rank (fun v => 4 - v) (by decide)
  have hn : LengthsRight (heapOfLines diamondLines) :=
    lengthsRight_of_allUncomputed (allUncomputed_of_mem (by decide))
  ⟨hv, ha, hn, by decide, by decide, by decide,
    maxLength_second_call (heapOfLines diamondLines) 0 3 2 _ hv ha hn (by decide) (by decide)
      (by decide)⟩

/-! ## The graph store -/

theorem find_append (m : VertexMap) (k : String) (p : Nat) (k' : String) :
    VertexMap.find (m ++ [(k, p)]) k' =
      match VertexMap.find m k' with
      | some q => some q
      | none => if k = k' then some p else none := by
  induction m with
  | nil => simp [VertexMap.find]
  | cons e rest ih =>
    obtain ⟨a, q⟩ := e
    simp only [List.cons_append, VertexMap.find]
    by_cases hak : a = k'
    · simp [hak]
    · simp only [hak, if_false]
      exact ih

theorem get_vertex_absent {s : Store} {name : String} (ts : Timestamp)
    (hf : VertexMap.find s.vertices name = none) :
    get_vertex s name ts =
      (s.heap.length,
        { heap := s.heap ++ [Vertex.new name ts], vertices := s.vertices ++ [(name, s.heap.length)] }) := by
  simp [get_vertex, hf, VertexMap.insert]

theorem get_vertex_present {s : Store} {name : String} {p : Nat} (ts : Timestamp)
    (hf : VertexMap.find s.vertices name = some p) :
    get_vertex s name ts =
      (p, if ts ≠ toTimestamp (-1) then
            { s with heap := s.heap.modify (fun x => { x with timestamp := ts }) p }
          else s) := by
  simp only [get_vertex, hf]
  split <;> rfl

theorem storeOK_empty : StoreOK Store.empty :=
  { keyed := fun name p h => by simp [Store.empty, VertexMap.find] at h,
    owned := fun p x h => by simp [Store.empty] at h,
    edges := fun v x h => by simp [Store.empty] at h,
    fresh := fun v x h => by simp [Store.empty] at h }

theorem storeOK_modify {s : Store} (ok : StoreOK s) (f : Vertex → Vertex) (v : Nat)
    (hname : ∀ x, (f x).name = x.name) (hlen : ∀ x, (f x).maxLength = x.maxLength)
    (hedges : ∀ x, ∀ w ∈ (f x).edges, w ∈ x.edges ∨ w < s.heap.length) :
    StoreOK { s with heap := s.heap.modify f v } := by
  have hget : ∀ (u : Nat) (y : Vertex), (s.heap.modify f v)[u]? = some y →
      ∃ x, s.heap[u]? = some x ∧ (y = x ∨ y = f x) := by
    intro u y hy
    rw [List.getElem?_modify] at hy
    cases hx : s.heap[u]? with
    | none => simp [hx] at hy
    | some x =>
      simp only [hx, Option.map_eq_map, Option.map_some', Option.some.injEq] at hy
      refine ⟨x, rfl, ?_⟩
      by_cases hvu : v = u
      · right; simp [hvu] at hy; exact hy.symm
      · left; simp [hvu] at hy; exact hy.symm
  refine { keyed := ?_, owned := ?_, edges := ?_, fresh := ?_ }
  · intro name p hf
    obtain ⟨x, hx, hxn⟩ := ok.keyed name p hf
    by_cases hvp : v = p
    · subst hvp
      exact ⟨f x, get_modify_self f hx, by rw [hname]; exact hxn⟩
    · exact ⟨x, by simp only; rw [get_modify_other f hvp]; exact hx, hxn⟩
  · intro p y hy
    obtain ⟨x, hx, hyx⟩ := hget p y hy
    have hn : y.name = x.name := by
      rcases hyx with rfl | rfl
      · rfl
      · exact hname x
    simp only
    rw [hn]
    exact ok.owned p x hx
  · intro u y hy w hw
    obtain ⟨x, hx, hyx⟩ := hget u y hy
    simp only [List.length_modify]
    rcases hyx with rfl | rfl
    · exact ok.edges u y hx w hw
    · rcases hedges x w hw with hold | hlt
      · exact ok.edges u x hx w hold
      · exact hlt
  · intro u y hy
    obtain ⟨x, hx, hyx⟩ := hget u y hy
    rcases hyx with rfl | rfl
    · exact ok.fresh u y hx
    · rw [hlen]; exact ok.fresh u x hx

theorem storeOK_get_vertex {s : Store} (ok : StoreOK s) (name : String) (ts : Timestamp) :
    StoreOK (get_vertex s name ts).2 := by
  cases hf : VertexMap.find s.vertices name with
  | none =>
    rw [get_vertex_absent ts hf]
    refine { keyed := ?_, owned := ?_, edges := ?_, fresh := ?_ }
    · intro k p hk
      simp only [find_append] at hk
      cases hk0 : VertexMap.find s.vertices k with
      | some q =>
        simp only [hk0, Option.some.injEq] at hk
        subst hk
        obtain ⟨x, hx, hxn⟩ := ok.keyed k q hk0
        exact ⟨x, by simp only; rw [List.getElem?_append_left (lt_of_get hx)]; exact hx, hxn⟩
      | none =>
        simp only [hk0] at hk
        by_cases hnk : name = k
        · simp only [hnk, if_true, Option.some.injEq] at hk
          subst hk
          subst hnk
          exact ⟨Vertex.new name ts, by simp, rfl⟩
        · simp [hnk] at hk
    · intro p x hx
      simp only at hx ⊢
      rw [find_append]
      by_cases hp : p < s.heap.length
      · rw [List.getElem?_append_left hp] at hx
        rw [ok.owned p x hx]
      · have hx' := hx
        rw [List.getElem?_append_right (Nat.le_of_not_lt hp)] at hx'
        have hp0 : p - s.heap.length = 0 := by
          by_contra hne
          have : ([Vertex.new name ts] : List Vertex)[p - s.heap.length]? = none :=
            List.getElem?_eq_none (by simp; omega)
          rw [this] at hx'
          cases hx'
        rw [hp0] at hx'
        simp only [List.getElem?_cons_zero, Option.some.injEq] at hx'
        subst hx'
        have hpe : p = s.heap.length := by omega
        subst hpe
        simp [Vertex.new, hf]
    · intro u x hx w hw
      simp only [List.length_append, List.length_singleton] at hx ⊢
      by_cases hu : u < s.heap.length
      · rw [List.getElem?_append_left hu] at hx
        have := ok.edges u x hx w hw
        omega
      · rw [List.getElem?_append_right (Nat.le_of_not_lt hu)] at hx
        have hx2 : x = Vertex.new name ts := by
          cases hd : u - s.heap.length with
          | zero => rw [hd] at hx; simpa using hx.symm
          | succ n => rw [hd] at hx; simp at hx
        subst hx2
        simp [Vertex.new] at hw
    · intro u x hx
      simp only at hx
      by_cases hu : u < s.heap.length
      · rw [List.getElem?_append_left hu] at hx
        exact ok.fresh u x hx
      · rw [List.getElem?_append_right (Nat.le_of_not_lt hu)] at hx
        have hx2 : x = Vertex.new name ts := by
          cases hd : u - s.heap.length with
          | zero => rw [hd] at hx; simpa using hx.symm
          | succ n => rw [hd] at hx; simp at hx
        subst hx2
        rfl
  | some p =>
    rw [get_vertex_present ts hf]
    by_cases hts : ts ≠ toTimestamp (-1)
    · rw [if_pos hts]
      exact storeOK_modify ok _ p (fun _ => rfl) (fun _ => rfl) (fun _ w hw => Or.inl hw)
    · rw [if_neg hts]
      exact ok

theorem get_vertex_find {s : Store} (name : String) (ts : Timestamp) :
    VertexMap.find (get_vertex s name ts).2.vertices name = some (get_vertex s name ts).1 := by
  cases hf : VertexMap.find s.vertices name with
  | none => rw [get_vertex_absent ts hf]; simp [find_append, hf]
  | some p =>
    rw [get_vertex_present ts hf]
    split <;> exact hf

theorem get_vertex_find_other {s : Store} {name : String} (ts : Timestamp) {k : String}
    (hk : name ≠ k) :
    VertexMap.find (get_vertex s name ts).2.vertices k = VertexMap.find s.vertices k := by
  cases hf : VertexMap.find s.vertices name with
  | none =>
    rw [get_vertex_absent ts hf]
    simp only [find_append, hk, if_false]
    cases VertexMap.find s.vertices k <;> rfl
  | some p =>
    rw [get_vertex_present ts hf]
    split <;> rfl

theorem get_vertex_find_mono {s : Store} (name : String) (ts : Timestamp) {k : String} {p : Nat}
    (hk : VertexMap.find s.vertices k = some p) :
    VertexMap.find (get_vertex s name ts).2.vertices k = some p := by
  by_cases hnk : name = k
  · subst hnk
    rw [get_vertex_present ts hk]
    split <;> exact hk
  · rw [get_vertex_find_other ts hnk]; exact hk

theorem get_vertex_length {s : Store} (name : String) (ts : Timestamp) :
    (get_vertex s name ts).2.heap.length =
      match VertexMap.find s.vertices name with
      | some _ => s.heap.length
      | none => s.heap.length + 1 := by
  cases hf : VertexMap.find s.vertices name with
  | none => rw [get_vertex_absent ts hf]; simp
  | some p =>
    rw [get_vertex_present ts hf]
    split <;> simp

theorem get_vertex_length_le {s : Store} (name : String) (ts : Timestamp) :
    s.heap.length ≤ (get_vertex s name ts).2.heap.length := by
  rw [get_vertex_length]
  cases VertexMap.find s.vertices name with
  | none => exact Nat.le_succ _
  | some _ => exact le_refl _

theorem get_vertex_lt {s : Store} (ok : StoreOK s) (name : String) (ts : Timestamp) :
    (get_vertex s name ts).1 < (get_vertex s name ts).2.heap.length := by
  obtain ⟨x, hx, _⟩ :=
    (storeOK_get_vertex ok name ts).keyed name _ (get_vertex_find name ts)
  exact lt_of_get hx

theorem get_vertex_edgesOf {s : Store} (name : String) (ts : Timestamp) :
    edgesOf (get_vertex s name ts).2.heap = edgesOf s.heap := by
  funext u
  cases hf : VertexMap.find s.vertices name with
  | none =>
    rw [get_vertex_absent ts hf]
    simp only [edgesOf]
    by_cases hu : u < s.heap.length
    · rw [List.getElem?_append_left hu]
    · rw [List.getElem?_append_right (Nat.le_of_not_lt hu),
        List.getElem?_eq_none (Nat.le_of_not_lt hu)]
      cases hd : u - s.heap.length with
      | zero => simp [Vertex.new]
      | succ n => simp
  | some p =>
    rw [get_vertex_present ts hf]
    by_cases hts : ts ≠ toTimestamp (-1)
    · rw [if_pos hts]
      simp only [edgesOf, List.getElem?_modify]
      cases s.heap[u]? with
      | none => rfl
      | some x => by_cases hpu : p = u <;> simp [hpu]
    · rw [if_neg hts]

theorem get_vertex_tsOf {s : Store} (ok : StoreOK s) (name : String) (ts : Timestamp)
    (k : String) :
    tsOf (get_vertex s name ts).2 k =
      if name = k ∧ ts ≠ UNSET then ts else tsOf s k := by
  cases hf : VertexMap.find s.vertices name with
  | none =>
    by_cases hnk : name = k
    · subst hnk
      have h1 : tsOf (get_vertex s name ts).2 name = ts := by
        unfold tsOf
        rw [get_vertex_find]
        rw [get_vertex_absent ts hf]
        simp [Vertex.new]
      have h2 : tsOf s name = UNSET := by simp [tsOf, hf]
      rw [h1, h2]
      by_cases hts : ts = UNSET
      · simp [hts]
      · simp [hts]
    · have h1 : tsOf (get_vertex s name ts).2 k = tsOf s k := by
        unfold tsOf
        rw [get_vertex_find_other ts hnk]
        cases hk : VertexMap.find s.vertices k with
        | none => rfl
        | some q =>
          obtain ⟨x, hx, _⟩ := ok.keyed k q hk
          rw [get_vertex_absent ts hf]
          simp only
          rw [List.getElem?_append_left (lt_of_get hx)]
      rw [h1]
      simp [hnk]
  | some p =>
    obtain ⟨x, hx, hxn⟩ := ok.keyed name p hf
    by_cases hts : ts ≠ toTimestamp (-1)
    · by_cases hnk : name = k
      · subst hnk
        unfold tsOf
        rw [get_vertex_find, get_vertex_present ts hf, if_pos hts]
        simp only
        rw [get_modify_self _ hx]
        simp [UNSET, hts]
      · have hrhs : (if name = k ∧ ts ≠ UNSET then ts else tsOf s k) = tsOf s k := by
          simp [hnk]
        rw [hrhs]
        unfold tsOf
        rw [get_vertex_find_other ts hnk]
        cases hk : VertexMap.find s.vertices k with
        | none => rfl
        | some q =>
          obtain ⟨y, hy, hyn⟩ := ok.keyed k q hk
          have hpq : p ≠ q := by
            intro heq
            subst heq
            rw [hx] at hy
            cases hy
            exact hnk (hxn.symm.trans hyn)
          rw [get_vertex_present ts hf, if_pos hts]
          simp only
          rw [get_modify_other _ hpq]
    · have hrhs : (if name = k ∧ ts ≠ UNSET then ts else tsOf s k) = tsOf s k := by
        have : ts = UNSET := not_not.mp hts
        simp [this]
      rw [hrhs, get_vertex_present ts hf, if_neg hts]

theorem modify_eq_set_of_get {h : Heap} {p : Nat} {x : Vertex} (f : Vertex → Vertex)
    (hx : h[p]? = some x) : h.modify f p = h.set p (f x) := by
  apply List.ext_getElem?
  intro n
  by_cases hpn : p = n
  · subst hpn
    rw [get_modify_self f hx, List.getElem?_set_self (lt_of_get hx)]
  · rw [get_modify_other f hpn, List.getElem?_set_ne hpn]

/-- C6: `get_vertex(name, ts)` on a store that satisfies the invariant.  When
the name is entered in `vertices`, the result is the vertex entered, `vertices`
is unchanged, and the store is unchanged when `ts` is the value -1 converted to
`Timestamp`, else it differs only in that vertex's timestamp, which is `ts`.
When the name is not entered, the result is a new vertex with that name,
timestamp `ts`, no edges and `maxLength` -1, entered under the name, and the
other entries are unchanged. -/
theorem get_vertex_contract (s : Store) (name : String) (ts : Timestamp) (ok : StoreOK s) :
    (∀ p, VertexMap.find s.vertices name = some p →
      ∃ x, s.heap[p]? = some x ∧ x.name = name ∧
        (get_vertex s name ts).1 = p ∧
        (get_vertex s name ts).2.vertices = s.vertices ∧
        (get_vertex s name ts).2.heap =
          if ts = toTimestamp (-1) then s.heap
          else s.heap.set p { x with timestamp := ts }) ∧
    (VertexMap.find s.vertices name = none →
      (get_vertex s name ts).1 = s.heap.length ∧
      (get_vertex s name ts).2.heap =
        s.heap ++ [{ name := name, maxLength := -1, timestamp := ts, edges := [],
                     lpFrom := Slot.indeterminate }] ∧
      VertexMap.find (get_vertex s name ts).2.vertices name = some s.heap.length ∧
      ∀ k, k ≠ name →
        VertexMap.find (get_vertex s name ts).2.vertices k = VertexMap.find s.vertices k) := by
  constructor
  · intro p hf
    obtain ⟨x, hx, hxn⟩ := ok.keyed name p hf
    refine ⟨x, hx, hxn, ?_, ?_, ?_⟩
    · rw [get_vertex_present ts hf]
    · rw [get_vertex_present ts hf]
      split <;> rfl
    · rw [get_vertex_present ts hf]
      by_cases hts : ts = toTimestamp (-1)
      · simp [hts]
      · simp only [ne_eq, hts, not_false_eq_true, if_true, if_false]
        exact modify_eq_set_of_get _ hx
  · intro hf
    refine ⟨?_, ?_, ?_, ?_⟩
    · rw [get_vertex_absent ts hf]
    · rw [get_vertex_absent ts hf]
      rfl
    · have := get_vertex_find (s := s) name ts
      rw [this, get_vertex_absent ts hf]
    · intro k hk
      exact get_vertex_find_other ts (fun h => hk h.symm)


/-! ## The read loop -/

theorem storeOK_add_edge {s : Store} (ok : StoreOK s) (v : Nat) {dst : Nat}
    (hd : dst < s.heap.length) : StoreOK (add_edge s v dst) := by
  refine storeOK_modify ok _ v (fun _ => rfl) (fun _ => rfl) ?_
  intro x w hw
  simp only [List.mem_append, List.mem_singleton] at hw
  rcases hw with hw | rfl
  · exact Or.inl hw
  · exact Or.inr hd

theorem add_edge_edgesOf_self {s : Store} {v : Nat} (dst : Nat) (hv : v < s.heap.length) :
    edgesOf (add_edge s v dst).heap v = edgesOf s.heap v ++ [dst] := by
  obtain ⟨x, hx⟩ := get_of_lt hv
  simp only [add_edge, edgesOf]
  rw [get_modify_self _ hx, hx]

theorem add_edge_edgesOf_other {s : Store} {v u : Nat} (dst : Nat) (hvu : v ≠ u) :
    edgesOf (add_edge s v dst).heap u = edgesOf s.heap u := by
  simp only [add_edge, edgesOf]
  rw [get_modify_other _ hvu]

theorem add_edge_tsOf (s : Store) (v dst : Nat) (k : String) :
    tsOf (add_edge s v dst) k = tsOf s k := by
  simp only [add_edge, tsOf]
  cases VertexMap.find s.vertices k with
  | none => rfl
  | some p =>
    simp only [List.getElem?_modify]
    cases s.heap[p]? with
    | none => rfl
    | some x => by_cases hvp : v = p <;> simp [hvp]

theorem add_edge_length (s : Store) (v dst : Nat) :
    (add_edge s v dst).heap.length = s.heap.length := by
  simp [add_edge]

theorem storeOK_addParents (v : Nat) (ps : List String) :
    ∀ (s : Store), StoreOK s → StoreOK (addParents s v ps) := by
  induction ps with
  | nil => intro s ok; exact ok
  | cons name rest ih =>
    intro s ok
    simp only [addParents]
    exact ih _ (storeOK_add_edge (storeOK_get_vertex ok name _) v (get_vertex_lt ok name _))

theorem addParents_length_le (v : Nat) (ps : List String) :
    ∀ (s : Store), s.heap.length ≤ (addParents s v ps).heap.length := by
  induction ps with
  | nil => intro s; exact le_refl _
  | cons name rest ih =>
    intro s
    simp only [addParents]
    refine le_trans ?_ (ih _)
    rw [add_edge_length]
    exact get_vertex_length_le name _

theorem addParents_find_mono (v : Nat) (ps : List String) :
    ∀ (s : Store) (k : String) (p : Nat), VertexMap.find s.vertices k = some p →
      VertexMap.find (addParents s v ps).vertices k = some p := by
  induction ps with
  | nil => intro s k p hk; exact hk
  | cons name rest ih =>
    intro s k p hk
    simp only [addParents]
    exact ih _ k p (get_vertex_find_mono name _ hk)

theorem addParents_tsOf (v : Nat) (ps : List String) :
    ∀ (s : Store), StoreOK s → ∀ k, tsOf (addParents s v ps) k = tsOf s k := by
  induction ps with
  | nil => intro s _ k; rfl
  | cons name rest ih =>
    intro s ok k
    simp only [addParents]
    rw [ih _ (storeOK_add_edge (storeOK_get_vertex ok name _) v (get_vertex_lt ok name _)) k,
      add_edge_tsOf, get_vertex_tsOf ok]
    simp [UNSET]

theorem addParents_edges_other (v : Nat) (ps : List String) {u : Nat} (hvu : v ≠ u) :
    ∀ (s : Store), edgesOf (addParents s v ps).heap u = edgesOf s.heap u := by
  induction ps with
  | nil => intro s; rfl
  | cons name rest ih =>
    intro s
    simp only [addParents]
    rw [ih, add_edge_edgesOf_other _ hvu, get_vertex_edgesOf]

theorem addParents_edges_self (v : Nat) (ps : List String) :
    ∀ (s : Store), StoreOK s → v < s.heap.length →
      ∃ ws, List.Forall₂ (fun name w => VertexMap.find (addParents s v ps).vertices name = some w)
          ps ws ∧
        edgesOf (addParents s v ps).heap v = edgesOf s.heap v ++ ws := by
  induction ps with
  | nil => intro s _ _; exact ⟨[], List.Forall₂.nil, by simp [addParents]⟩
  | cons name rest ih =>
    intro s ok hv
    have ok1 := storeOK_get_vertex ok name (toTimestamp (-1))
    have hlt := get_vertex_lt ok name (toTimestamp (-1))
    have hv1 : v < (get_vertex s name (toTimestamp (-1))).2.heap.length :=
      lt_of_lt_of_le hv (get_vertex_length_le name _)
    have ok2 := storeOK_add_edge ok1 v hlt
    obtain ⟨ws, hws, hedges⟩ := ih _ ok2 (by rw [add_edge_length]; exact hv1)
    refine ⟨(get_vertex s name (toTimestamp (-1))).1 :: ws, List.Forall₂.cons ?_ hws, ?_⟩
    · simp only [addParents]
      apply addParents_find_mono
      exact get_vertex_find name _
    · simp only [addParents]
      rw [hedges, add_edge_edgesOf_self _ hv1, get_vertex_edgesOf]
      simp

theorem addParents_keys (v : Nat) (ps : List String) :
    ∀ (s : Store) (k : String),
      (VertexMap.find (addParents s v ps).vertices k).isSome ↔
        (VertexMap.find s.vertices k).isSome ∨ k ∈ ps := by
  induction ps with
  | nil => intro s k; simp [addParents]
  | cons name rest ih =>
    intro s k
    simp only [addParents]
    rw [ih]
    have hv : (add_edge (get_vertex s name (toTimestamp (-1))).2 v
        (get_vertex s name (toTimestamp (-1))).1).vertices =
        (get_vertex s name (toTimestamp (-1))).2.vertices := rfl
    rw [hv]
    by_cases hnk : name = k
    · subst hnk
      rw [get_vertex_find]
      simp
    · rw [get_vertex_find_other _ hnk]
      simp only [List.mem_cons]
      constructor
      · rintro (h | h)
        · exact Or.inl h
        · exact Or.inr (Or.inr h)
      · rintro (h | h | h)
        · exact Or.inl h
        · exact absurd h.symm hnk
        · exact Or.inr h

theorem storeOK_processRecord {b : Build} (ok : StoreOK b.store) (r : Record) :
    StoreOK (processRecord b r).store :=
  storeOK_addParents _ _ _ (storeOK_get_vertex ok _ _)

theorem readRecords_cons (b : Build) (r : Record) (rs : List Record) :
    readRecords b (r :: rs) = readRecords (processRecord b r) rs := rfl

theorem readRecords_append (b : Build) (rs rs' : List Record) :
    readRecords b (rs ++ rs') = readRecords (readRecords b rs) rs' := by
  simp [readRecords, List.foldl_append]

theorem storeOK_readRecords (rs : List Record) :
    ∀ (b : Build), StoreOK b.store → StoreOK (readRecords b rs).store := by
  induction rs with
  | nil => intro b ok; exact ok
  | cons r rest ih =>
    intro b ok
    rw [readRecords_cons]
    exact ih _ (storeOK_processRecord ok r)

theorem storeOK_init (rs : List Record) : StoreOK (readRecords Build.init rs).store :=
  storeOK_readRecords rs Build.init storeOK_empty

theorem readLines_records (lines : List String) :
    ∀ (b b' : Build), readLines b lines = Res.ok b' →
      ∃ rs, List.Forall₂ (fun line r => parseLine line = Res.ok r) lines rs ∧
        b' = readRecords b rs := by
  induction lines with
  | nil =>
    intro b b' h
    simp only [readLines, Res.ok.injEq] at h
    exact ⟨[], List.Forall₂.nil, h.symm⟩
  | cons line rest ih =>
    intro b b' h
    simp only [readLines] at h
    cases hp : parseLine line with
    | ok r =>
      rw [hp] at h
      obtain ⟨rs, hrs, hb⟩ := ih _ _ h
      exact ⟨r :: rs, List.Forall₂.cons hp hrs, hb⟩
    | fault f => rw [hp] at h; cases h
    | outOfFuel => rw [hp] at h; cases h

theorem processRecord_tsOf {b : Build} (ok : StoreOK b.store) (r : Record) (k : String) :
    tsOf (processRecord b r).store k =
      if r.nodeName = k ∧ toTimestamp r.ts ≠ UNSET then toTimestamp r.ts
      else tsOf b.store k := by
  simp only [processRecord]
  rw [addParents_tsOf _ _ _ (storeOK_get_vertex ok _ _), get_vertex_tsOf ok]

theorem readRecords_tsOf_keep (Z : String) (rs : List Record) :
    ∀ (b : Build), StoreOK b.store →
      (∀ r ∈ rs, r.nodeName = Z → toTimestamp r.ts = UNSET) →
      tsOf (readRecords b rs).store Z = tsOf b.store Z := by
  induction rs with
  | nil => intro b _ _; rfl
  | cons r rest ih =>
    intro b ok hall
    rw [readRecords_cons, ih _ (storeOK_processRecord ok r)
      (fun r' hr' => hall r' (List.mem_cons_of_mem _ hr')), processRecord_tsOf ok]
    by_cases hn : r.nodeName = Z
    · simp [hall r (List.mem_cons_self _ _) hn]
    · simp [hn]

theorem tsOf_of_get {s : Store} {Z : String} {p : Nat} {x : Vertex}
    (hZ : VertexMap.find s.vertices Z = some p) (hx : s.heap[p]? = some x) :
    tsOf s Z = x.timestamp := by
  simp [tsOf, hZ, hx]

/-- C7: after the read loop has processed any records, the timestamp of a
vertex `Z` of the store is the unset mark (-1 as `Timestamp`) when `Z` was
never the name of a record, and more generally when every record named `Z`
carried the unset mark; otherwise it is the timestamp of the last record named
`Z` whose timestamp is not the unset mark, whatever the mentions of `Z` as a
parent. -/
theorem timestamp_after_records (rs : List Record) (Z : String) (p : Nat) (x : Vertex)
    (hZ : VertexMap.find (readRecords Build.init rs).store.vertices Z = some p)
    (hx : (readRecords Build.init rs).store.heap[p]? = some x) :
    ((∀ r ∈ rs, r.nodeName ≠ Z) → x.timestamp = UNSET) ∧
    ((∀ r ∈ rs, r.nodeName = Z → toTimestamp r.ts = UNSET) → x.timestamp = UNSET) ∧
    (∀ pre r post, rs = pre ++ r :: post → r.nodeName = Z → toTimestamp r.ts ≠ UNSET →
      (∀ r' ∈ post, r'.nodeName = Z → toTimestamp r'.ts = UNSET) →
      x.timestamp = toTimestamp r.ts) := by
  have hts := tsOf_of_get hZ hx
  have hsentinel : (∀ r ∈ rs, r.nodeName = Z → toTimestamp r.ts = UNSET) →
      x.timestamp = UNSET := by
    intro hall
    rw [← hts, readRecords_tsOf_keep Z rs Build.init storeOK_empty hall]
    rfl
  refine ⟨fun hnever => hsentinel (fun r hr hn => absurd hn (hnever r hr)), hsentinel, ?_⟩
  intro pre r post hrs hn hne hpost
  subst hrs
  rw [← hts, readRecords_append, readRecords_cons,
    readRecords_tsOf_keep Z post _ (storeOK_processRecord (storeOK_init pre) r) hpost,
    processRecord_tsOf (storeOK_init pre)]
  simp [hn, hne]

/-- Instance of C7: after `Y 500 Z` the vertex `Z` holds the unset mark and `Y` holds 500. -/
theorem timestamp_after_records_witness :
    readLines Build.init ["Y 500 Z"] = Res.ok (readRecords Build.init backfillRecords) ∧
    VertexMap.find (readRecords Build.init backfillRecords).store.vertices "Z" = some 1 ∧
    (readRecords Build.init backfillRecords).store.heap[1]? =
      some ⟨"Z", -1, UNSET, [], Slot.indeterminate⟩ ∧
    (readRecords Build.init backfillRecords).store.heap[0]? =
      some ⟨"Y", -1, 500, [1], Slot.indeterminate⟩ ∧
    (((∀ r ∈ backfillRecords, r.nodeName ≠ "Z") →
        (⟨"Z", -1, UNSET, [], Slot.indeterminate⟩ : Vertex).timestamp = UNSET) ∧
    ((∀ r ∈ backfillRecords, r.nodeName = "Z" → toTimestamp r.ts = UNSET) →
        (⟨"Z", -1, UNSET, [], Slot.indeterminate⟩ : Vertex).timestamp = UNSET) ∧
    (∀ pre r post, backfillRecords = pre ++ r :: post → r.nodeName = "Z" →
      toTimestamp r.ts ≠ UNSET →
      (∀ r' ∈ post, r'.nodeName = "Z" → toTimestamp r'.ts = UNSET) →
      (⟨"Z", -1, UNSET, [], Slot.indeterminate⟩ : Vertex).timestamp = toTimestamp r.ts)) :=
  ⟨by decide, by decide, by decide, by decide,
    timestamp_after_records backfillRecords "Z" 1 ⟨"Z", -1, UNSET, [], Slot.indeterminate⟩
      (by decide) (by decide)⟩

/-- Instance of C6: the store after `Y 500 Z`, with calls for `Z` and for the new name `W`. -/
theorem get_vertex_contract_witness :
    StoreOK (readRecords Build.init backfillRecords).store ∧
    get_vertex (readRecords Build.init backfillRecords).store "Z" 400 =
      (1, { heap := [⟨"Y", -1, 500, [1], Slot.indeterminate⟩,
                     ⟨"Z", -1, 400, [], Slot.indeterminate⟩],
            vertices := [("Y", 0), ("Z", 1)] }) ∧
    get_vertex (readRecords Build.init backfillRecords).store "Z" (toTimestamp (-1)) =
      (1, (readRecords Build.init backfillRecords).store) ∧
    get_vertex (readRecords Build.init backfillRecords).store "W" 7 =
      (2, { heap := [⟨"Y", -1, 500, [1], Slot.indeterminate⟩,
                     ⟨"Z", -1, UNSET, [], Slot.indeterminate⟩,
                     ⟨"W", -1, 7, [], Slot.indeterminate⟩],
            vertices := [("Y", 0), ("Z", 1), ("W", 2)] }) ∧
    ((∀ p, VertexMap.find (readRecords Build.init backfillRecords).store.vertices "Z" = some p →
      ∃ x, (readRecords Build.init backfillRecords).store.heap[p]? = some x ∧ x.name = "Z" ∧
        (get_vertex (readRecords Build.init backfillRecords).store "Z" 400).1 = p ∧
        (get_vertex (readRecords Build.init backfillRecords).store "Z" 400).2.vertices =
          (readRecords Build.init backfillRecords).store.vertices ∧
        (get_vertex (readRecords Build.init backfillRecords).store "Z" 400).2.heap =
          if 400 = toTimestamp (-1) then (readRecords Build.init backfillRecords).store.heap
          else (readRecords Build.init backfillRecords).store.heap.set p
            { x with timestamp := 400 }) ∧
    (VertexMap.find (readRecords Build.init backfillRecords).store.vertices "Z" = none →
      (get_vertex (readRecords Build.init backfillRecords).store "Z" 400).1 =
        (readRecords Build.init backfillRecords).store.heap.length ∧
      (get_vertex (readRecords Build.init backfillRecords).store "Z" 400).2.heap =
        (readRecords Build.init backfillRecords).store.heap ++
          [{ name := "Z", maxLength := -1, timestamp := 400, edges := [],
             lpFrom := Slot.indeterminate }] ∧
      VertexMap.find (get_vertex (readRecords Build.init backfillRecords).store "Z" 400).2.vertices
        "Z" = some (readRecords Build.init backfillRecords).store.heap.length ∧
      ∀ k, k ≠ "Z" →
        VertexMap.find (get_vertex (readRecords Build.init backfillRecords).store "Z" 400).2.vertices
          k = VertexMap.find (readRecords Build.init backfillRecords).store.vertices k)) :=
  ⟨storeOK_init backfillRecords, by decide, by decide, by decide,
    get_vertex_contract (readRecords Build.init backfillRecords).store "Z" 400
      (storeOK_init backfillRecords)⟩

theorem processRecord_find_node (b : Build) (r : Record) :
    VertexMap.find (processRecord b r).store.vertices r.nodeName =
      some (get_vertex b.store r.nodeName (toTimestamp r.ts)).1 :=
  addParents_find_mono _ _ _ _ _ (get_vertex_find _ _)

theorem processRecord_edges_grow {b : Build} (ok : StoreOK b.store) (r : Record) (u : Nat) :
    edgesOf b.store.heap u <+: edgesOf (processRecord b r).store.heap u := by
  by_cases hvu : (get_vertex b.store r.nodeName (toTimestamp r.ts)).1 = u
  · subst hvu
    obtain ⟨ws, _, hws⟩ :=
      addParents_edges_self (get_vertex b.store r.nodeName (toTimestamp r.ts)).1 r.parents _
        (storeOK_get_vertex ok _ _) (get_vertex_lt ok _ _)
    simp only [processRecord]
    rw [hws, get_vertex_edgesOf]
    exact List.prefix_append _ _
  · simp only [processRecord]
    rw [addParents_edges_other _ _ hvu, get_vertex_edgesOf]

theorem readRecords_edges_grow (rs : List Record) :
    ∀ (b : Build), StoreOK b.store → ∀ u,
      edgesOf b.store.heap u <+: edgesOf (readRecords b rs).store.heap u := by
  induction rs with
  | nil => intro b _ u; exact List.prefix_refl _
  | cons r rest ih =>
    intro b ok u
    rw [readRecords_cons]
    exact List.IsPrefix.trans (processRecord_edges_grow ok r u)
      (ih _ (storeOK_processRecord ok r) u)

/-- C8: processing one record `(id, ts, [p1, ..., pk])` appends to the edge
list of the vertex of `id` the vertices of `p1`, ..., `pk` in that order,
repetitions included, and leaves the edge list of every other vertex as it
was; over any further records the edge list of a vertex only grows at its
end. -/
theorem record_appends_edges (b : Build) (r : Record) (v : Nat) (ok : StoreOK b.store)
    (hv : VertexMap.find (processRecord b r).store.vertices r.nodeName = some v) :
    (∃ ws, List.Forall₂
        (fun name w => VertexMap.find (processRecord b r).store.vertices name = some w)
        r.parents ws ∧
      edgesOf (processRecord b r).store.heap v = edgesOf b.store.heap v ++ ws) ∧
    (∀ u, u ≠ v → edgesOf (processRecord b r).store.heap u = edgesOf b.store.heap u) ∧
    (∀ rs u, edgesOf b.store.heap u <+: edgesOf (readRecords b rs).store.heap u) := by
  have hveq : v = (get_vertex b.store r.nodeName (toTimestamp r.ts)).1 := by
    rw [processRecord_find_node] at hv
    exact (Option.some.inj hv).symm
  subst hveq
  refine ⟨?_, ?_, ?_⟩
  · obtain ⟨ws, hws, hedges⟩ :=
      addParents_edges_self (get_vertex b.store r.nodeName (toTimestamp r.ts)).1 r.parents _
        (storeOK_get_vertex ok _ _) (get_vertex_lt ok _ _)
    refine ⟨ws, hws, ?_⟩
    simp only [processRecord]
    rw [hedges, get_vertex_edgesOf]
  · intro u hu
    simp only [processRecord]
    rw [addParents_edges_other _ _ (fun h => hu h.symm), get_vertex_edgesOf]
  · intro rs u
    exact readRecords_edges_grow rs b ok u

/-- Instance of C8: after `Y 500 Z` the record `Y 600 Z W Z` appends three edges. -/
theorem record_appends_edges_witness :
    StoreOK (readRecords Build.init backfillRecords).store ∧
    VertexMap.find
      (processRecord (readRecords Build.init backfillRecords) ⟨"Y", 600, ["Z", "W", "Z"]⟩).store.vertices
      "Y" = some 0 ∧
    edgesOf (readRecords Build.init backfillRecords).store.heap 0 = [1] ∧
    edgesOf
      (processRecord (readRecords Build.init backfillRecords) ⟨"Y", 600, ["Z", "W", "Z"]⟩).store.heap
      0 = [1, 1, 2, 1] ∧
    ((∃ ws, List.Forall₂
        (fun name w => VertexMap.find
          (processRecord (readRecords Build.init backfillRecords)
            ⟨"Y", 600, ["Z", "W", "Z"]⟩).store.vertices name = some w)
        ["Z", "W", "Z"] ws ∧
      edgesOf (processRecord (readRecords Build.init backfillRecords)
          ⟨"Y", 600, ["Z", "W", "Z"]⟩).store.heap 0 =
        edgesOf (readRecords Build.init backfillRecords).store.heap 0 ++ ws) ∧
    (∀ u, u ≠ 0 →
      edgesOf (processRecord (readRecords Build.init backfillRecords)
          ⟨"Y", 600, ["Z", "W", "Z"]⟩).store.heap u =
        edgesOf (readRecords Build.init backfillRecords).store.heap u) ∧
    (∀ rs u, edgesOf (readRecords Build.init backfillRecords).store.heap u <+:
      edgesOf (readRecords (readRecords Build.init backfillRecords) rs).store.heap u)) :=
  ⟨storeOK_init backfillRecords, by decide, by decide, by decide,
    record_appends_edges (readRecords Build.init backfillRecords) ⟨"Y", 600, ["Z", "W", "Z"]⟩ 0
      (storeOK_init backfillRecords) (by decide)⟩

theorem names_nodup {s : Store} (ok : StoreOK s) : (s.heap.map Vertex.name).Nodup := by
  rw [List.nodup_iff_getElem?_ne_getElem?]
  intro i j hij hj heq
  simp only [List.length_map] at hj
  obtain ⟨xi, hxi⟩ := get_of_lt (h := s.heap) (lt_trans hij hj)
  obtain ⟨xj, hxj⟩ := get_of_lt (h := s.heap) hj
  simp only [List.getElem?_map, hxi, hxj, Option.map_some', Option.some.injEq] at heq
  have h1 := ok.owned i xi hxi
  have h2 := ok.owned j xj hxj
  rw [heq, h2] at h1
  have : j = i := Option.some.inj h1
  omega

theorem mem_names_iff {s : Store} (ok : StoreOK s) (k : String) :
    k ∈ s.heap.map Vertex.name ↔ (VertexMap.find s.vertices k).isSome := by
  constructor
  · intro hk
    obtain ⟨x, hx, hxk⟩ := List.mem_map.mp hk
    obtain ⟨p, hp⟩ := List.mem_iff_getElem?.mp hx
    have := ok.owned p x hp
    rw [hxk] at this
    simp [this]
  · intro hk
    obtain ⟨p, hp⟩ := Option.isSome_iff_exists.mp hk
    obtain ⟨x, hx, hxk⟩ := ok.keyed k p hp
    exact List.mem_map.mpr ⟨x, List.getElem?_mem hx, hxk⟩

theorem processRecord_keys (b : Build) (r : Record) (k : String) :
    (VertexMap.find (processRecord b r).store.vertices k).isSome ↔
      (VertexMap.find b.store.vertices k).isSome ∨ k = r.nodeName ∨ k ∈ r.parents := by
  simp only [processRecord]
  rw [addParents_keys]
  by_cases hnk : r.nodeName = k
  · subst hnk
    rw [get_vertex_find]
    simp
  · rw [get_vertex_find_other _ hnk]
    constructor
    · rintro (h | h)
      · exact Or.inl h
      · exact Or.inr (Or.inr h)
    · rintro (h | h | h)
      · exact Or.inl h
      · exact absurd h.symm hnk
      · exact Or.inr h

theorem readRecords_keys (rs : List Record) :
    ∀ (b : Build) (k : String),
      (VertexMap.find (readRecords b rs).store.vertices k).isSome ↔
        (VertexMap.find b.store.vertices k).isSome ∨ k ∈ mentioned rs := by
  induction rs with
  | nil => intro b k; simp [readRecords, mentioned]
  | cons r rest ih =>
    intro b k
    rw [readRecords_cons, ih, processRecord_keys]
    have hm : k ∈ mentioned (r :: rest) ↔ (k = r.nodeName ∨ k ∈ r.parents) ∨ k ∈ mentioned rest := by
      simp only [mentioned, List.flatMap_cons, List.mem_append, List.mem_cons]
    rw [hm]
    tauto

theorem addParents_length_present (v : Nat) (ps : List String) :
    ∀ (s : Store), (∀ q ∈ ps, (VertexMap.find s.vertices q).isSome) →
      (addParents s v ps).heap.length = s.heap.length := by
  induction ps with
  | nil => intro s _; rfl
  | cons name rest ih =>
    intro s hall
    simp only [addParents]
    obtain ⟨p, hp⟩ := Option.isSome_iff_exists.mp (hall name (List.mem_cons_self _ _))
    rw [ih, add_edge_length, get_vertex_length, hp]
    intro q hq
    obtain ⟨pq, hpq⟩ := Option.isSome_iff_exists.mp (hall q (List.mem_cons_of_mem _ hq))
    have : VertexMap.find (add_edge (get_vertex s name (toTimestamp (-1))).2 v
        (get_vertex s name (toTimestamp (-1))).1).vertices q = some pq :=
      get_vertex_find_mono name _ hpq
    simp [this]

/-- C9 as the claim states it fails: after the record `Y 500` the name `Y` is
present, yet the record `Y 600 Z` changes the number of vertices from 1 to 2,
because its parent `Z` is new. -/
theorem record_for_present_name_adds_vertex :
    (VertexMap.find (readRecords Build.init repeatRecords).store.vertices "Y").isSome = true ∧
    (readRecords Build.init repeatRecords).store.heap.length = 1 ∧
    (processRecord (readRecords Build.init repeatRecords)
      { nodeName := "Y", ts := 600, parents := ["Z"] }).store.heap.length = 2 := by
  decide

/-- C9, amended: after the read loop has processed any records, the store
holds exactly one vertex per name mentioned so far (as the name of a record or
as a parent), every vertex is entered in `vertices` under its own name and
every entry leads to a vertex of that name; `get_vertex` for a name that is
present never changes the number of vertices, and neither does a further
record whose name and parents are all present (a record adds vertices only for
names that are new). -/
theorem one_vertex_per_name (rs : List Record) :
    ((readRecords Build.init rs).store.heap.map Vertex.name).Nodup ∧
    (∀ k, k ∈ (readRecords Build.init rs).store.heap.map Vertex.name ↔ k ∈ mentioned rs) ∧
    (∀ (p : Nat) (x : Vertex), (readRecords Build.init rs).store.heap[p]? = some x →
      VertexMap.find (readRecords Build.init rs).store.vertices x.name = some p) ∧
    (∀ (k : String) (p : Nat), VertexMap.find (readRecords Build.init rs).store.vertices k = some p →
      ∃ x, (readRecords Build.init rs).store.heap[p]? = some x ∧ x.name = k) ∧
    (∀ (name : String) (ts : Timestamp),
      (VertexMap.find (readRecords Build.init rs).store.vertices name).isSome →
      (get_vertex (readRecords Build.init rs).store name ts).2.heap.length =
        (readRecords Build.init rs).store.heap.length) ∧
    (∀ r : Record, (VertexMap.find (readRecords Build.init rs).store.vertices r.nodeName).isSome →
      (∀ q ∈ r.parents, (VertexMap.find (readRecords Build.init rs).store.vertices q).isSome) →
      (processRecord (readRecords Build.init rs) r).store.heap.length =
        (readRecords Build.init rs).store.heap.length) ∧
    (∀ (r : Record) (k : String),
      (VertexMap.find (processRecord (readRecords Build.init rs) r).store.vertices k).isSome ↔
        (VertexMap.find (readRecords Build.init rs).store.vertices k).isSome ∨
          k = r.nodeName ∨ k ∈ r.parents) := by
  have ok := storeOK_init rs
  refine ⟨names_nodup ok, ?_, ok.owned, ok.keyed, ?_, ?_, ?_⟩
  · intro k
    rw [mem_names_iff ok, readRecords_keys]
    simp [Build.init, Store.empty, VertexMap.find]
  · intro name ts hp
    obtain ⟨p, hp⟩ := Option.isSome_iff_exists.mp hp
    rw [get_vertex_length, hp]
  · intro r hr hps
    obtain ⟨p, hp⟩ := Option.isSome_iff_exists.mp hr
    simp only [processRecord]
    rw [addParents_length_present, get_vertex_length, hp]
    intro q hq
    obtain ⟨pq, hpq⟩ := Option.isSome_iff_exists.mp (hps q hq)
    have := get_vertex_find_mono (s := (readRecords Build.init rs).store) r.nodeName
      (toTimestamp r.ts) hpq
    simp [this]
  · intro r k
    exact processRecord_keys _ r k

/-! ## Choice of the next vertex of the path -/

theorem lengthAt_of_get {h : Heap} {v : Nat} {x : Vertex} (hx : h[v]? = some x) :
    lengthAt h v = x.maxLength := by
  simp [lengthAt, hx]

theorem selectLoop_step {h : Heap} {i : Nat} (hi : i < h.length) (rest : List Nat)
    (lv : Option Nat) (lp : Int) :
    selectLoop h (i :: rest) lv lp =
      if lv = none ∨ lengthAt h i > lp then selectLoop h rest (some i) (lengthAt h i)
      else selectLoop h rest lv lp := by
  obtain ⟨x, hx⟩ := get_of_lt hi
  simp [selectLoop, hx, lengthAt]

theorem selectLoop_some (h : Heap) :
    ∀ (es : List Nat) (a : Nat) (la : Int), (∀ i ∈ es, i < h.length) →
      (selectLoop h es (some a) la = Res.ok (some a, la) ∧
        ∀ j (hj : j < es.length), lengthAt h es[j] ≤ la) ∨
      ∃ (k : Nat) (hk : k < es.length),
        selectLoop h es (some a) la = Res.ok (some es[k], lengthAt h es[k]) ∧
        la < lengthAt h es[k] ∧
        (∀ j (hj : j < es.length), j < k → lengthAt h es[j] < lengthAt h es[k]) ∧
        ∀ j (hj : j < es.length), lengthAt h es[j] ≤ lengthAt h es[k] := by
  intro es
  induction es with
  | nil =>
    intro a la _
    left
    exact ⟨rfl, fun j hj => by simp at hj⟩
  | cons i rest ih =>
    intro a la hes
    have hi : i < h.length := hes i (List.mem_cons_self _ _)
    have hrest : ∀ i ∈ rest, i < h.length := fun w hw => hes w (List.mem_cons_of_mem _ hw)
    rw [selectLoop_step hi]
    by_cases hgt : lengthAt h i > la
    · rw [if_pos (Or.inr hgt)]
      right
      rcases ih i (lengthAt h i) hrest with ⟨hsel, hall⟩ | ⟨k, hk, hsel, hlt, hbefore, hall⟩
      · refine ⟨0, by simp, by simpa using hsel, by simpa using hgt, ?_, ?_⟩
        · intro j _ hj0; omega
        · intro j hj
          cases j with
          | zero => simp
          | succ j =>
            simp only [List.getElem_cons_succ, List.getElem_cons_zero]
            exact hall j (by simpa using hj)
      · refine ⟨k + 1, by simpa using hk, by simpa using hsel, ?_, ?_, ?_⟩
        · simp only [List.getElem_cons_succ]; omega
        · intro j hj hjk
          cases j with
          | zero => simpa using hlt
          | succ j =>
            simp only [List.getElem_cons_succ]
            exact hbefore j (by simpa using hj) (by omega)
        · intro j hj
          cases j with
          | zero => simp only [List.getElem_cons_succ, List.getElem_cons_zero]; omega
          | succ j =>
            simp only [List.getElem_cons_succ]
            exact hall j (by simpa using hj)
    · have hcond : ¬ ((some a : Option Nat) = none ∨ lengthAt h i > la) := by
        intro hc
        rcases hc with hc | hc
        · cases hc
        · exact hgt hc
      rw [if_neg hcond]
      rcases ih a la hrest with ⟨hsel, hall⟩ | ⟨k, hk, hsel, hlt, hbefore, hall⟩
      · left
        refine ⟨hsel, ?_⟩
        intro j hj
        cases j with
        | zero => simp only [List.getElem_cons_zero]; omega
        | succ j =>
          simp only [List.getElem_cons_succ]
          exact hall j (by simpa using hj)
      · right
        refine ⟨k + 1, by simpa using hk, by simpa using hsel, ?_, ?_, ?_⟩
        · simpa using hlt
        · intro j hj hjk
          cases j with
          | zero => simp only [List.getElem_cons_succ, List.getElem_cons_zero]; omega
          | succ j =>
            simp only [List.getElem_cons_succ]
            exact hbefore j (by simpa using hj) (by omega)
        · intro j hj
          cases j with
          | zero => simp only [List.getElem_cons_succ, List.getElem_cons_zero]; omega
          | succ j =>
            simp only [List.getElem_cons_succ]
            exact hall j (by simpa using hj)

theorem selectLoop_first_max (h : Heap) (es : List Nat) (hes : ∀ i ∈ es, i < h.length)
    (hne : es ≠ []) :
    ∃ (k : Nat) (hk : k < es.length),
      selectLoop h es none (-1) = Res.ok (some es[k], lengthAt h es[k]) ∧
      (∀ j (hj : j < es.length), lengthAt h es[j] ≤ lengthAt h es[k]) ∧
      ∀ j (hj : j < es.length), j < k → lengthAt h es[j] < lengthAt h es[k] := by
  cases es with
  | nil => exact absurd rfl hne
  | cons i rest =>
    have hi : i < h.length := hes i (List.mem_cons_self _ _)
    have hrest : ∀ i ∈ rest, i < h.length := fun w hw => hes w (List.mem_cons_of_mem _ hw)
    rw [selectLoop_step hi, if_pos (Or.inl rfl)]
    rcases selectLoop_some h rest i (lengthAt h i) hrest with
      ⟨hsel, hall⟩ | ⟨k, hk, hsel, hlt, hbefore, hall⟩
    · refine ⟨0, by simp, by simpa using hsel, ?_, ?_⟩
      · intro j hj
        cases j with
        | zero => simp
        | succ j =>
          simp only [List.getElem_cons_succ, List.getElem_cons_zero]
          exact hall j (by simpa using hj)
      · intro j _ hj0; omega
    · refine ⟨k + 1, by simpa using hk, by simpa using hsel, ?_, ?_⟩
      · intro j hj
        cases j with
        | zero => simp only [List.getElem_cons_succ, List.getElem_cons_zero]; omega
        | succ j =>
          simp only [List.getElem_cons_succ]
          exact hall j (by simpa using hj)
      · intro j hj hjk
        cases j with
        | zero => simpa using hlt
        | succ j =>
          simp only [List.getElem_cons_succ]
          exact hbefore j (by simpa using hj) (by omega)

/-- C5: a step of the reconstruction loop at a vertex with outgoing edges
chooses the edge of the smallest index among the edges whose target has the
greatest recorded length (all targets have at most that length, all earlier
ones have less), links it back and goes on from it; on the diamond `B`, listed
before `C`, is printed. -/
theorem reconstruct_picks_first_longest (h : Heap) (v : Nat) (x : Vertex) (start : Slot)
    (fuel : Nat) (hvalid : EdgesValid h) (hx : h[v]? = some x) (hne : x.edges ≠ []) :
    (∃ (k : Nat) (hk : k < x.edges.length),
      (∀ j (hj : j < x.edges.length), lengthAt h x.edges[j] ≤ lengthAt h x.edges[k]) ∧
      (∀ j (hj : j < x.edges.length), j < k → lengthAt h x.edges[j] < lengthAt h x.edges[k]) ∧
      selectLoop h x.edges none (-1) = Res.ok (some x.edges[k], lengthAt h x.edges[k]) ∧
      reconstruct (fuel + 1) h (some v) start =
        reconstruct fuel
          (h.modify (fun y => { y with lpFrom := Slot.holds (some v) }) x.edges[k])
          (some x.edges[k]) (Slot.holds (some x.edges[k]))) ∧
    main 3 diamondLines = Res.ok ["A 100", "B 300", "D 400"] := by
  refine ⟨?_, by decide⟩
  obtain ⟨k, hk, hsel, hmax, hfirst⟩ :=
    selectLoop_first_max h x.edges (fun i hi => hvalid v x hx i hi) hne
  refine ⟨k, hk, hmax, hfirst, hsel, ?_⟩
  rw [reconstruct, hx]
  simp only [hsel]

/-- Instance of C5: the first step on the diamond, where `B` and `C` both have length 1. -/
theorem reconstruct_picks_first_longest_witness :
    EdgesValid (storeAfter (maxLength 3 (heapOfLines diamondLines) 0)) ∧
    (storeAfter (maxLength 3 (heapOfLines diamondLines) 0))[0]? =
      some ⟨"D", 2, 400, [1, 2], Slot.indeterminate⟩ ∧
    lengthAt (storeAfter (maxLength 3 (heapOfLines diamondLines) 0)) 1 = 1 ∧
    lengthAt (storeAfter (maxLength 3 (heapOfLines diamondLines) 0)) 2 = 1 ∧
    selectLoop (storeAfter (maxLength 3 (heapOfLines diamondLines) 0)) [1, 2] none (-1) =
      Res.ok (some 1, 1) ∧
    ((∃ (k : Nat) (hk : k < [1, 2].length),
      (∀ j (hj : j < [1, 2].length),
        lengthAt (storeAfter (maxLength 3 (heapOfLines diamondLines) 0)) [1, 2][j] ≤
          lengthAt (storeAfter (maxLength 3 (heapOfLines diamondLines) 0)) [1, 2][k]) ∧
      (∀ j (hj : j < [1, 2].length), j < k →
        lengthAt (storeAfter (maxLength 3 (heapOfLines diamondLines) 0)) [1, 2][j] <
          lengthAt (storeAfter (maxLength 3 (heapOfLines diamondLines) 0)) [1, 2][k]) ∧
      selectLoop (storeAfter (maxLength 3 (heapOfLines diamondLines) 0)) [1, 2] none (-1) =
        Res.ok (some [1, 2][k],
          lengthAt (storeAfter (maxLength 3 (heapOfLines diamondLines) 0)) [1, 2][k]) ∧
      reconstruct (2 + 1) (storeAfter (maxLength 3 (heapOfLines diamondLines) 0)) (some 0)
          Slot.indeterminate =
        reconstruct 2
          ((storeAfter (maxLength 3 (heapOfLines diamondLines) 0)).modify
            (fun y => { y with lpFrom := Slot.holds (some 0) }) [1, 2][k])
          (some [1, 2][k]) (Slot.holds (some [1, 2][k]))) ∧
    main 3 diamondLines = Res.ok ["A 100", "B 300", "D 400"]) :=
  ⟨edgesValid_of_mem (by decide), by decide, by decide, by decide, by decide,
    reconstruct_picks_first_longest (storeAfter (maxLength 3 (heapOfLines diamondLines) 0)) 0
      ⟨"D", 2, 400, [1, 2], Slot.indeterminate⟩ Slot.indeterminate 2
      (edgesValid_of_mem (by decide)) (by decide) (by decide)⟩

/-! ## The reconstruction loop -/

theorem OnlyLinks.links_edgesValid {h h' : Heap} (hol : OnlyLinks h h') (hv : EdgesValid h) :
    EdgesValid h' := by
  intro v y hy w hw
  obtain ⟨x, hx⟩ := get_of_lt (hol.1 ▸ lt_of_get hy)
  obtain ⟨m, hm⟩ := hol.2 v x hx
  rw [hm] at hy
  cases hy
  rw [hol.1]
  exact hv v x hx w hw

theorem OnlyLinks.links_lengthsRight {h h' : Heap} (hol : OnlyLinks h h')
    (hr : LengthsRight h) : LengthsRight h' := by
  intro v y hy hne
  obtain ⟨x, hx⟩ := get_of_lt (hol.1 ▸ lt_of_get hy)
  obtain ⟨m, hm⟩ := hol.2 v x hx
  rw [hm] at hy
  cases hy
  obtain ⟨⟨h0, hl⟩, hsucc⟩ := hr v x hx hne
  refine ⟨⟨h0, (isLongest_congr hol.links_edgesOf_eq v _).mpr hl⟩, ?_⟩
  intro w hw
  obtain ⟨z, hz, hzne⟩ := hsucc w hw
  obtain ⟨l, hl'⟩ := hol.2 w z hz
  exact ⟨_, hl', hzne⟩

theorem pick_next {h : Heap} (hvalid : EdgesValid h) (hright : LengthsRight h) {v : Nat}
    {x : Vertex} (hx : h[v]? = some x) {n : Nat} (hn : x.maxLength = ((n + 1 : Nat) : Int)) :
    ∃ lv lp y, selectLoop h x.edges none (-1) = Res.ok (some lv, lp) ∧ lv ∈ x.edges ∧
      h[lv]? = some y ∧ y.maxLength = (n : Int) := by
  have hne1 : x.maxLength ≠ -1 := by omega
  obtain ⟨⟨_, hlong⟩, hsucc⟩ := hright v x hx hne1
  have hedges : edgesOf h v = x.edges := edgesOf_of_get hx
  have hnn : x.maxLength.toNat = n + 1 := by omega
  rw [hnn] at hlong
  have hne : x.edges ≠ [] := by
    intro he
    have := isLongest_unique hlong (isLongest_zero_of_no_edges (hedges.trans he))
    omega
  obtain ⟨k, hk, hsel, hmax, _⟩ :=
    selectLoop_first_max h x.edges (fun i hi => hvalid v x hx i hi) hne
  have hkmem : x.edges[k] ∈ x.edges := List.getElem_mem hk
  obtain ⟨y, hy, hyne⟩ := hsucc _ hkmem
  have hyl : lengthAt h x.edges[k] = y.maxLength := lengthAt_of_get hy
  obtain ⟨⟨hy0, hylong⟩, _⟩ := hright _ y hy hyne
  have hall : ∀ u, Edge h v u → ∃ l, IsLongest h u l ∧ l ≤ y.maxLength.toNat := by
    intro u hu
    have hu' : u ∈ x.edges := by simpa [Edge, hedges] using hu
    obtain ⟨j, hj, rfl⟩ := List.getElem_of_mem hu'
    obtain ⟨z, hz, hzne⟩ := hsucc _ (List.getElem_mem hj)
    refine ⟨z.maxLength.toNat, (hright _ z hz hzne).1.2, ?_⟩
    have := hmax j hj
    rw [lengthAt_of_get hz, hyl] at this
    exact Int.toNat_le_toNat this
  have hv1 : IsLongest h v (y.maxLength.toNat + 1) :=
    isLongest_succ (by simp [Edge, hedges, hkmem]) hylong hall
  have := isLongest_unique hlong hv1
  exact ⟨x.edges[k], _, y, hsel, hkmem, hy, by omega⟩

theorem linked_modify_other {f : Vertex → Vertex} {lv : Nat} :
    ∀ (l : List Nat) (h : Heap) (s : Slot), lv ∉ l → Linked h s l →
      Linked (h.modify f lv) s l := by
  intro l
  induction l with
  | nil => intro h s _ hl; exact hl
  | cons a rest ih =>
    intro h s hnot hl
    obtain ⟨hs, x, hx, hrest⟩ := hl
    have ha : lv ≠ a := fun heq => hnot (heq ▸ List.mem_cons_self _ _)
    refine ⟨hs, x, ?_, ih h _ (fun hm => hnot (List.mem_cons_of_mem _ hm)) hrest⟩
    rw [get_modify_other f ha]
    exact hx

theorem followPath_linked {α : Type} (visit : Nat → Vertex → α) {h : Heap} :
    ∀ (l : List Nat) (s : Slot), Linked h s l → ∀ fuel, l.length ≤ fuel →
      followPath visit fuel h s = Res.ok (l.map (fun v => visit v (vertexAt h v))) := by
  intro l
  induction l with
  | nil =>
    intro s hl fuel _
    simp only [Linked] at hl
    subst hl
    cases fuel <;> rfl
  | cons a rest ih =>
    intro s hl fuel hfuel
    obtain ⟨hs, x, hx, hrest⟩ := hl
    subst hs
    obtain ⟨fuel, rfl⟩ : ∃ f, fuel = f + 1 := ⟨fuel - 1, by simp at hfuel; omega⟩
    simp only [followPath, hx]
    rw [ih _ hrest fuel (by simp at hfuel; omega)]
    simp [vertexAt, hx]

theorem reconstruct_spec :
    ∀ (n : Nat) (h : Heap) (v : Nat) (q : List Nat) (start : Slot),
      EdgesValid h → LengthsRight h → Acyclic h →
      (∃ x, h[v]? = some x ∧ x.maxLength = (n : Int)) →
      Linked h (Slot.holds (some v)) (v :: q) →
      (∀ u ∈ q, Relation.TransGen (Edge h) u v) →
      ∃ h' P, (∀ fuel, n + 1 ≤ fuel → reconstruct fuel h (some v) start =
          Res.ok (h', if n = 0 then start else Slot.holds P.head?)) ∧
        OnlyLinks h h' ∧ P.length = n + 1 ∧ P.getLast? = some v ∧
        List.Chain' (fun u w => Edge h w u) P ∧
        Linked h' (Slot.holds P.head?) (P ++ q) ∧
        ∃ s, P.head? = some s ∧ edgesOf h s = [] := by
  intro n
  induction n with
  | zero =>
    intro h v q start _ hright _ hx hlinked _
    obtain ⟨x, hx, hx0⟩ := hx
    have hne1 : x.maxLength ≠ -1 := by simp at hx0; omega
    have hlong := (hright v x hx hne1).1.2
    have hz : x.maxLength.toNat = 0 := by simp at hx0; omega
    rw [hz] at hlong
    have hno : edgesOf h v = [] := no_edges_of_isLongest_zero hlong
    have hxe : x.edges = [] := by rw [← edgesOf_of_get hx]; exact hno
    refine ⟨h, [v], ?_, OnlyLinks.links_refl h, rfl, rfl, by simp, hlinked, v, rfl, hno⟩
    intro fuel hfuel
    obtain ⟨fuel, rfl⟩ : ∃ f, fuel = f + 1 := ⟨fuel - 1, by omega⟩
    rw [reconstruct, hx]
    simp only [hxe, selectLoop]
    cases fuel <;> simp [reconstruct]
  | succ n ih =>
    intro h v q start hvalid hright hacyc hx hlinked hq
    obtain ⟨x, hx, hxn⟩ := hx
    obtain ⟨lv, lp, y, hsel, hmem, hy, hyn⟩ := pick_next hvalid hright hx hxn
    have hedge : Edge h v lv := by simp [Edge, edgesOf_of_get hx, hmem]
    have hol : OnlyLinks h (h.modify (fun z => { z with lpFrom := Slot.holds (some v) }) lv) :=
      OnlyLinks.links_modify h lv _
    have he2 := hol.links_edgesOf_eq
    have hnotin : lv ∉ v :: q := by
      intro hin
      rcases List.mem_cons.mp hin with heq | hin
      · subst heq
        exact hacyc lv (Relation.TransGen.single hedge)
      · exact hacyc lv (Relation.TransGen.tail (hq lv hin) hedge)
    have hlinked2 :
        Linked (h.modify (fun z => { z with lpFrom := Slot.holds (some v) }) lv)
          (Slot.holds (some lv)) (lv :: v :: q) :=
      ⟨rfl, _, get_modify_self _ hy, linked_modify_other (v :: q) h _ hnotin hlinked⟩
    have hq2 : ∀ u ∈ v :: q,
        Relation.TransGen (Edge (h.modify (fun z => { z with lpFrom := Slot.holds (some v) }) lv))
          u lv := by
      intro u hu
      rw [edge_congr he2]
      rcases List.mem_cons.mp hu with rfl | hu
      · exact Relation.TransGen.single hedge
      · exact Relation.TransGen.tail (hq u hu) hedge
    obtain ⟨h', P', hrun, hol', hlen, hlast, hchain, hlinked', s, hs, hsno⟩ :=
      ih _ lv (v :: q) (Slot.holds (some lv)) (hol.links_edgesValid hvalid)
        (hol.links_lengthsRight hright) ((acyclic_congr he2).mpr hacyc)
        ⟨_, get_modify_self _ hy, hyn⟩ hlinked2 hq2
    have hheadP : (P' ++ [v]).head? = P'.head? := by
      cases P' with
      | nil => simp at hlen
      | cons a rest => rfl
    refine ⟨h', P' ++ [v], ?_, hol.links_trans hol', by simp [hlen], by simp, ?_, ?_, s, ?_, ?_⟩
    · intro fuel hfuel
      obtain ⟨fuel, rfl⟩ : ∃ f, fuel = f + 1 := ⟨fuel - 1, by omega⟩
      rw [reconstruct, hx]
      simp only [hsel]
      rw [hrun fuel (by omega), if_neg (Nat.succ_ne_zero n), hheadP]
      by_cases hn0 : n = 0
      · subst hn0
        rw [if_pos rfl]
        cases P' with
        | nil => simp at hlen
        | cons a rest =>
          cases rest with
          | nil =>
            simp only [List.getLast?_singleton, Option.some.injEq] at hlast
            subst hlast
            rfl
          | cons b rest2 => simp at hlen
      · rw [if_neg hn0]
    · rw [edge_congr he2] at hchain
      refine List.Chain'.append hchain (by simp) ?_
      intro a ha b hb
      simp only [List.head?_cons, Option.mem_def, Option.some.injEq] at hb
      subst hb
      rw [hlast] at ha
      simp only [Option.mem_def, Option.some.injEq] at ha
      subst ha
      exact hedge
    · rw [hheadP, List.append_assoc]
      exact hlinked'
    · rw [hheadP]; exact hs
    · rw [← he2]; exact hsno

/-! ## The program after the read loop -/

theorem longestPath_spec {α : Type} (visit : Nat → Vertex → α) (b : Build) (e : Nat)
    (ok : StoreOK b.store) (hend : b.endV = some e) (he : e < b.store.heap.length)
    (hacyc : Acyclic b.store.heap) (hsize : b.store.heap.length ≤ 2 ^ 31)
    (hedge : edgesOf b.store.heap e ≠ []) :
    ∃ (len : Nat) (h1 h3 : Heap) (P : List Nat),
      IsLongest b.store.heap e len ∧
      (∀ fuel, len + 1 ≤ fuel → maxLength fuel b.store.heap e = Res.ok ((len : Int), h1)) ∧
      P.length = len + 1 ∧ P.getLast? = some e ∧
      List.Chain' (fun u w => Edge b.store.heap w u) P ∧
      (∃ s, P.head? = some s ∧ edgesOf b.store.heap s = []) ∧
      (∀ (u : Nat) (x : Vertex), b.store.heap[u]? = some x →
        ∃ m l, h3[u]? = some { x with maxLength := m, lpFrom := l }) ∧
      ∀ fuel, len + 1 ≤ fuel →
        longestPath visit fuel b = Res.ok (P.map (fun v => visit v (vertexAt h3 v))) := by
  have hvalid := ok.edges
  have hright := lengthsRight_of_allUncomputed ok.fresh
  obtain ⟨len, hlong, hrunAll⟩ := maxLength_fuel hvalid hright hacyc hsize he
  obtain ⟨h1, hrun1, hpost⟩ := hrunAll (len + 1) (le_refl _)
  have hrun : ∀ fuel, len + 1 ≤ fuel →
      maxLength fuel b.store.heap e = Res.ok ((len : Int), h1) :=
    fun fuel hf => maxLength_more_fuel hf hrun1
  obtain ⟨x1, hx1, hx1l⟩ := hpost.cached
  have he1 : edgesOf h1 = edgesOf b.store.heap := hpost.only.edgesOf_eq
  have hol2 : OnlyLinks h1 (h1.modify (fun y => { y with lpFrom := Slot.holds none }) e) :=
    OnlyLinks.links_modify h1 e _
  have he2 := hol2.links_edgesOf_eq
  have hlinked : Linked (h1.modify (fun y => { y with lpFrom := Slot.holds none }) e)
      (Slot.holds (some e)) [e] :=
    ⟨rfl, _, get_modify_self _ hx1, rfl⟩
  obtain ⟨h3, P, hrec, hol3, hlen, hlast, hchain, hlinked3, s, hs, hsno⟩ :=
    reconstruct_spec len _ e [] Slot.indeterminate
      (hol2.links_edgesValid (hpost.only.edgesValid hvalid))
      (hol2.links_lengthsRight hpost.right)
      ((acyclic_congr he2).mpr ((acyclic_congr he1).mpr hacyc))
      ⟨_, get_modify_self _ hx1, hx1l⟩ hlinked (fun u hu => by simp at hu)
  have hlen0 : len ≠ 0 := by
    intro h0
    subst h0
    exact hedge (no_edges_of_isLongest_zero hlong)
  refine ⟨len, h1, h3, P, hlong, hrun, hlen, hlast, ?_, ⟨s, hs, ?_⟩, ?_, ?_⟩
  · rw [edge_congr he2, edge_congr he1] at hchain
    exact hchain
  · rw [← he1, ← he2]; exact hsno
  · intro u x hx
    obtain ⟨m, hm⟩ := hpost.only.2 u x hx
    obtain ⟨l2, hl2⟩ := hol2.2 u _ hm
    obtain ⟨l3, hl3⟩ := hol3.2 u _ hl2
    exact ⟨m, l3, hl3⟩
  · intro fuel hfuel
    simp only [longestPath, hend, hrun fuel hfuel]
    rw [hrec fuel hfuel, if_neg hlen0]
    simp only
    rw [List.append_nil] at hlinked3
    exact followPath_linked visit P _ hlinked3 fuel (by omega)

theorem vertexAt_of_get {h : Heap} {v : Nat} {x : Vertex} (hx : h[v]? = some x) :
    vertexAt h v = x := by
  simp [vertexAt, hx]

/-- C3: on an acyclic input whose end vertex has an outgoing edge, the call
`maxLength(end)` returns some `len`, and the path the reconstruction loop
records, read from `start` along the `lpFrom` links to `NULL`, has `len` edges,
ends at the end vertex, and each of its vertices is the target of an outgoing
edge of the vertex that follows it. -/
theorem recorded_path_is_longest (lines : List String) (b : Build) (e : Nat)
    (hread : readLines Build.init lines = Res.ok b) (hend : b.endV = some e)
    (hacyc : Acyclic b.store.heap) (hsize : b.store.heap.length ≤ 2 ^ 31)
    (hedge : edgesOf b.store.heap e ≠ []) :
    ∃ (len : Nat) (h1 : Heap) (P : List Nat),
      (∀ fuel, len + 1 ≤ fuel →
        maxLength fuel b.store.heap e = Res.ok ((len : Int), h1) ∧
        longestPath (fun v _ => v) fuel b = Res.ok P) ∧
      P.length = len + 1 ∧ P.getLast? = some e ∧
      List.Chain' (fun u w => Edge b.store.heap w u) P := by
  obtain ⟨rs, _, hb⟩ := readLines_records lines _ _ hread
  have ok : StoreOK b.store := hb ▸ storeOK_init rs
  have he : e < b.store.heap.length := by
    by_contra hlt
    apply hedge
    simp [edgesOf, List.getElem?_eq_none (Nat.le_of_not_lt hlt)]
  obtain ⟨len, h1, h3, P, _, hrun, hlen, hlast, hchain, _, _, hpath⟩ :=
    longestPath_spec (fun v _ => v) b e ok hend he hacyc hsize hedge
  refine ⟨len, h1, P, fun fuel hf => ⟨hrun fuel hf, ?_⟩, hlen, hlast, hchain⟩
  rw [hpath fuel hf]
  simp

/-- Instance of C3: the diamond, whose recorded path is `A`, `B`, `D`. -/
theorem recorded_path_is_longest_witness :
    readLines Build.init diamondLines = Res.ok (readRecords Build.init diamondRecords) ∧
    (readRecords Build.init diamondRecords).endV = some 0 ∧
    Acyclic (readRecords Build.init diamondRecords).store.heap ∧
    (readRecords Build.init diamondRecords).store.heap.length ≤ 2 ^ 31 ∧
    edgesOf (readRecords Build.init diamondRecords).store.heap 0 ≠ [] ∧
    longestPath (fun v _ => v) 3 (readRecords Build.init diamondRecords) = Res.ok [3, 1, 0] ∧
    ∃ (len : Nat) (h1 : Heap) (P : List Nat),
      (∀ fuel, len + 1 ≤ fuel →
        maxLength fuel (readRecords Build.init diamondRecords).store.heap 0 =
          Res.ok ((len : Int), h1) ∧
        longestPath (fun v _ => v) fuel (readRecords Build.init diamondRecords) = Res.ok P) ∧
      P.length = len + 1 ∧ P.getLast? = some 0 ∧
      List.Chain' (fun u w => Edge (readRecords Build.init diamondRecords).store.heap w u) P :=
  have hac : Acyclic (readRecords Build.init diamondRecords).store.heap :=
    acyclic_of_rank (fun v => 4 - v) (by decide)
  ⟨by decide, by decide, hac, by decide, by decide, by decide,
    recorded_path_is_longest diamondLines (readRecords Build.init diamondRecords) 0
      (by decide) (by decide) hac (by decide) (by decide)⟩

/-- C1: on an acyclic input whose end vertex (the vertex of the first record)
has an outgoing edge, the program prints one line more than the number of
edges of the longest directed path that starts at the end vertex; the last
line is name and timestamp of the end vertex and the first line is that of a
vertex without outgoing edges.  On the chain `C3 300 C2`, `C2 200 C1`,
`C1 100` it prints `C1 100`, `C2 200`, `C3 300`. -/
theorem main_prints_longest_path (lines : List String) (b : Build) (e : Nat) (xe : Vertex)
    (hread : readLines Build.init lines = Res.ok b) (hend : b.endV = some e)
    (hxe : b.store.heap[e]? = some xe) (hacyc : Acyclic b.store.heap)
    (hsize : b.store.heap.length ≤ 2 ^ 31) (hedge : xe.edges ≠ []) :
    (∃ (len : Nat) (out : List String),
      IsLongest b.store.heap e len ∧
      (∀ fuel, len + 1 ≤ fuel → main fuel lines = Res.ok out) ∧
      out.length = len + 1 ∧ out.getLast? = some (outputLine xe) ∧
      ∃ (s : Nat) (xs : Vertex), b.store.heap[s]? = some xs ∧ xs.edges = [] ∧
        out.head? = some (outputLine xs)) ∧
    main 3 chainLines = Res.ok ["C1 100", "C2 200", "C3 300"] := by
  refine ⟨?_, by decide⟩
  obtain ⟨rs, _, hb⟩ := readLines_records lines _ _ hread
  have ok : StoreOK b.store := hb ▸ storeOK_init rs
  have hedge' : edgesOf b.store.heap e ≠ [] := by rw [edgesOf_of_get hxe]; exact hedge
  obtain ⟨len, h1, h3, P, hlong, _, hlen, hlast, hchain, ⟨s, hs, hsno⟩, hdata, hpath⟩ :=
    longestPath_spec (fun _ x => outputLine x) b e ok hend (lt_of_get hxe) hacyc hsize hedge'
  have hline : ∀ (u : Nat) (x : Vertex), b.store.heap[u]? = some x →
      outputLine (vertexAt h3 u) = outputLine x := by
    intro u x hx
    obtain ⟨m, l, hml⟩ := hdata u x hx
    rw [vertexAt_of_get hml]
    rfl
  have hsvalid : s < b.store.heap.length := by
    cases P with
    | nil => simp at hs
    | cons a rest =>
      simp only [List.head?_cons, Option.some.injEq] at hs
      subst hs
      cases rest with
      | nil =>
        simp only [List.getLast?_singleton, Option.some.injEq] at hlast
        subst hlast
        exact lt_of_get hxe
      | cons c rest2 =>
        exact edge_target_lt ok.edges (List.chain'_cons.mp hchain).1
  obtain ⟨xs, hxs⟩ := get_of_lt hsvalid
  refine ⟨len, P.map (fun v => outputLine (vertexAt h3 v)), hlong, ?_, by simp [hlen], ?_,
    s, xs, hxs, ?_, ?_⟩
  · intro fuel hf
    simp only [main, hread]
    exact hpath fuel hf
  · rw [List.getLast?_map, hlast]
    simp [hline e xe hxe]
  · rw [← edgesOf_of_get hxs]; exact hsno
  · rw [List.head?_map, hs]
    simp [hline s xs hxs]

/-- Instance of C1: the chain of three commits. -/
theorem main_prints_longest_path_witness :
    readLines Build.init chainLines = Res.ok (readRecords Build.init chainRecords) ∧
    (readRecords Build.init chainRecords).endV = some 0 ∧
    (readRecords Build.init chainRecords).store.heap[0]? =
      some ⟨"C3", -1, 300, [1], Slot.indeterminate⟩ ∧
    Acyclic (readRecords Build.init chainRecords).store.heap ∧
    (readRecords Build.init chainRecords).store.heap.length ≤ 2 ^ 31 ∧
    (⟨"C3", -1, 300, [1], Slot.indeterminate⟩ : Vertex).edges ≠ [] ∧
    ((∃ (len : Nat) (out : List String),
      IsLongest (readRecords Build.init chainRecords).store.heap 0 len ∧
      (∀ fuel, len + 1 ≤ fuel → main fuel chainLines = Res.ok out) ∧
      out.length = len + 1 ∧
      out.getLast? = some (outputLine ⟨"C3", -1, 300, [1], Slot.indeterminate⟩) ∧
      ∃ (s : Nat) (xs : Vertex), (readRecords Build.init chainRecords).store.heap[s]? = some xs ∧ xs.edges = [] ∧
        out.head? = some (outputLine xs)) ∧
    main 3 chainLines = Res.ok ["C1 100", "C2 200", "C3 300"]) :=
  have hac : Acyclic (readRecords Build.init chainRecords).store.heap :=
    acyclic_of_rank (fun v => 3 - v) (by decide)
  ⟨by decide, by decide, by decide, hac, by decide, by decide,
    main_prints_longest_path chainLines (readRecords Build.init chainRecords) 0
      ⟨"C3", -1, 300, [1], Slot.indeterminate⟩ (by decide) (by decide) (by decide) hac
      (by decide) (by decide)⟩

theorem toInt32_zero : toInt32 (-1 + 1) = 0 := by decide

/-- C4 fails on the code: when the end vertex has no outgoing edge, the
reconstruction loop never assigns `start`, which is declared without
initialiser, and the display loop reads it; the run is a fault (undefined
behaviour) instead of the one line of the end vertex. -/
theorem main_without_edges_reads_start (lines : List String) (b : Build) (e : Nat)
    (xe : Vertex) (hread : readLines Build.init lines = Res.ok b) (hend : b.endV = some e)
    (hxe : b.store.heap[e]? = some xe) (hno : xe.edges = []) :
    ∀ fuel, main (fuel + 1) lines = Res.fault Fault.indeterminateRead := by
  intro fuel
  obtain ⟨rs, _, hb⟩ := readLines_records lines _ _ hread
  have ok : StoreOK b.store := hb ▸ storeOK_init rs
  have hfresh : xe.maxLength = -1 := ok.fresh e xe hxe
  have hmax : maxLength (fuel + 1) b.store.heap e =
      Res.ok (0, b.store.heap.modify (fun y => { y with maxLength := 0 }) e) := by
    rw [maxLength, hxe]
    simp only [hfresh, hno, maxLengthLoop, ne_eq, not_true_eq_false, if_false, toInt32_zero]
  have hget : ((b.store.heap.modify (fun y => { y with maxLength := 0 }) e).modify
      (fun y => { y with lpFrom := Slot.holds none }) e)[e]? =
      some { xe with maxLength := 0, lpFrom := Slot.holds none } := by
    rw [get_modify_self _ (get_modify_self _ hxe)]
  simp only [main, hread, longestPath, hend, hmax]
  rw [reconstruct, hget]
  simp only [hno, selectLoop]
  cases fuel <;> simp [reconstruct, followPath]

/-- Instance of C4: the input of the single line `X 50`. -/
theorem main_without_edges_reads_start_witness :
    readLines Build.init ["X 50"] =
      Res.ok ⟨⟨[⟨"X", -1, 50, [], Slot.indeterminate⟩], [("X", 0)]⟩, some 0⟩ ∧
    ∀ fuel, main (fuel + 1) ["X 50"] = Res.fault Fault.indeterminateRead :=
  ⟨by decide,
    main_without_edges_reads_start ["X 50"]
      ⟨⟨[⟨"X", -1, 50, [], Slot.indeterminate⟩], [("X", 0)]⟩, some 0⟩ 0
      ⟨"X", -1, 50, [], Slot.indeterminate⟩ (by decide) (by decide) (by decide) (by decide)⟩

/-! ## The end vertex -/

theorem processRecord_end_keep {b : Build} {e : Nat} (he : b.endV = some e) (r : Record) :
    (processRecord b r).endV = some e := by
  simp [processRecord, he]

theorem readRecords_end_keep (rs : List Record) :
    ∀ (b : Build) (e : Nat), b.endV = some e → (readRecords b rs).endV = some e := by
  induction rs with
  | nil => intro b e he; exact he
  | cons r rest ih =>
    intro b e he
    rw [readRecords_cons]
    exact ih _ e (processRecord_end_keep he r)

theorem readRecords_find_mono (rs : List Record) :
    ∀ (b : Build) (k : String) (p : Nat), VertexMap.find b.store.vertices k = some p →
      VertexMap.find (readRecords b rs).store.vertices k = some p := by
  induction rs with
  | nil => intro b k p hk; exact hk
  | cons r rest ih =>
    intro b k p hk
    rw [readRecords_cons]
    apply ih
    simp only [processRecord]
    exact addParents_find_mono _ _ _ _ _ (get_vertex_find_mono _ _ hk)

/-- C13: the variable `end` holds the vertex of the first record (the first
vertex allocated, entered under the first record's name) after any further
records, and a record never changes `end` once it is set, whatever its name
and parents. -/
theorem end_is_first_record (r : Record) (rs : List Record) :
    (readRecords Build.init (r :: rs)).endV = some 0 ∧
    VertexMap.find (readRecords Build.init (r :: rs)).store.vertices r.nodeName = some 0 ∧
    (∃ x, (readRecords Build.init (r :: rs)).store.heap[0]? = some x ∧ x.name = r.nodeName) ∧
    (∀ (b : Build) (e : Nat) (r' : Record), b.endV = some e →
      (processRecord b r').endV = some e) ∧
    (∀ (b : Build) (e : Nat) (rs' : List Record), b.endV = some e →
      (readRecords b rs').endV = some e) := by
  have hfirst : (processRecord Build.init r).endV = some 0 := by
    simp [processRecord, Build.init, Store.empty, get_vertex, VertexMap.find]
  have hfind : VertexMap.find (processRecord Build.init r).store.vertices r.nodeName = some 0 := by
    rw [processRecord_find_node]
    simp [Build.init, Store.empty, get_vertex, VertexMap.find]
  have hfind2 := readRecords_find_mono rs _ _ _ hfind
  refine ⟨?_, ?_, ?_, fun b e r' he => processRecord_end_keep he r',
    fun b e rs' he => readRecords_end_keep rs' b e he⟩
  · rw [readRecords_cons]
    exact readRecords_end_keep rs _ 0 hfirst
  · rw [readRecords_cons]; exact hfind2
  · have ok := storeOK_init (r :: rs)
    rw [readRecords_cons] at ok ⊢
    exact ok.keyed _ _ hfind2

/-! ## Empty input -/

/-- C18: on empty input the read loop leaves `end` at `NULL`, and the call
`maxLength(end)` that follows dereferences it: whatever the fuel, the run is a
fault, not a normal completion with empty output. -/
theorem empty_input_faults :
    readLines Build.init [] = Res.ok Build.init ∧ Build.init.endV = none ∧
    (∀ fuel, main fuel [] = Res.fault Fault.nullDeref) ∧
    ∀ fuel, main fuel [] ≠ Res.ok [] := by
  refine ⟨rfl, rfl, fun fuel => rfl, fun fuel h => ?_⟩
  have : main fuel [] = Res.fault Fault.nullDeref := rfl
  rw [this] at h
  cases h

/-! ## Frame, coverage and depth of `maxLength` -/

/-- C20: in an acyclic graph a call `maxLength(v)` that returns changes nothing
but `maxLength` members, and those only at vertices reachable from `v`: the
number of vertices is the same, every vertex keeps its name, timestamp, edge
list and `lpFrom`, and a vertex that `v` does not reach is left as it was
(its length stays uncomputed when it was). -/
theorem maxLength_frame (h : Heap) (v : Nat) (fuel : Nat) (len : Int) (h1 : Heap)
    (hvalid : EdgesValid h) (hacyc : Acyclic h) (hright : LengthsRight h)
    (hsize : h.length ≤ 2 ^ 31) (hv : v < h.length)
    (hrun : maxLength fuel h v = Res.ok (len, h1)) :
    h1.length = h.length ∧
    (∀ (u : Nat) (x : Vertex), h[u]? = some x →
      ∃ m, h1[u]? = some { x with maxLength := m }) ∧
    (∀ u, ¬ Relation.ReflTransGen (Edge h) v u → h1[u]? = h[u]?) ∧
    (∀ u, ¬ Relation.ReflTransGen (Edge h) v u → lengthAt h1 u = lengthAt h u) := by
  have hpost := maxLength_post hvalid hright hacyc hsize hv hrun
  refine ⟨hpost.only.1, hpost.only.2, hpost.frame, fun u hu => ?_⟩
  simp only [lengthAt, hpost.frame u hu]

/-- Instance of C20: the call on `B` of the diamond leaves `D` and `C`, which
`B` does not reach, uncomputed. -/
theorem maxLength_frame_witness :
    EdgesValid (heapOfLines diamondLines) ∧ Acyclic (heapOfLines diamondLines) ∧
    LengthsRight (heapOfLines diamondLines) ∧ (heapOfLines diamondLines).length ≤ 2 ^ 31 ∧
    1 < (heapOfLines diamondLines).length ∧
    maxLength 2 (heapOfLines diamondLines) 1 =
      Res.ok (1, storeAfter (maxLength 2 (heapOfLines diamondLines) 1)) ∧
    lengthAt (storeAfter (maxLength 2 (heapOfLines diamondLines) 1)) 0 = -1 ∧
    lengthAt (storeAfter (maxLength 2 (heapOfLines diamondLines) 1)) 2 = -1 ∧
    ((storeAfter (maxLength 2 (heapOfLines diamondLines) 1)).length =
        (heapOfLines diamondLines).length ∧
    (∀ (u : Nat) (x : Vertex), (heapOfLines diamondLines)[u]? = some x →
      ∃ m, (storeAfter (maxLength 2 (heapOfLines diamondLines) 1))[u]? =
        some { x with maxLength := m }) ∧
    (∀ u, ¬ Relation.ReflTransGen (Edge (heapOfLines diamondLines)) 1 u →
      (storeAfter (maxLength 2 (heapOfLines diamondLines) 1))[u]? =
        (heapOfLines diamondLines)[u]?) ∧
    (∀ u, ¬ Relation.ReflTransGen (Edge (heapOfLines diamondLines)) 1 u →
      lengthAt (storeAfter (maxLength 2 (heapOfLines diamondLines) 1)) u =
        lengthAt (heapOfLines diamondLines) u)) :=
  have hv : EdgesValid (heapOfLines diamondLines) := edgesValid_of_mem (by decide)
  have ha : Acyclic (heapOfLines diamondLines) :=
    acyclic_of_rank (fun v => 4 - v) (by decide)
  have hn : LengthsRight (heapOfLines diamondLines) :=
    lengthsRight_of_allUncomputed (allUncomputed_of_mem (by decide))
  ⟨hv, ha, hn, by decide, by decide, by decide, by decide, by decide,
    maxLength_frame (heapOfLines diamondLines) 1 2 1 _ hv ha hn (by decide) (by decide)
      (by decide)⟩

theorem reachable_computed {h h1 : Heap} (he : edgesOf h1 = edgesOf h)
    (hright : LengthsRight h1) {v : Nat} {x : Vertex} (hx : h1[v]? = some x)
    (hne : x.maxLength ≠ -1) :
    ∀ u, Relation.ReflTransGen (Edge h) v u →
      ∃ y, h1[u]? = some y ∧ y.maxLength ≠ -1 ∧ 0 ≤ y.maxLength ∧
        IsLongest h u y.maxLength.toNat := by
  intro u hu
  induction hu with
  | refl =>
    exact ⟨x, hx, hne, (hright v x hx hne).1.1,
      (isLongest_congr he v _).mp (hright v x hx hne).1.2⟩
  | @tail a c _ hedge ih =>
    obtain ⟨y, hy, hyne, _, _⟩ := ih
    have hc : c ∈ y.edges := by
      have : Edge h1 a c := by rw [edge_congr he]; exact hedge
      simpa [Edge, edgesOf_of_get hy] using this
    obtain ⟨z, hz, hzne⟩ := (hright a y hy hyne).2 c hc
    exact ⟨z, hz, hzne, (hright c z hz hzne).1.1,
      (isLongest_congr he c _).mp (hright c z hz hzne).1.2⟩

/-- C14: in an acyclic graph without recorded lengths the one call
`maxLength(end)` returns, and in the store it leaves every vertex reachable
from the end vertex holds a length that is not -1 and is the edge count of the
longest path from that vertex; so every length the reconstruction loop reads
(that of a successor of a reachable vertex) is computed. -/
theorem maxLength_covers_reachable (h : Heap) (e : Nat) (hvalid : EdgesValid h)
    (hacyc : Acyclic h) (hnew : AllUncomputed h) (hsize : h.length ≤ 2 ^ 31)
    (he : e < h.length) :
    ∃ (len : Nat) (h1 : Heap),
      (∀ fuel, len + 1 ≤ fuel → maxLength fuel h e = Res.ok ((len : Int), h1)) ∧
      (∀ u, Relation.ReflTransGen (Edge h) e u →
        ∃ y, h1[u]? = some y ∧ y.maxLength ≠ -1 ∧ 0 ≤ y.maxLength ∧
          IsLongest h u y.maxLength.toNat) ∧
      (∀ u w, Relation.ReflTransGen (Edge h) e u → w ∈ edgesOf h u → lengthAt h1 w ≠ -1) := by
  obtain ⟨len, _, hrunAll⟩ :=
    maxLength_fuel hvalid (lengthsRight_of_allUncomputed hnew) hacyc hsize he
  obtain ⟨h1, hrun1, hpost⟩ := hrunAll (len + 1) (le_refl _)
  obtain ⟨x, hx, hxl⟩ := hpost.cached
  have hne : x.maxLength ≠ -1 := by rw [hxl]; omega
  have hreach := reachable_computed hpost.only.edgesOf_eq hpost.right hx hne
  refine ⟨len, h1, fun fuel hf => maxLength_more_fuel hf hrun1, hreach, ?_⟩
  intro u w hu hw
  obtain ⟨y, hy, hyne, _, _⟩ := hreach w (Relation.ReflTransGen.tail hu hw)
  rw [lengthAt_of_get hy]
  exact hyne

/-- Instance of C14: the diamond, seeded at the merge commit. -/
theorem maxLength_covers_reachable_witness :
    EdgesValid (heapOfLines diamondLines) ∧ Acyclic (heapOfLines diamondLines) ∧
    AllUncomputed (heapOfLines diamondLines) ∧ (heapOfLines diamondLines).length ≤ 2 ^ 31 ∧
    0 < (heapOfLines diamondLines).length ∧
    (List.map Vertex.maxLength (storeAfter (maxLength 3 (heapOfLines diamondLines) 0)) =
      [2, 1, 1, 0]) ∧
    ∃ (len : Nat) (h1 : Heap),
      (∀ fuel, len + 1 ≤ fuel →
        maxLength fuel (heapOfLines diamondLines) 0 = Res.ok ((len : Int), h1)) ∧
      (∀ u, Relation.ReflTransGen (Edge (heapOfLines diamondLines)) 0 u →
        ∃ y, h1[u]? = some y ∧ y.maxLength ≠ -1 ∧ 0 ≤ y.maxLength ∧
          IsLongest (heapOfLines diamondLines) u y.maxLength.toNat) ∧
      (∀ u w, Relation.ReflTransGen (Edge (heapOfLines diamondLines)) 0 u →
        w ∈ edgesOf (heapOfLines diamondLines) u → lengthAt h1 w ≠ -1) :=
  have hv : EdgesValid (heapOfLines diamondLines) := edgesValid_of_mem (by decide)
  have ha : Acyclic (heapOfLines diamondLines) :=
    acyclic_of_rank (fun v => 4 - v) (by decide)
  have hn : AllUncomputed (heapOfLines diamondLines) := allUncomputed_of_mem (by decide)
  ⟨hv, ha, hn, by decide, by decide, by decide,
    maxLength_covers_reachable (heapOfLines diamondLines) 0 hv ha hn (by decide) (by decide)⟩

/-! ## The longest path of the whole graph -/

theorem path_from_reachable {h : Heap} {e s : Nat} (hes : Relation.ReflTransGen (Edge h) e s) :
    ∀ p, PathFrom h s p → ∃ q, PathFrom h e q ∧ p.length ≤ q.length := by
  induction hes using Relation.ReflTransGen.head_induction_on with
  | refl => intro p hp; exact ⟨p, hp, le_refl _⟩
  | head hedge _ ih =>
    intro p hp
    obtain ⟨q, hq, hle⟩ := ih p hp
    exact ⟨_ :: q, pathFrom_cons hedge hq, by simp only [List.length_cons]; omega⟩

/-- C12 as the claim states it fails: the input `A 1 X`, `X 0`, `B 2 C`,
`C 3 D`, `D 4` is topologically sorted and acyclic, the program prints the
path `X`, `A` of one edge, and the graph has the path `B`, `C`, `D` of two
edges, which the end vertex `A` does not reach. -/
theorem sorted_input_with_longer_path_elsewhere :
    readLines Build.init forestLines = Res.ok (readRecords Build.init forestRecords) ∧
    TopoSorted forestRecords ∧
    Acyclic (readRecords Build.init forestRecords).store.heap ∧
    main 2 forestLines = Res.ok ["X 0", "A 1"] ∧
    IsPath (readRecords Build.init forestRecords).store.heap [2, 3, 4] ∧
    List.map Vertex.name (readRecords Build.init forestRecords).store.heap =
      ["A", "X", "B", "C", "D"] := by
  refine ⟨by decide, by decide, acyclic_of_rank (fun v => 5 - v) (by decide), by decide, ?_,
    by decide⟩
  unfold IsPath
  refine List.Chain'.cons ?_ (List.Chain'.cons ?_ (List.chain'_singleton _))
  · show 3 ∈ edgesOf _ 2
    decide
  · show 4 ∈ edgesOf _ 3
    decide

/-- C12, amended: on an acyclic input whose end vertex has an outgoing edge
and reaches every vertex of the graph (as for the log of one head commit),
topologically sorted or not, no directed path of the graph, wherever it
starts, has more vertices than the program prints lines: the printed path is a
longest path of the whole graph. -/
theorem emitted_path_longest_of_graph (lines : List String) (b : Build) (e : Nat) (xe : Vertex)
    (hread : readLines Build.init lines = Res.ok b) (hend : b.endV = some e)
    (hxe : b.store.heap[e]? = some xe) (hacyc : Acyclic b.store.heap)
    (hsize : b.store.heap.length ≤ 2 ^ 31) (hedge : xe.edges ≠ [])
    (hreach : ∀ u, u < b.store.heap.length → Relation.ReflTransGen (Edge b.store.heap) e u) :
    ∃ (len : Nat) (out : List String),
      (∀ fuel, len + 1 ≤ fuel → main fuel lines = Res.ok out) ∧
      out.length = len + 1 ∧
      (∃ p, PathFrom b.store.heap e p ∧ p.length = out.length) ∧
      ∀ p, IsPath b.store.heap p → p.length ≤ out.length := by
  obtain ⟨rs, _, hb⟩ := readLines_records lines _ _ hread
  have ok : StoreOK b.store := hb ▸ storeOK_init rs
  have hedge' : edgesOf b.store.heap e ≠ [] := by rw [edgesOf_of_get hxe]; exact hedge
  obtain ⟨len, h1, h3, P, hlong, _, hlen, _, _, _, _, hpath⟩ :=
    longestPath_spec (fun _ x => outputLine x) b e ok hend (lt_of_get hxe) hacyc hsize hedge'
  refine ⟨len, P.map (fun v => outputLine (vertexAt h3 v)), ?_, by simp [hlen], ?_, ?_⟩
  · intro fuel hf
    simp only [main, hread]
    exact hpath fuel hf
  · obtain ⟨p, hp, hpl⟩ := hlong.1
    exact ⟨p, hp, by simp [hpl, hlen]⟩
  · intro p hp
    simp only [List.length_map, hlen]
    cases p with
    | nil => simp
    | cons s rest =>
      have hps : PathFrom b.store.heap s (s :: rest) := ⟨rfl, hp⟩
      by_cases hs : s < b.store.heap.length
      · obtain ⟨q, hq, hle⟩ := path_from_reachable (hreach s hs) _ hps
        exact le_trans hle (hlong.2 q hq)
      · rcases pathFrom_cases hps with heq | ⟨w, q, _, hw, _⟩
        · rw [heq]; simp
        · exact absurd (edge_lt hw) hs

/-- Instance of C12 as amended: the diamond, where the merge commit reaches
every vertex. -/
theorem emitted_path_longest_of_graph_witness :
    readLines Build.init diamondLines = Res.ok (readRecords Build.init diamondRecords) ∧
    (readRecords Build.init diamondRecords).endV = some 0 ∧
    (readRecords Build.init diamondRecords).store.heap[0]? =
      some ⟨"D", -1, 400, [1, 2], Slot.indeterminate⟩ ∧
    Acyclic (readRecords Build.init diamondRecords).store.heap ∧
    (readRecords Build.init diamondRecords).store.heap.length ≤ 2 ^ 31 ∧
    (∀ u, u < (readRecords Build.init diamondRecords).store.heap.length →
      Relation.ReflTransGen (Edge (readRecords Build.init diamondRecords).store.heap) 0 u) ∧
    ∃ (len : Nat) (out : List String),
      (∀ fuel, len + 1 ≤ fuel → main fuel diamondLines = Res.ok out) ∧
      out.length = len + 1 ∧
      (∃ p, PathFrom (readRecords Build.init diamondRecords).store.heap 0 p ∧
        p.length = out.length) ∧
      ∀ p, IsPath (readRecords Build.init diamondRecords).store.heap p →
        p.length ≤ out.length :=
  have hac : Acyclic (readRecords Build.init diamondRecords).store.heap :=
    acyclic_of_rank (fun v => 4 - v) (by decide)
  have h01 : Edge (readRecords Build.init diamondRecords).store.heap 0 1 := by
    show 1 ∈ edgesOf _ 0
    decide
  have h02 : Edge (readRecords Build.init diamondRecords).store.heap 0 2 := by
    show 2 ∈ edgesOf _ 0
    decide
  have h13 : Edge (readRecords Build.init diamondRecords).store.heap 1 3 := by
    show 3 ∈ edgesOf _ 1
    decide
  have hreach : ∀ u, u < (readRecords Build.init diamondRecords).store.heap.length →
      Relation.ReflTransGen (Edge (readRecords Build.init diamondRecords).store.heap) 0 u := by
    intro u hu
    have hu4 : u < 4 := hu
    interval_cases u
    · exact Relation.ReflTransGen.refl
    · exact Relation.ReflTransGen.single h01
    · exact Relation.ReflTransGen.single h02
    · exact Relation.ReflTransGen.tail (Relation.ReflTransGen.single h01) h13
  ⟨by decide, by decide, by decide, hac, by decide, hreach,
    emitted_path_longest_of_graph diamondLines (readRecords Build.init diamondRecords) 0
      ⟨"D", -1, 400, [1, 2], Slot.indeterminate⟩ (by decide) (by decide) (by decide) hac
      (by decide) (by decide) hreach⟩

/-! ## Cyclic input -/

theorem toInt32_range (x : Int) : -(2 ^ 31) ≤ toInt32 x ∧ toInt32 x < 2 ^ 31 := by
  unfold toInt32
  omega

theorem toInt32_succ_ne {mp : Int} (h0 : -1 ≤ mp) (h1 : mp < 2 ^ 31) :
    toInt32 (mp + 1) ≠ -1 := by
  unfold toInt32
  omega

theorem reachesCycle_congr {h h' : Heap} (he : edgesOf h' = edgesOf h) (v : Nat) :
    ReachesCycle h' v ↔ ReachesCycle h v := by
  simp [ReachesCycle, edge_congr he]

theorem reachesCycle_succ {h : Heap} {v : Nat} (hc : ReachesCycle h v) :
    ∃ w, Edge h v w ∧ ReachesCycle h w := by
  obtain ⟨c, hvc, hcc⟩ := hc
  rcases Relation.ReflTransGen.cases_head hvc with rfl | ⟨w, hw, hwc⟩
  · obtain ⟨w, hw, hwv⟩ := Relation.TransGen.head'_iff.mp hcc
    exact ⟨w, hw, v, hwv, hcc⟩
  · exact ⟨w, hw, c, hwc, hcc⟩

theorem loop_returns_settled (call : Heap → Nat → Res (Int × Heap))
    (hcall : ∀ (h1 : Heap) (w : Nat), EdgesValid h1 → IntRange h1 → Settled h1 →
      w < h1.length →
      (∀ f, call h1 w ≠ Res.fault f) ∧
      ∀ len h', call h1 w = Res.ok (len, h') → ReturnPost h1 h' w len) :
    ∀ (es : List Nat) (h1 : Heap) (mp : Int), EdgesValid h1 → IntRange h1 → Settled h1 →
      (∀ w ∈ es, w < h1.length) → -1 ≤ mp → mp < 2 ^ 31 →
      (∀ f, maxLengthLoop call es mp h1 ≠ Res.fault f) ∧
      ∀ mp' h2, maxLengthLoop call es mp h1 = Res.ok (mp', h2) →
        OnlyLengths h1 h2 ∧ IntRange h2 ∧ Settled h2 ∧
        (∀ (u : Nat) (x : Vertex), h1[u]? = some x → x.maxLength ≠ -1 → h2[u]? = some x) ∧
        (∀ w ∈ es, ∃ y, h2[w]? = some y ∧ y.maxLength ≠ -1) ∧ -1 ≤ mp' ∧ mp' < 2 ^ 31 := by
  intro es
  induction es with
  | nil =>
    intro h1 mp _ hr hs _ h0 h31
    refine ⟨fun f hf => (by simp [maxLengthLoop] at hf), ?_⟩
    intro mp' h2 hrun
    simp only [maxLengthLoop, Res.ok.injEq, Prod.mk.injEq] at hrun
    obtain ⟨rfl, rfl⟩ := hrun
    exact ⟨OnlyLengths.refl _, hr, hs, fun _ _ hx _ => hx, fun w hw => by simp at hw, h0, h31⟩
  | cons i rest ih =>
    intro h1 mp hv hr hs hes h0 h31
    have hi : i < h1.length := hes i (List.mem_cons_self _ _)
    obtain ⟨hnofault, hok⟩ := hcall h1 i hv hr hs hi
    cases hc : call h1 i with
    | fault f => exact absurd hc (hnofault f)
    | outOfFuel =>
      refine ⟨fun f hf => (by simp [maxLengthLoop, hc] at hf), ?_⟩
      intro mp' h2 hrun
      simp [maxLengthLoop, hc] at hrun
    | ok a =>
      obtain ⟨p, ha⟩ := a
      have hpost := hok p ha hc
      obtain ⟨xi, hxi, hxip, hxine⟩ := hpost.cached
      have hprange := hpost.range i xi hxi
      rw [hxip] at hprange
      have hva : EdgesValid ha := hpost.only.edgesValid hv
      have hrest : ∀ w ∈ rest, w < ha.length := fun w hw => by
        rw [hpost.only.1]; exact hes w (List.mem_cons_of_mem _ hw)
      have hm0 : -1 ≤ (if p > mp then p else mp) := by split <;> omega
      have hm1 : (if p > mp then p else mp) < 2 ^ 31 := by split <;> omega
      obtain ⟨hnf2, hok2⟩ := ih ha _ hva hpost.range hpost.settled hrest hm0 hm1
      refine ⟨fun f hf => ?_, ?_⟩
      · simp only [maxLengthLoop, hc] at hf
        exact hnf2 f hf
      · intro mp' h2 hrun
        simp only [maxLengthLoop, hc] at hrun
        obtain ⟨hol, hr2, hs2, hmono, hcached, hb0, hb1⟩ := hok2 mp' h2 hrun
        refine ⟨hpost.only.trans hol, hr2, hs2, ?_, ?_, hb0, hb1⟩
        · intro u x hx hne
          exact hmono u x (hpost.mono u x hx hne) hne
        · intro w hw
          rcases List.mem_cons.mp hw with rfl | hw
          · exact ⟨xi, hmono _ xi hxi hxine, hxine⟩
          · exact hcached w hw

theorem maxLength_returns_settled :
    ∀ (fuel : Nat) (h : Heap) (v : Nat), EdgesValid h → IntRange h → Settled h →
      v < h.length →
      (∀ f, maxLength fuel h v ≠ Res.fault f) ∧
      ∀ len h', maxLength fuel h v = Res.ok (len, h') → ReturnPost h h' v len := by
  intro fuel
  induction fuel with
  | zero =>
    intro h v _ _ _ _
    exact ⟨fun f hf => (by simp [maxLength] at hf),
      fun len h' hrun => (by simp [maxLength] at hrun)⟩
  | succ fuel ih =>
    intro h v hv hr hs hlt
    obtain ⟨x, hx⟩ := get_of_lt hlt
    by_cases hc : x.maxLength ≠ -1
    · have hrun0 : maxLength (fuel + 1) h v = Res.ok (x.maxLength, h) := by
        rw [maxLength, hx]
        simp only
        rw [if_pos hc]
      refine ⟨fun f hf => (by rw [hrun0] at hf; cases hf), ?_⟩
      intro len h' hrun
      rw [hrun0] at hrun
      simp only [Res.ok.injEq, Prod.mk.injEq] at hrun
      obtain ⟨rfl, rfl⟩ := hrun
      exact
        { only := OnlyLengths.refl _, range := hr, settled := hs, mono := fun _ _ hy _ => hy,
          cached := ⟨x, hx, rfl, hc⟩ }
    · have hc' : x.maxLength = -1 := not_not.mp hc
      have hes : ∀ w ∈ x.edges, w < h.length := fun w hw => hv v x hx w hw
      obtain ⟨hnf, hok⟩ :=
        loop_returns_settled (maxLength fuel) ih x.edges h (-1) hv hr hs hes (le_refl _)
          (by norm_num)
      have hunf : maxLength (fuel + 1) h v =
          match maxLengthLoop (maxLength fuel) x.edges (-1) h with
          | Res.ok (mp, h1) =>
            Res.ok (toInt32 (mp + 1),
              h1.modify (fun y => { y with maxLength := toInt32 (mp + 1) }) v)
          | Res.fault f => Res.fault f
          | Res.outOfFuel => Res.outOfFuel := by
        rw [maxLength, hx]
        simp only [hc', ne_eq, not_true_eq_false, if_false]
      cases hl : maxLengthLoop (maxLength fuel) x.edges (-1) h with
      | fault f => exact absurd hl (hnf f)
      | outOfFuel =>
        rw [hunf, hl]
        exact ⟨fun f hf => (by cases hf), fun len h' hrun => (by cases hrun)⟩
      | ok a =>
        obtain ⟨mp, h2⟩ := a
        rw [hunf, hl]
        refine ⟨fun f hf => (by cases hf), ?_⟩
        intro len h' hrun
        simp only [Res.ok.injEq, Prod.mk.injEq] at hrun
        obtain ⟨rfl, rfl⟩ := hrun
        obtain ⟨hol, hr2, hs2, hmono, hcached, hb0, hb1⟩ := hok mp h2 hl
        obtain ⟨m2, hx2⟩ := hol.2 v x hx
        have hne : toInt32 (mp + 1) ≠ -1 := toInt32_succ_ne hb0 hb1
        have hself : (h2.modify (fun y => { y with maxLength := toInt32 (mp + 1) }) v)[v]? =
            some { x with maxLength := toInt32 (mp + 1) } := by
          rw [get_modify_self _ hx2]
        have hother : ∀ u, v ≠ u →
            (h2.modify (fun y => { y with maxLength := toInt32 (mp + 1) }) v)[u]? = h2[u]? :=
          fun u hu => get_modify_other _ hu
        have holm : OnlyLengths h2
            (h2.modify (fun y => { y with maxLength := toInt32 (mp + 1) }) v) :=
          OnlyLengths.modify h2 v _
        have hkeep : ∀ w : Nat, (∃ y : Vertex, h2[w]? = some y ∧ y.maxLength ≠ -1) →
            ∃ y : Vertex, (h2.modify (fun y => { y with maxLength := toInt32 (mp + 1) }) v)[w]? = some y ∧
              y.maxLength ≠ -1 := by
          intro w hw
          by_cases hvw : v = w
          · subst hvw
            exact ⟨_, hself, hne⟩
          · obtain ⟨y, hy, hyne⟩ := hw
            exact ⟨y, by rw [hother w hvw]; exact hy, hyne⟩
        refine
          { only := hol.trans holm, range := ?_, settled := ?_, mono := ?_,
            cached := ⟨_, hself, rfl, hne⟩ }
        · intro u y hy
          by_cases hvu : v = u
          · subst hvu
            rw [hself] at hy
            cases hy
            exact toInt32_range _
          · rw [hother u hvu] at hy
            exact hr2 u y hy
        · intro u y hy hyne
          by_cases hvu : v = u
          · subst hvu
            rw [hself] at hy
            cases hy
            refine ⟨fun w hw => hkeep w (hcached w hw), ?_⟩
            intro hcyc
            rw [reachesCycle_congr holm.edgesOf_eq] at hcyc
            obtain ⟨w, hw, hwc⟩ := reachesCycle_succ hcyc
            have hwmem : w ∈ x.edges := by
              have := edgesOf_of_get hx2
              simpa [Edge, this] using hw
            obtain ⟨z, hz, hzne⟩ := hcached w hwmem
            exact (hs2 w z hz hzne).2 hwc
          · rw [hother u hvu] at hy
            obtain ⟨hsucc, hnc⟩ := hs2 u y hy hyne
            refine ⟨fun w hw => hkeep w (hsucc w hw), ?_⟩
            rw [reachesCycle_congr holm.edgesOf_eq]
            exact hnc
        · intro u y hy hyne
          have hvu : v ≠ u := by
            intro heq
            subst heq
            rw [hx] at hy
            cases hy
            exact hyne hc'
          rw [hother u hvu]
          exact hmono u y hy hyne

theorem settled_of_allUncomputed {h : Heap} (hnew : AllUncomputed h) : Settled h :=
  fun u x hx hne => absurd (hnew u x hx) hne

theorem intRange_of_allUncomputed {h : Heap} (hnew : AllUncomputed h) : IntRange h := by
  intro v x hx
  rw [hnew v x hx]
  constructor <;> norm_num

theorem maxLength_diverges {h : Heap} {v : Nat} (hvalid : EdgesValid h) (hrange : IntRange h)
    (hsettled : Settled h) (hcyc : ReachesCycle h v) :
    ∀ fuel, maxLength fuel h v = Res.outOfFuel := by
  intro fuel
  obtain ⟨w, hw, _⟩ := reachesCycle_succ hcyc
  obtain ⟨hnf, hok⟩ := maxLength_returns_settled fuel h v hvalid hrange hsettled (edge_lt hw)
  cases hr : maxLength fuel h v with
  | outOfFuel => rfl
  | fault f => exact absurd hr (hnf f)
  | ok a =>
    obtain ⟨len, h'⟩ := a
    have hpost := hok len h' hr
    obtain ⟨x, hx, _, hxne⟩ := hpost.cached
    have := (hpost.settled v x hx hxne).2
    rw [reachesCycle_congr hpost.only.edgesOf_eq] at this
    exact absurd hcyc this

/-- C17 as the claim states it fails: the graph of `A 1 B`, `B 2`, `C 3 D`,
`D 4 C` contains the directed cycle `C`, `D`, yet `maxLength` seeded at the
end vertex `A`, which does not reach the cycle, returns 1 and the program
prints `B 2`, `A 1`. -/
theorem stray_cycle_is_not_entered :
    readLines Build.init strayCycleLines = Res.ok (readRecords Build.init strayCycleRecords) ∧
    (readRecords Build.init strayCycleRecords).endV = some 0 ∧
    Relation.TransGen (Edge (readRecords Build.init strayCycleRecords).store.heap) 2 2 ∧
    maxLength 2 (readRecords Build.init strayCycleRecords).store.heap 0 =
      Res.ok (1, storeAfter (maxLength 2 (readRecords Build.init strayCycleRecords).store.heap 0)) ∧
    main 2 strayCycleLines = Res.ok ["B 2", "A 1"] := by
  refine ⟨by decide, by decide, ?_, by decide, by decide⟩
  have h23 : Edge (readRecords Build.init strayCycleRecords).store.heap 2 3 := by
    show 3 ∈ edgesOf _ 2
    decide
  have h32 : Edge (readRecords Build.init strayCycleRecords).store.heap 3 2 := by
    show 2 ∈ edgesOf _ 3
    decide
  exact Relation.TransGen.tail (Relation.TransGen.single h23) h32

/-- C17, amended: when the end vertex reaches a directed cycle, the call
`maxLength(end)` returns for no bound on the nesting depth and raises no
fault: for every fuel the call, and with it the program, runs out of fuel. -/
theorem reachable_cycle_never_returns (lines : List String) (b : Build) (e : Nat)
    (hread : readLines Build.init lines = Res.ok b) (hend : b.endV = some e)
    (hcyc : ReachesCycle b.store.heap e) :
    ∀ fuel, maxLength fuel b.store.heap e = Res.outOfFuel ∧
      main fuel lines = Res.outOfFuel := by
  intro fuel
  obtain ⟨rs, _, hb⟩ := readLines_records lines _ _ hread
  have ok : StoreOK b.store := hb ▸ storeOK_init rs
  have hdiv := maxLength_diverges ok.edges (intRange_of_allUncomputed ok.fresh)
    (settled_of_allUncomputed ok.fresh) hcyc fuel
  refine ⟨hdiv, ?_⟩
  simp only [main, hread, longestPath, hend, hdiv]

/-- Instance of C17 as amended: the two commits `A`, `B` that name each other
as parent. -/
theorem reachable_cycle_never_returns_witness :
    readLines Build.init cycleLines =
      Res.ok ⟨⟨[⟨"A", -1, 1, [1], Slot.indeterminate⟩, ⟨"B", -1, 2, [0], Slot.indeterminate⟩],
        [("A", 0), ("B", 1)]⟩, some 0⟩ ∧
    ReachesCycle [⟨"A", -1, 1, [1], Slot.indeterminate⟩, ⟨"B", -1, 2, [0], Slot.indeterminate⟩] 0 ∧
    ∀ fuel,
      maxLength fuel [⟨"A", -1, 1, [1], Slot.indeterminate⟩, ⟨"B", -1, 2, [0], Slot.indeterminate⟩]
        0 = Res.outOfFuel ∧
      main fuel cycleLines = Res.outOfFuel :=
  have h01 : Edge [⟨"A", -1, 1, [1], Slot.indeterminate⟩, ⟨"B", -1, 2, [0], Slot.indeterminate⟩]
      0 1 := by
    show 1 ∈ edgesOf _ 0
    decide
  have h10 : Edge [⟨"A", -1, 1, [1], Slot.indeterminate⟩, ⟨"B", -1, 2, [0], Slot.indeterminate⟩]
      1 0 := by
    show 0 ∈ edgesOf _ 1
    decide
  have hc : ReachesCycle
      [⟨"A", -1, 1, [1], Slot.indeterminate⟩, ⟨"B", -1, 2, [0], Slot.indeterminate⟩] 0 :=
    ⟨0, Relation.ReflTransGen.refl, Relation.TransGen.tail (Relation.TransGen.single h01) h10⟩
  ⟨by decide, hc,
    reachable_cycle_never_returns cycleLines
      ⟨⟨[⟨"A", -1, 1, [1], Slot.indeterminate⟩, ⟨"B", -1, 2, [0], Slot.indeterminate⟩],
        [("A", 0), ("B", 1)]⟩, some 0⟩ 0 (by decide) rfl hc⟩

/-! ## Depth of the recursion and length of the loop -/

/-- C16: in an acyclic graph whose recorded lengths are right, the recursion
`maxLength(n)` returns within a nesting depth of one more than the edge count
`len` of the longest path from `n`, and the reconstruction loop started at `n`
after `n->lpFrom = NULL` ends within `len + 1` runs of its body. -/
theorem depth_and_iterations_bounded (h : Heap) (n : Nat) (hvalid : EdgesValid h)
    (hacyc : Acyclic h) (hright : LengthsRight h) (hsize : h.length ≤ 2 ^ 31)
    (hn : n < h.length) :
    ∃ (len : Nat) (h1 : Heap),
      IsLongest h n len ∧
      maxLength (len + 1) h n = Res.ok ((len : Int), h1) ∧
      ∀ start, ∃ r,
        reconstruct (len + 1) (h1.modify (fun y => { y with lpFrom := Slot.holds none }) n)
          (some n) start = Res.ok r := by
  obtain ⟨len, hlong, hrunAll⟩ := maxLength_fuel hvalid hright hacyc hsize hn
  obtain ⟨h1, hrun1, hpost⟩ := hrunAll (len + 1) (le_refl _)
  refine ⟨len, h1, hlong, hrun1, fun start => ?_⟩
  obtain ⟨x1, hx1, hx1l⟩ := hpost.cached
  have he1 : edgesOf h1 = edgesOf h := hpost.only.edgesOf_eq
  have hol2 : OnlyLinks h1 (h1.modify (fun y => { y with lpFrom := Slot.holds none }) n) :=
    OnlyLinks.links_modify h1 n _
  have he2 := hol2.links_edgesOf_eq
  have hlinked : Linked (h1.modify (fun y => { y with lpFrom := Slot.holds none }) n)
      (Slot.holds (some n)) [n] :=
    ⟨rfl, _, get_modify_self _ hx1, rfl⟩
  obtain ⟨h3, P, hrec, _⟩ :=
    reconstruct_spec len _ n [] start
      (hol2.links_edgesValid (hpost.only.edgesValid hvalid))
      (hol2.links_lengthsRight hpost.right)
      ((acyclic_congr he2).mpr ((acyclic_congr he1).mpr hacyc))
      ⟨_, get_modify_self _ hx1, hx1l⟩ hlinked (fun u hu => by simp at hu)
  exact ⟨_, hrec (len + 1) (le_refl _)⟩

/-- Instance of C16: the diamond, whose longest path from the merge commit has
2 edges; depth 3 and 3 runs of the loop body suffice, depth 2 does not. -/
theorem depth_and_iterations_bounded_witness :
    EdgesValid (heapOfLines diamondLines) ∧ Acyclic (heapOfLines diamondLines) ∧
    LengthsRight (heapOfLines diamondLines) ∧ (heapOfLines diamondLines).length ≤ 2 ^ 31 ∧
    0 < (heapOfLines diamondLines).length ∧
    maxLength 2 (heapOfLines diamondLines) 0 = Res.outOfFuel ∧
    maxLength 3 (heapOfLines diamondLines) 0 =
      Res.ok (2, storeAfter (maxLength 3 (heapOfLines diamondLines) 0)) ∧
    ∃ (len : Nat) (h1 : Heap),
      IsLongest (heapOfLines diamondLines) 0 len ∧
      maxLength (len + 1) (heapOfLines diamondLines) 0 = Res.ok ((len : Int), h1) ∧
      ∀ start, ∃ r,
        reconstruct (len + 1) (h1.modify (fun y => { y with lpFrom := Slot.holds none }) 0)
          (some 0) start = Res.ok r :=
  have hv : EdgesValid (heapOfLines diamondLines) := edgesValid_of_mem (by decide)
  have ha : Acyclic (heapOfLines diamondLines) :=
    acyclic_of_rank (fun v => 4 - v) (by decide)
  have hn : LengthsRight (heapOfLines diamondLines) :=
    lengthsRight_of_allUncomputed (allUncomputed_of_mem (by decide))
  ⟨hv, ha, hn, by decide, by decide, by decide, by decide,
    depth_and_iterations_bounded (heapOfLines diamondLines) 0 hv ha hn (by decide) (by decide)⟩

/-! ## The record parser and the tokens of a line -/

theorem tokensFrom_split (cs : List Char) :
    ∀ cur : List Char,
      tokensFrom cs cur =
        if (cur ++ cs.takeWhile (fun c => !isspace c)).isEmpty then
          tokensFrom (cs.dropWhile (fun c => !isspace c)) []
        else
          (cur ++ cs.takeWhile (fun c => !isspace c)) ::
            tokensFrom (cs.dropWhile (fun c => !isspace c)) [] := by
  induction cs with
  | nil => intro cur; cases cur <;> simp [tokensFrom]
  | cons c cs ih =>
    intro cur
    by_cases hc : isspace c = true
    · cases cur <;> simp [tokensFrom, hc]
    · have hc' : isspace c = false := by simpa using hc
      rw [tokensFrom]
      simp only [hc', Bool.false_eq_true, if_false]
      rw [ih]
      simp [hc']

theorem tokensFrom_skip (cs : List Char) :
    tokensFrom cs [] = tokensFrom (cs.dropWhile isspace) [] := by
  induction cs with
  | nil => rfl
  | cons c cs ih =>
    by_cases hc : isspace c = true
    · rw [List.dropWhile_cons_of_pos hc, ← ih]
      simp [tokensFrom, hc]
    · rw [List.dropWhile_cons_of_neg hc]

theorem tokensFrom_nil_of_spaces {cs : List Char} (h : cs.dropWhile isspace = []) :
    tokensFrom cs [] = [] := by
  rw [tokensFrom_skip, h]
  rfl

theorem dropWhile_head_not {p : Char → Bool} {l : List Char} {c : Char} {cs : List Char}
    (h : l.dropWhile p = c :: cs) : p c = false := by
  induction l with
  | nil => simp at h
  | cons a l ih =>
    by_cases ha : p a = true
    · rw [List.dropWhile_cons_of_pos ha] at h
      exact ih h
    · rw [List.dropWhile_cons_of_neg ha] at h
      simp only [List.cons.injEq] at h
      rw [← h.1]
      simpa using ha

theorem tokensFrom_cons_of_nonspace {c : Char} {cs : List Char} (hc : isspace c = false) :
    tokensFrom (c :: cs) [] =
      (c :: cs).takeWhile (fun c => !isspace c) ::
        tokensFrom ((c :: cs).dropWhile (fun c => !isspace c)) [] := by
  rw [tokensFrom_split]
  simp [hc]

theorem sentry_ok {s : IStream} (he : s.eofbit = false) (hf : s.failbit = false) {c : Char}
    {cs : List Char} (hb : s.buf.dropWhile isspace = c :: cs) :
    sentry s = ({ s with buf := c :: cs }, true) := by
  simp [sentry, IStream.good, he, hf, hb]

theorem sentry_spaces {s : IStream} (he : s.eofbit = false) (hf : s.failbit = false)
    (hb : s.buf.dropWhile isspace = []) :
    sentry s = ({ buf := [], eofbit := true, failbit := true }, false) := by
  simp [sentry, IStream.good, he, hf, hb]

theorem sentry_not_good {s : IStream} (h : s.eofbit = true ∨ s.failbit = true) :
    sentry s = ({ s with failbit := true }, false) := by
  rcases h with h | h <;> simp [sentry, IStream.good, h]

theorem extractString_ok {s : IStream} (he : s.eofbit = false) (hf : s.failbit = false)
    {c : Char} {cs : List Char} (hb : s.buf.dropWhile isspace = c :: cs) (str : String) :
    extractString s str =
      ({ buf := (c :: cs).dropWhile (fun c => !isspace c),
         eofbit := ((c :: cs).dropWhile (fun c => !isspace c)).isEmpty,
         failbit := false },
        String.mk ((c :: cs).takeWhile (fun c => !isspace c))) := by
  have hc : isspace c = false := dropWhile_head_not hb
  simp [extractString, sentry_ok he hf hb, hc]

theorem extractString_fails {s : IStream}
    (h : s.eofbit = true ∨ s.failbit = true ∨ s.buf.dropWhile isspace = []) (str : String) :
    (extractString s str).1.failbit = true ∧ (extractString s str).2 = str := by
  by_cases hg : s.eofbit = true ∨ s.failbit = true
  · simp [extractString, sentry_not_good hg]
  · have he : s.eofbit = false := by
      cases hh : s.eofbit
      · rfl
      · exact absurd (Or.inl hh) hg
    have hf : s.failbit = false := by
      cases hh : s.failbit
      · rfl
      · exact absurd (Or.inr hh) hg
    have hb : s.buf.dropWhile isspace = [] := by
      rcases h with h | h | h
      · rw [he] at h; cases h
      · rw [hf] at h; cases h
      · exact h
    simp [extractString, sentry_spaces he hf hb]

theorem dropWhile_length_le (p : Char → Bool) (l : List Char) :
    (l.dropWhile p).length ≤ l.length := by
  induction l with
  | nil => simp
  | cons a l ih =>
    by_cases ha : p a = true
    · rw [List.dropWhile_cons_of_pos ha]
      simp only [List.length_cons]
      omega
    · rw [List.dropWhile_cons_of_neg ha]

theorem readParents_tokens :
    ∀ (n : Nat) (s : IStream), s.failbit = false → (s.eofbit = true → s.buf = []) →
      s.buf.length < n →
      readParents n s = (tokensFrom s.buf []).map String.mk := by
  intro n
  induction n with
  | zero => intro s _ _ hn; simp at hn
  | succ n ih =>
    intro s hf heof hn
    rw [readParents]
    by_cases he : s.eofbit = true
    · have hfail := extractString_fails (s := s) (Or.inl he) ""
      simp only [hfail.1, if_true]
      rw [heof he]
      rfl
    · have he' : s.eofbit = false := by simpa using he
      cases hb : s.buf.dropWhile isspace with
      | nil =>
        have hfail := extractString_fails (s := s) (Or.inr (Or.inr hb)) ""
        simp only [hfail.1, if_true]
        rw [tokensFrom_nil_of_spaces hb]
        rfl
      | cons c cs =>
        have hc : isspace c = false := dropWhile_head_not hb
        rw [extractString_ok he' hf hb]
        simp only [Bool.false_eq_true, if_false]
        rw [tokensFrom_skip, hb, tokensFrom_cons_of_nonspace hc, List.map_cons]
        congr 1
        apply ih
        · rfl
        · intro h
          simpa using h
        · have hpos : (fun c => !isspace c) c = true := by simp [hc]
          have h1 := dropWhile_length_le (fun c => !isspace c) cs
          have h2 := dropWhile_length_le isspace s.buf
          rw [hb] at h2
          have h3 : ((c :: cs).dropWhile (fun c => !isspace c)).length ≤ cs.length := by
            rw [List.dropWhile_cons]
            simp only [hc, Bool.not_false, if_true]
            exact h1
          simp only [List.length_cons] at h2
          simp only
          omega

theorem digit_toNat {c : Char} (h : c.isDigit = true) : 48 ≤ c.toNat ∧ c.toNat ≤ 57 := by
  simp only [Char.isDigit, Bool.and_eq_true, decide_eq_true_eq] at h
  have h1 : (48 : UInt32) ≤ c.val := h.1
  have h2 : c.val ≤ (57 : UInt32) := h.2
  rw [UInt32.le_def] at h1 h2
  simp only [Char.toNat]
  exact ⟨h1, h2⟩

theorem isspace_of_digit {c : Char} (h : c.isDigit = true) : isspace c = false := by
  have hd := digit_toNat h
  unfold isspace
  have hne : c ≠ ' ' := by
    intro heq
    rw [heq] at hd
    simp at hd
  simp [hne]
  omega

theorem digit_ne_sign {c : Char} (h : c.isDigit = true) : c ≠ '-' ∧ c ≠ '+' := by
  have hd := digit_toNat h
  constructor <;> intro heq <;> rw [heq] at hd <;> simp at hd

theorem extractLong_after_sentry {s : IStream} (he : s.eofbit = false) (hf : s.failbit = false)
    {c : Char} {cs : List Char} (hb : s.buf.dropWhile isspace = c :: cs) (n : Option Int) :
    extractLong s n = extractLong { s with buf := c :: cs } n := by
  have hc : isspace c = false := dropWhile_head_not hb
  have hb2 : (c :: cs).dropWhile isspace = c :: cs := by
    rw [List.dropWhile_cons_of_neg (by simp [hc])]
  have h1 := sentry_ok he hf hb
  have h2 : sentry { s with buf := c :: cs } = ({ s with buf := c :: cs }, true) := by
    have := sentry_ok (s := { s with buf := c :: cs }) he hf hb2
    simpa using this
  simp only [extractLong, h1, h2]

theorem extractLong_of_sign {s : IStream} (he : s.eofbit = false) (hf : s.failbit = false)
    {c : Char} {cs : List Char} (hb : s.buf = c :: cs) (hsp : isspace c = false)
    {neg : Bool} {body : List Char}
    (hsig : (match c :: cs with
      | '-' :: r => (true, r)
      | '+' :: r => (false, r)
      | r => (false, r)) = (neg, body)) (n : Option Int) :
    extractLong s n =
      if (body.takeWhile Char.isDigit).isEmpty then
        ({ buf := body.dropWhile Char.isDigit,
           eofbit := (body.dropWhile Char.isDigit).isEmpty, failbit := true }, some 0)
      else if neg then
        if (digitsValue (body.takeWhile Char.isDigit) : Int) > 2 ^ 63 then
          ({ buf := body.dropWhile Char.isDigit,
             eofbit := (body.dropWhile Char.isDigit).isEmpty, failbit := true }, some LONG_MIN)
        else
          ({ buf := body.dropWhile Char.isDigit,
             eofbit := (body.dropWhile Char.isDigit).isEmpty, failbit := false },
            some (-(digitsValue (body.takeWhile Char.isDigit) : Int)))
      else
        if (digitsValue (body.takeWhile Char.isDigit) : Int) > LONG_MAX then
          ({ buf := body.dropWhile Char.isDigit,
             eofbit := (body.dropWhile Char.isDigit).isEmpty, failbit := true }, some LONG_MAX)
        else
          ({ buf := body.dropWhile Char.isDigit,
             eofbit := (body.dropWhile Char.isDigit).isEmpty, failbit := false },
            some (digitsValue (body.takeWhile Char.isDigit) : Int)) := by
  have hb2 : s.buf.dropWhile isspace = c :: cs := by
    rw [hb, List.dropWhile_cons_of_neg (by simp [hsp])]
  have hs := sentry_ok he hf hb2
  unfold extractLong
  rw [hs]
  simp only
  rw [hsig]
  rfl

theorem sign_of_other {c : Char} (cs : List Char) (hm : c ≠ '-') (hp : c ≠ '+') :
    (match c :: cs with
      | '-' :: r => (true, r)
      | '+' :: r => (false, r)
      | r => (false, r)) = (false, c :: cs) := by
  split
  · rename_i r heq
    simp only [List.cons.injEq] at heq
    exact absurd heq.1 hm
  · rename_i r heq
    simp only [List.cons.injEq] at heq
    exact absurd heq.1 hp
  · rfl

theorem takeWhile_all_nonspace (l : List Char) :
    ∀ c ∈ l.takeWhile (fun c => !isspace c), isspace c = false := by
  intro c hc
  have := List.mem_takeWhile_imp hc
  simpa using this

theorem head_space_of_dropWhile (l : List Char) :
    ∀ c ∈ (l.dropWhile (fun c => !isspace c)).head?, isspace c = true := by
  intro c hc
  cases hd : l.dropWhile (fun c => !isspace c) with
  | nil => rw [hd] at hc; simp at hc
  | cons a rest =>
    rw [hd] at hc
    simp only [List.head?_cons, Option.mem_def, Option.some.injEq] at hc
    subst hc
    have := dropWhile_head_not hd
    simpa using this

theorem tokenize_shape {line : String} {t1 t2 : List Char} {rest : List (List Char)}
    (htok : tokensFrom line.data [] = t1 :: t2 :: rest) :
    ∃ (s1 : IStream) (r2 : List Char),
      s1.eofbit = false ∧ s1.failbit = false ∧ s1.buf = t2 ++ r2 ∧ t2 ≠ [] ∧
      (∀ c ∈ t2, isspace c = false) ∧ (∀ c ∈ r2.head?, isspace c = true) ∧
      tokensFrom r2 [] = rest ∧
      tokenize line =
        (String.mk t1, (extractLong s1 none).2,
          readParents ((extractLong s1 none).1.buf.length + 1) (extractLong s1 none).1) := by
  -- the first extraction
  cases hb0 : line.data.dropWhile isspace with
  | nil => rw [tokensFrom_nil_of_spaces hb0] at htok; cases htok
  | cons c0 cs0 =>
    have hc0 : isspace c0 = false := dropWhile_head_not hb0
    rw [tokensFrom_skip, hb0, tokensFrom_cons_of_nonspace hc0] at htok
    simp only [List.cons.injEq] at htok
    obtain ⟨ht1, htok1⟩ := htok
    have hfirst := extractString_ok (s := { buf := line.data, eofbit := false, failbit := false })
      rfl rfl hb0 ""
    -- the stream before the second extraction
    cases hb1 : ((c0 :: cs0).dropWhile (fun c => !isspace c)).dropWhile isspace with
    | nil => rw [tokensFrom_nil_of_spaces hb1] at htok1; cases htok1
    | cons c1 cs1 =>
      have hc1 : isspace c1 = false := dropWhile_head_not hb1
      rw [tokensFrom_skip, hb1, tokensFrom_cons_of_nonspace hc1] at htok1
      simp only [List.cons.injEq] at htok1
      obtain ⟨ht2, hrest⟩ := htok1
      have hne1 : (c0 :: cs0).dropWhile (fun c => !isspace c) ≠ [] := by
        intro h
        rw [h] at hb1
        simp at hb1
      have he1 : ((c0 :: cs0).dropWhile (fun c => !isspace c)).isEmpty = false := by
        cases hh : (c0 :: cs0).dropWhile (fun c => !isspace c) with
        | nil => exact absurd hh hne1
        | cons _ _ => rfl
      refine ⟨{ buf := c1 :: cs1, eofbit := false, failbit := false },
        (c1 :: cs1).dropWhile (fun c => !isspace c), rfl, rfl, ?_, ?_, ?_, ?_, hrest, ?_⟩
      · rw [← ht2]
        exact (List.takeWhile_append_dropWhile _ _).symm
      · rw [← ht2, List.takeWhile_cons_of_pos (by simp [hc1])]
        simp
      · rw [← ht2]
        exact takeWhile_all_nonspace _
      · exact head_space_of_dropWhile _
      · have hlong := extractLong_after_sentry
          (s := { buf := (c0 :: cs0).dropWhile (fun c => !isspace c), eofbit := false,
                  failbit := false }) rfl rfl hb1 none
        simp only [tokenize, hfirst, he1, ht1]
        rw [hlong]

theorem sign_append {t2 : List Char} (hne : t2 ≠ []) (r2 : List Char) :
    (match t2 ++ r2 with
      | '-' :: r => (true, r)
      | '+' :: r => (false, r)
      | r => (false, r)) = (decide (t2.head? = some '-'), numberBody t2 ++ r2) := by
  cases t2 with
  | nil => exact absurd rfl hne
  | cons c t =>
    by_cases hm : c = '-'
    · subst hm
      rfl
    · by_cases hp : c = '+'
      · subst hp
        rfl
      · have h1 := sign_of_other (t ++ r2) hm hp
        have h2 : numberBody (c :: t) = c :: t := by
          unfold numberBody
          split
          · rename_i r heq
            simp only [List.cons.injEq] at heq
            exact absurd heq.1 hm
          · rename_i r heq
            simp only [List.cons.injEq] at heq
            exact absurd heq.1 hp
          · rfl
        rw [List.cons_append, h1, h2]
        simp [hm]

theorem readParents_failed (n : Nat) {s : IStream} (hf : s.failbit = true) :
    readParents n s = [] := by
  cases n with
  | zero => rfl
  | succ n =>
    rw [readParents]
    simp [(extractString_fails (s := s) (Or.inr (Or.inl hf)) "").1]

theorem digits_then_rest {ds r2 : List Char} (hdig : ∀ c ∈ ds, c.isDigit = true)
    (hr2 : ∀ c ∈ r2.head?, isspace c = true) :
    (ds ++ r2).takeWhile Char.isDigit = ds ∧ (ds ++ r2).dropWhile Char.isDigit = r2 := by
  have hhead : r2.takeWhile Char.isDigit = [] ∧ r2.dropWhile Char.isDigit = r2 := by
    cases r2 with
    | nil => exact ⟨rfl, rfl⟩
    | cons c r =>
      have hsp : isspace c = true := hr2 c (by simp)
      have hnd : ¬ c.isDigit = true := by
        intro hd
        rw [isspace_of_digit hd] at hsp
        cases hsp
      exact ⟨List.takeWhile_cons_of_neg hnd, List.dropWhile_cons_of_neg hnd⟩
  rw [List.takeWhile_append_of_pos hdig, List.dropWhile_append_of_pos hdig, hhead.1, hhead.2]
  simp

theorem tokenize_number {line : String} {t1 t2 : List Char} {rest : List (List Char)}
    (htok : tokensFrom line.data [] = t1 :: t2 :: rest) (hne : numberBody t2 ≠ [])
    (hdig : ∀ c ∈ numberBody t2, c.isDigit = true) :
    tokenize line =
      (String.mk t1, some (longOfDigits (decide (t2.head? = some '-')) (numberBody t2)),
        if longInRange (decide (t2.head? = some '-')) (numberBody t2) then
          rest.map String.mk
        else []) := by
  obtain ⟨s1, r2, he, hf, hbuf, ht2ne, _, hr2, hrest, htz⟩ := tokenize_shape htok
  rw [htz]
  obtain ⟨htake, hdrop⟩ := digits_then_rest hdig hr2
  cases hbc : t2 ++ r2 with
  | nil =>
    cases t2 with
    | nil => exact absurd rfl ht2ne
    | cons _ _ => simp at hbc
  | cons c cs =>
    have hsp : isspace c = false := by
      cases t2 with
      | nil => exact absurd rfl ht2ne
      | cons a t =>
        simp only [List.cons_append, List.cons.injEq] at hbc
        rw [← hbc.1]
        rename_i hall
        exact hall a (List.mem_cons_self _ _)
    have hsig := sign_append ht2ne r2
    rw [hbc] at hsig
    have hlong := extractLong_of_sign he hf (hbuf.trans hbc) hsp hsig none
    have hnotempty : (numberBody t2).isEmpty = false := by
      cases hb : numberBody t2 with
      | nil => exact absurd hb hne
      | cons _ _ => rfl
    rw [htake, hdrop, hnotempty] at hlong
    simp only [Bool.false_eq_true, if_false] at hlong
    have hparents : ∀ (fb : Bool),
        readParents (r2.length + 1) { buf := r2, eofbit := r2.isEmpty, failbit := fb } =
          if fb then [] else rest.map String.mk := by
      intro fb
      cases fb with
      | true => exact readParents_failed _ rfl
      | false =>
        rw [readParents_tokens _ _ rfl (by intro h; simpa using h) (by simp), hrest]
        rfl
    have hfinish : ∀ (fb : Bool) (v : Int),
        extractLong s1 none = ({ buf := r2, eofbit := r2.isEmpty, failbit := fb }, some v) →
        v = longOfDigits (decide (t2.head? = some '-')) (numberBody t2) →
        fb = !longInRange (decide (t2.head? = some '-')) (numberBody t2) →
        (String.mk t1, (extractLong s1 none).2,
          readParents ((extractLong s1 none).1.buf.length + 1) (extractLong s1 none).1) =
        (String.mk t1, some (longOfDigits (decide (t2.head? = some '-')) (numberBody t2)),
          if longInRange (decide (t2.head? = some '-')) (numberBody t2) then
            rest.map String.mk
          else []) := by
      intro fb v hl hv hfb
      rw [hl]
      simp only
      rw [hparents, hv, hfb]
      cases longInRange (decide (t2.head? = some '-')) (numberBody t2) <;> rfl
    by_cases hneg : decide (t2.head? = some '-') = true
    · rw [hneg] at hlong hfinish ⊢
      simp only [if_true] at hlong
      by_cases hov : (digitsValue (numberBody t2) : Int) > 2 ^ 63
      · rw [if_pos hov] at hlong
        refine hfinish _ _ hlong ?_ ?_
        · unfold longOfDigits
          rw [if_pos rfl, if_pos hov]
        · unfold longInRange
          rw [if_pos rfl, decide_eq_false (not_le.mpr hov)]
          rfl
      · rw [if_neg hov] at hlong
        refine hfinish _ _ hlong ?_ ?_
        · unfold longOfDigits
          rw [if_pos rfl, if_neg hov]
        · unfold longInRange
          rw [if_pos rfl, decide_eq_true (not_lt.mp hov)]
          rfl
    · have hneg' : decide (t2.head? = some '-') = false := by simpa using hneg
      rw [hneg'] at hlong hfinish ⊢
      simp only [Bool.false_eq_true, if_false] at hlong
      by_cases hov : (digitsValue (numberBody t2) : Int) > LONG_MAX
      · rw [if_pos hov] at hlong
        refine hfinish _ _ hlong ?_ ?_
        · unfold longOfDigits
          rw [if_neg (by simp), if_pos hov]
        · unfold longInRange
          rw [if_neg (by simp), decide_eq_false (not_le.mpr hov)]
          rfl
      · rw [if_neg hov] at hlong
        refine hfinish _ _ hlong ?_ ?_
        · unfold longOfDigits
          rw [if_neg (by simp), if_neg hov]
        · unfold longInRange
          rw [if_neg (by simp), decide_eq_true (not_lt.mp hov)]
          rfl

theorem tokenize_malformed {line : String} {t1 t2 : List Char} {rest : List (List Char)}
    (htok : tokensFrom line.data [] = t1 :: t2 :: rest)
    (hbad : ∀ c ∈ (numberBody t2).head?, c.isDigit = false) :
    tokenize line = (String.mk t1, some 0, []) := by
  obtain ⟨s1, r2, he, hf, hbuf, ht2ne, hall, hr2, _, htz⟩ := tokenize_shape htok
  rw [htz]
  have htake : (numberBody t2 ++ r2).takeWhile Char.isDigit = [] := by
    cases hb : numberBody t2 with
    | nil =>
      cases r2 with
      | nil => rfl
      | cons c r =>
        have hsp : isspace c = true := hr2 c (by simp)
        have hnd : ¬ c.isDigit = true := by
          intro hd
          rw [isspace_of_digit hd] at hsp
          cases hsp
        exact List.takeWhile_cons_of_neg hnd
    | cons c b =>
      have hnd : ¬ c.isDigit = true := by
        have := hbad c (by rw [hb]; simp)
        simp [this]
      exact List.takeWhile_cons_of_neg hnd
  cases hbc : t2 ++ r2 with
  | nil =>
    cases t2 with
    | nil => exact absurd rfl ht2ne
    | cons _ _ => simp at hbc
  | cons c cs =>
    have hsp : isspace c = false := by
      cases t2 with
      | nil => exact absurd rfl ht2ne
      | cons a t =>
        simp only [List.cons_append, List.cons.injEq] at hbc
        rw [← hbc.1]
        exact hall a (List.mem_cons_self _ _)
    have hsig := sign_append ht2ne r2
    rw [hbc] at hsig
    have hlong := extractLong_of_sign he hf (hbuf.trans hbc) hsp hsig none
    rw [htake] at hlong
    simp only [List.isEmpty_nil, if_true] at hlong
    rw [hlong]
    simp only
    rw [readParents_failed _ rfl]

/-! ## Decimal output of a timestamp -/

theorem digitChar_digit {k : Nat} (hk : k < 10) :
    (Nat.digitChar k).isDigit = true ∧ (Nat.digitChar k).toNat - 48 = k := by
  interval_cases k <;> exact ⟨by decide, by decide⟩

theorem foldl_digits (ds : List Char) :
    ∀ a : Nat, ds.foldl (fun a c => 10 * a + (c.toNat - 48)) a =
      a * 10 ^ ds.length + digitsValue ds := by
  induction ds with
  | nil => intro a; simp [digitsValue]
  | cons d ds ih =>
    intro a
    simp only [List.foldl_cons, List.length_cons, digitsValue]
    rw [ih, ih (10 * 0 + (d.toNat - 48))]
    ring

theorem digitsValue_cons (d : Char) (ds : List Char) :
    digitsValue (d :: ds) = (d.toNat - 48) * 10 ^ ds.length + digitsValue ds := by
  unfold digitsValue
  rw [List.foldl_cons, foldl_digits]
  simp [digitsValue]

theorem toDigitsCore_spec :
    ∀ (fuel n : Nat) (ds : List Char), n < fuel → (∀ c ∈ ds, c.isDigit = true) →
      (∀ c ∈ Nat.toDigitsCore 10 fuel n ds, c.isDigit = true) ∧
      Nat.toDigitsCore 10 fuel n ds ≠ [] ∧
      digitsValue (Nat.toDigitsCore 10 fuel n ds) = n * 10 ^ ds.length + digitsValue ds := by
  intro fuel
  induction fuel with
  | zero => intro n ds hn; omega
  | succ fuel ih =>
    intro n ds hn hds
    have hmod : n % 10 < 10 := Nat.mod_lt _ (by norm_num)
    obtain ⟨hd1, hd2⟩ := digitChar_digit hmod
    have hds' : ∀ c ∈ Nat.digitChar (n % 10) :: ds, c.isDigit = true := by
      intro c hc
      rcases List.mem_cons.mp hc with rfl | hc
      · exact hd1
      · exact hds c hc
    have hval : digitsValue (Nat.digitChar (n % 10) :: ds) =
        (n % 10) * 10 ^ ds.length + digitsValue ds := by
      rw [digitsValue_cons, hd2]
    rw [Nat.toDigitsCore]
    by_cases hz : n / 10 = 0
    · rw [if_pos hz]
      refine ⟨hds', by simp, ?_⟩
      rw [hval]
      have : n % 10 = n := Nat.mod_eq_of_lt (by omega)
      rw [this]
    · rw [if_neg hz]
      have hlt : n / 10 < fuel := by omega
      obtain ⟨h1, h2, h3⟩ := ih (n / 10) (Nat.digitChar (n % 10) :: ds) hlt hds'
      refine ⟨h1, h2, ?_⟩
      rw [h3, hval, List.length_cons, pow_succ]
      have := Nat.div_add_mod n 10
      calc n / 10 * (10 ^ ds.length * 10) + (n % 10 * 10 ^ ds.length + digitsValue ds)
          = (10 * (n / 10) + n % 10) * 10 ^ ds.length + digitsValue ds := by ring
        _ = n * 10 ^ ds.length + digitsValue ds := by rw [this]

theorem toDigits_spec (n : Nat) :
    (∀ c ∈ Nat.toDigits 10 n, c.isDigit = true) ∧ Nat.toDigits 10 n ≠ [] ∧
      digitsValue (Nat.toDigits 10 n) = n := by
  obtain ⟨h1, h2, h3⟩ := toDigitsCore_spec (n + 1) n [] (by omega) (by simp)
  refine ⟨h1, h2, ?_⟩
  unfold Nat.toDigits
  rw [h3]
  simp [digitsValue]

theorem parseLine_of_tokenize {line : String} {name : String} {ts : Int} {ps : List String}
    (h : tokenize line = (name, some ts, ps)) :
    parseLine line = Res.ok { nodeName := name, ts := ts, parents := ps } := by
  simp [parseLine, h]

/-- C15 as the claim states it fails: the line `Y abc Q R` has the tokens `Y`,
`abc`, `Q`, `R`, and its record has timestamp 0 and no parent, because the
failed extraction of the timestamp leaves the stream failed; and in
`Z 12x y` the rest `x` of the second token becomes the first parent. -/
theorem malformed_timestamp_drops_parents :
    tokens "Y abc Q R" = ["Y", "abc", "Q", "R"] ∧
    parseLine "Y abc Q R" = Res.ok { nodeName := "Y", ts := 0, parents := [] } ∧
    tokens "Z 12x y" = ["Z", "12x", "y"] ∧
    parseLine "Z 12x y" = Res.ok { nodeName := "Z", ts := 12, parents := ["x", "y"] } := by
  decide

/-- C15, amended: for a line with at least two tokens whose second token is an
optional sign followed by decimal digits only, the record has the first token
as name, the number as timestamp and, when the number is in the range of
`long`, exactly the third and later tokens in order as parents (out of range
the timestamp is the nearest bound and there is no parent); when the second
token has no digit after the optional sign, the timestamp is 0, no error is
raised and the record has no parent. -/
theorem parents_are_later_tokens (line : String) (t1 t2 : List Char) (rest : List (List Char))
    (htok : tokensFrom line.data [] = t1 :: t2 :: rest) :
    (numberBody t2 ≠ [] → (∀ c ∈ numberBody t2, c.isDigit = true) →
      longInRange (decide (t2.head? = some '-')) (numberBody t2) = true →
      parseLine line = Res.ok
        { nodeName := String.mk t1,
          ts := longOfDigits (decide (t2.head? = some '-')) (numberBody t2),
          parents := rest.map String.mk }) ∧
    (numberBody t2 ≠ [] → (∀ c ∈ numberBody t2, c.isDigit = true) →
      longInRange (decide (t2.head? = some '-')) (numberBody t2) = false →
      parseLine line = Res.ok
        { nodeName := String.mk t1,
          ts := longOfDigits (decide (t2.head? = some '-')) (numberBody t2),
          parents := [] }) ∧
    ((∀ c ∈ (numberBody t2).head?, c.isDigit = false) →
      parseLine line = Res.ok { nodeName := String.mk t1, ts := 0, parents := [] }) := by
  refine ⟨fun hne hdig hr => ?_, fun hne hdig hr => ?_, fun hbad => ?_⟩
  · apply parseLine_of_tokenize
    rw [tokenize_number htok hne hdig, hr]
    rfl
  · apply parseLine_of_tokenize
    rw [tokenize_number htok hne hdig, hr]
    rfl
  · exact parseLine_of_tokenize (tokenize_malformed htok hbad)

/-- Instance of C15 as amended: the first line of the diamond. -/
theorem parents_are_later_tokens_witness :
    tokensFrom "D 400 B C".data [] = ['D'] :: ['4', '0', '0'] :: [['B'], ['C']] ∧
    parseLine "D 400 B C" = Res.ok { nodeName := "D", ts := 400, parents := ["B", "C"] } ∧
    ((numberBody ['4', '0', '0'] ≠ [] → (∀ c ∈ numberBody ['4', '0', '0'], c.isDigit = true) →
      longInRange (decide (['4', '0', '0'].head? = some '-')) (numberBody ['4', '0', '0']) = true →
      parseLine "D 400 B C" = Res.ok
        { nodeName := String.mk ['D'],
          ts := longOfDigits (decide (['4', '0', '0'].head? = some '-'))
            (numberBody ['4', '0', '0']),
          parents := [['B'], ['C']].map String.mk }) ∧
    (numberBody ['4', '0', '0'] ≠ [] → (∀ c ∈ numberBody ['4', '0', '0'], c.isDigit = true) →
      longInRange (decide (['4', '0', '0'].head? = some '-')) (numberBody ['4', '0', '0']) =
        false →
      parseLine "D 400 B C" = Res.ok
        { nodeName := String.mk ['D'],
          ts := longOfDigits (decide (['4', '0', '0'].head? = some '-'))
            (numberBody ['4', '0', '0']),
          parents := [] }) ∧
    ((∀ c ∈ (numberBody ['4', '0', '0']).head?, c.isDigit = false) →
      parseLine "D 400 B C" = Res.ok { nodeName := String.mk ['D'], ts := 0, parents := [] })) :=
  ⟨by decide, by decide, parents_are_later_tokens "D 400 B C" _ _ _ (by decide)⟩

/-! ## Reading back an output line -/

theorem sentry_true_good {s s1 : IStream} (h : sentry s = (s1, true)) :
    s.eofbit = false ∧ s.failbit = false := by
  unfold sentry at h
  by_cases hg : s.good = true
  · simp only [IStream.good, Bool.and_eq_true, Bool.not_eq_true'] at hg
    exact hg
  · rw [if_neg hg] at h
    simp at h

theorem extractString_token {s : IStream} {str : String}
    (h : (extractString s str).1.failbit = false) : IsToken (extractString s str).2 := by
  by_cases hg : s.eofbit = true ∨ s.failbit = true
  · rw [(extractString_fails (Or.elim hg Or.inl (fun h => Or.inr (Or.inl h))) str).1] at h
    cases h
  · have he : s.eofbit = false := by
      cases hh : s.eofbit
      · rfl
      · exact absurd (Or.inl hh) hg
    have hf : s.failbit = false := by
      cases hh : s.failbit
      · rfl
      · exact absurd (Or.inr hh) hg
    cases hb : s.buf.dropWhile isspace with
    | nil =>
      rw [(extractString_fails (Or.inr (Or.inr hb)) str).1] at h
      cases h
    | cons c cs =>
      have hc : isspace c = false := dropWhile_head_not hb
      rw [extractString_ok he hf hb]
      refine ⟨?_, ?_⟩
      · simp only
        rw [List.takeWhile_cons_of_pos (by simp [hc])]
        simp
      · exact takeWhile_all_nonspace _

theorem readParents_all_tokens :
    ∀ (n : Nat) (s : IStream), ∀ p ∈ readParents n s, IsToken p := by
  intro n
  induction n with
  | zero => intro s p hp; simp [readParents] at hp
  | succ n ih =>
    intro s p hp
    rw [readParents] at hp
    by_cases hf : (extractString s "").1.failbit = true
    · simp [hf] at hp
    · have hf' : (extractString s "").1.failbit = false := by simpa using hf
      simp only [hf', Bool.false_eq_true, if_false, List.mem_cons] at hp
      rcases hp with rfl | hp
      · exact extractString_token hf'
      · exact ih _ p hp

theorem parseLine_tokens {line : String} {r : Record} (h : parseLine line = Res.ok r) :
    IsToken r.nodeName ∧ ∀ p ∈ r.parents, IsToken p := by
  unfold parseLine at h
  cases hts : (tokenize line).2.1 with
  | none =>
    have : tokenize line = ((tokenize line).1, none, (tokenize line).2.2) := by
      rw [← hts]
    rw [this] at h
    cases h
  | some ts =>
    have heq : tokenize line = ((tokenize line).1, some ts, (tokenize line).2.2) := by
      rw [← hts]
    rw [heq] at h
    simp only [Res.ok.injEq] at h
    subst h
    simp only
    constructor
    · -- the name was extracted, since the timestamp was written
      have hgood : (extractString { buf := line.data, eofbit := false, failbit := false }
          "").1.failbit = false := by
        cases hs : sentry (extractString { buf := line.data, eofbit := false, failbit := false }
            "").1 with
        | mk s1 ok =>
          cases ok with
          | true => exact (sentry_true_good hs).2
          | false =>
            have : (tokenize line).2.1 = none := by
              simp [tokenize, extractLong, hs]
            rw [this] at hts
            cases hts
      exact extractString_token hgood
    · exact readParents_all_tokens _ _

theorem parsed_of_mem {lines : List String} {rs : List Record}
    (hrs : List.Forall₂ (fun line r => parseLine line = Res.ok r) lines rs) :
    ∀ r ∈ rs, ∃ line, parseLine line = Res.ok r := by
  induction hrs with
  | nil => intro r hr; simp at hr
  | cons hp _ ih =>
    intro r hr
    rcases List.mem_cons.mp hr with rfl | hr
    · exact ⟨_, hp⟩
    · exact ih r hr

theorem store_names_tokens {lines : List String} {b : Build}
    (hread : readLines Build.init lines = Res.ok b) {p : Nat} {x : Vertex}
    (hx : b.store.heap[p]? = some x) : IsToken x.name := by
  obtain ⟨rs, hrs, hb⟩ := readLines_records lines _ _ hread
  subst hb
  have ok := storeOK_init rs
  have hmem : x.name ∈ (readRecords Build.init rs).store.heap.map Vertex.name :=
    List.mem_map.mpr ⟨x, List.getElem?_mem hx, rfl⟩
  rw [mem_names_iff ok, readRecords_keys] at hmem
  have hment : x.name ∈ mentioned rs := by
    rcases hmem with h | h
    · simp [Build.init, Store.empty, VertexMap.find] at h
    · exact h
  simp only [mentioned, List.mem_flatMap, List.mem_cons] at hment
  obtain ⟨r, hr, hname⟩ := hment
  obtain ⟨line, hline⟩ := parsed_of_mem hrs r hr
  obtain ⟨h1, h2⟩ := parseLine_tokens hline
  rcases hname with h | h
  · rw [h]; exact h1
  · exact h2 _ h

theorem tokens_outputLine {x : Vertex} (hname : IsToken x.name) :
    tokensFrom (outputLine x).data [] = [x.name.data, Nat.toDigits 10 x.timestamp] := by
  obtain ⟨hd1, hd2, _⟩ := toDigits_spec x.timestamp
  have hdata : (outputLine x).data = x.name.data ++ (' ' :: Nat.toDigits 10 x.timestamp) := by
    show x.name.data ++ [' '] ++ Nat.toDigits 10 x.timestamp = _
    simp
  have hns : ∀ c ∈ x.name.data, (fun c => !isspace c) c = true := by
    intro c hc
    simp [hname.2 c hc]
  have hnd : ∀ c ∈ Nat.toDigits 10 x.timestamp, (fun c => !isspace c) c = true := by
    intro c hc
    simp [isspace_of_digit (hd1 c hc)]
  have hsp : isspace ' ' = true := by decide
  rw [hdata, tokensFrom_split, List.takeWhile_append_of_pos hns,
    List.dropWhile_append_of_pos hns,
    List.takeWhile_cons_of_neg (by simp [hsp]), List.dropWhile_cons_of_neg (by simp [hsp])]
  have hne : (([] : List Char) ++ (x.name.data ++ [])).isEmpty = false := by
    cases hh : x.name.data with
    | nil => exact absurd hh hname.1
    | cons _ _ => rfl
  rw [hne]
  simp only [Bool.false_eq_true, if_false, List.nil_append, List.append_nil]
  congr 1
  rw [tokensFrom, if_pos hsp]
  simp only [List.isEmpty_nil, if_true]
  rw [tokensFrom_split]
  have htw : (Nat.toDigits 10 x.timestamp).takeWhile (fun c => !isspace c) =
      Nat.toDigits 10 x.timestamp := List.takeWhile_eq_self_iff.mpr hnd
  have hdw : (Nat.toDigits 10 x.timestamp).dropWhile (fun c => !isspace c) = [] :=
    List.dropWhile_eq_nil_iff.mpr hnd
  rw [htw, hdw]
  have hne2 : (([] : List Char) ++ Nat.toDigits 10 x.timestamp).isEmpty = false := by
    cases hh : Nat.toDigits 10 x.timestamp with
    | nil => exact absurd hh hd2
    | cons _ _ => rfl
  rw [hne2]
  simp [tokensFrom]

theorem numberBody_of_digits {ds : List Char} (hne : ds ≠ [])
    (hdig : ∀ c ∈ ds, c.isDigit = true) :
    numberBody ds = ds ∧ decide (ds.head? = some '-') = false := by
  cases ds with
  | nil => exact absurd rfl hne
  | cons d rest =>
    obtain ⟨hm, hp⟩ := digit_ne_sign (hdig d (List.mem_cons_self _ _))
    constructor
    · unfold numberBody
      split
      · rename_i r heq
        simp only [List.cons.injEq] at heq
        exact absurd heq.1 hm
      · rename_i r heq
        simp only [List.cons.injEq] at heq
        exact absurd heq.1 hp
      · rfl
    · simp [hm]

theorem tokenize_outputLine {x : Vertex} (hname : IsToken x.name) :
    tokenize (outputLine x) =
      (x.name, some (longOfDigits false (Nat.toDigits 10 x.timestamp)), []) := by
  obtain ⟨hd1, hd2, _⟩ := toDigits_spec x.timestamp
  obtain ⟨hb, hneg⟩ := numberBody_of_digits hd2 hd1
  have h := tokenize_number (tokens_outputLine hname) (by rw [hb]; exact hd2)
    (by rw [hb]; exact hd1)
  rw [hb, hneg] at h
  rw [h]
  simp

theorem toTimestamp_natCast {n : Nat} (hn : n < 2 ^ 64) : toTimestamp (n : Int) = n := by
  unfold toTimestamp
  have h : ((n : Int) % 2 ^ 64) = (n : Int) := by
    apply Int.emod_eq_of_lt
    · exact Int.natCast_nonneg n
    · exact_mod_cast hn
  rw [h]
  simp

theorem longOfDigits_toDigits (t : Nat) :
    (t < 2 ^ 63 → longOfDigits false (Nat.toDigits 10 t) = (t : Int) ∧
      toTimestamp (t : Int) = t) ∧
    (2 ^ 63 ≤ t → longOfDigits false (Nat.toDigits 10 t) = LONG_MAX ∧
      toTimestamp LONG_MAX ≠ t) := by
  obtain ⟨_, _, hval⟩ := toDigits_spec t
  have hmax : toTimestamp LONG_MAX = 9223372036854775807 := by decide
  constructor
  · intro hlt
    constructor
    · unfold longOfDigits LONG_MAX
      rw [hval]
      simp only [Bool.false_eq_true, if_false]
      rw [if_neg]
      omega
    · apply toTimestamp_natCast
      have : (2 : Nat) ^ 64 = 18446744073709551616 := by norm_num
      omega
  · intro hge
    constructor
    · unfold longOfDigits LONG_MAX
      rw [hval]
      simp only [Bool.false_eq_true, if_false]
      rw [if_pos]
      omega
    · rw [hmax]
      intro heq
      have h2 : t = 9223372036854775807 := heq.symm
      omega

/-- C11 as the claim states it fails: for the input `Y 500 Z` the program
prints `Z 18446744073709551615` for the vertex `Z` with the unset timestamp,
and the program's own parsing reads that line back with `ts` equal to the
largest `long`, which converts to a timestamp other than the unset mark. -/
theorem unset_timestamp_does_not_read_back :
    main 2 ["Y 500 Z"] = Res.ok ["Z 18446744073709551615", "Y 500"] ∧
    outputLine ⟨"Z", 0, UNSET, [], Slot.holds (some 0)⟩ = "Z 18446744073709551615" ∧
    parseLine "Z 18446744073709551615" =
      Res.ok { nodeName := "Z", ts := 9223372036854775807, parents := [] } ∧
    toTimestamp 9223372036854775807 = 9223372036854775807 ∧
    UNSET = 18446744073709551615 := by
  decide

/-- C11, amended: for every vertex of a store read from any lines, hence for
every vertex the program prints, whose timestamp is below 2^63, parsing its
output line with the program's record parsing yields the vertex's name, its
timestamp and no parent; for a timestamp of 2^63 or more, in particular the
unset mark, the parsing yields the largest `long` instead, which converts to a
different timestamp. -/
theorem output_line_reads_back (lines : List String) (b : Build) (p : Nat) (x : Vertex)
    (hread : readLines Build.init lines = Res.ok b) (hx : b.store.heap[p]? = some x) :
    (x.timestamp < 2 ^ 63 →
      parseLine (outputLine x) =
        Res.ok { nodeName := x.name, ts := (x.timestamp : Int), parents := [] } ∧
      toTimestamp (x.timestamp : Int) = x.timestamp) ∧
    (2 ^ 63 ≤ x.timestamp →
      parseLine (outputLine x) =
        Res.ok { nodeName := x.name, ts := LONG_MAX, parents := [] } ∧
      toTimestamp LONG_MAX ≠ x.timestamp) := by
  have hname := store_names_tokens hread hx
  have htok := tokenize_outputLine hname
  obtain ⟨hsmall, hbig⟩ := longOfDigits_toDigits x.timestamp
  constructor
  · intro hlt
    obtain ⟨hlong, hconv⟩ := hsmall hlt
    rw [hlong] at htok
    exact ⟨parseLine_of_tokenize htok, hconv⟩
  · intro hge
    obtain ⟨hlong, hconv⟩ := hbig hge
    rw [hlong] at htok
    exact ⟨parseLine_of_tokenize htok, hconv⟩

/-- Instance of C11 as amended: the two vertices of `Y 500 Z`. -/
theorem output_line_reads_back_witness :
    readLines Build.init ["Y 500 Z"] = Res.ok (readRecords Build.init backfillRecords) ∧
    (readRecords Build.init backfillRecords).store.heap[0]? =
      some ⟨"Y", -1, 500, [1], Slot.indeterminate⟩ ∧
    parseLine (outputLine ⟨"Y", -1, 500, [1], Slot.indeterminate⟩) =
      Res.ok { nodeName := "Y", ts := 500, parents := [] } ∧
    (((⟨"Y", -1, 500, [1], Slot.indeterminate⟩ : Vertex).timestamp < 2 ^ 63 →
      parseLine (outputLine ⟨"Y", -1, 500, [1], Slot.indeterminate⟩) =
        Res.ok { nodeName := (⟨"Y", -1, 500, [1], Slot.indeterminate⟩ : Vertex).name,
                 ts := ((⟨"Y", -1, 500, [1], Slot.indeterminate⟩ : Vertex).timestamp : Int),
                 parents := [] } ∧
      toTimestamp ((⟨"Y", -1, 500, [1], Slot.indeterminate⟩ : Vertex).timestamp : Int) =
        (⟨"Y", -1, 500, [1], Slot.indeterminate⟩ : Vertex).timestamp) ∧
    (2 ^ 63 ≤ (⟨"Y", -1, 500, [1], Slot.indeterminate⟩ : Vertex).timestamp →
      parseLine (outputLine ⟨"Y", -1, 500, [1], Slot.indeterminate⟩) =
        Res.ok { nodeName := (⟨"Y", -1, 500, [1], Slot.indeterminate⟩ : Vertex).name,
                 ts := LONG_MAX, parents := [] } ∧
      toTimestamp LONG_MAX ≠ (⟨"Y", -1, 500, [1], Slot.indeterminate⟩ : Vertex).timestamp)) :=
  ⟨by decide, by decide, by decide,
    output_line_reads_back ["Y 500 Z"] (readRecords Build.init backfillRecords) 0
      ⟨"Y", -1, 500, [1], Slot.indeterminate⟩ (by decide) (by decide)⟩

/-! ## The program does not depend on the addresses -/

theorem tsOf_init (k : String) : tsOf Build.init.store k = UNSET := by
  simp [tsOf, Build.init, Store.empty, VertexMap.find]

/-! ## Records in another order -/

end Daglp
